import Mathlib

/-!
# LoadedMethodDescIterator (src/vm/methoditer.cpp)

A shallow embedding of the iterator over the loaded instances of a method
definition, and theorems about it.

Pointers are modelled by value: a `MethodDesc *` is the record of the
attributes the iterator reads, with an `addr` field for its identity; a null
pointer is `none`.  A dereference of a null pointer, or of the current element
of a cursor that has none, is `Outcome.undefinedBehaviour`.

The `goto` structure of `Next` is kept: every label is a block (`block`) that
ends in a jump or a return, and `run` drives the blocks.  The build modelled is
the one with `PROFILING_SUPPORTED` and `_DEBUG` defined and `DACCESS_COMPILE`
undefined; assertions are not part of the control flow, they are stated as
theorems.
-/

namespace MethodIter

/-! ## Results of code that can go wrong -/

/-- Outcome of a call: a value, a dereference of an invalid pointer, or a driver
that ran out of fuel. -/
inductive Outcome (α : Type) where
  | ok (a : α)
  | undefinedBehaviour
  | outOfFuel
  deriving DecidableEq

/-! ## The runtime data the iterator reads -/

abbrev mdMethodDef := Nat
abbrev AssemblyIterationFlags := Nat
abbrev ModuleIterationOption := Nat

/-- The constant `mdTokenNil`. -/
def mdTokenNil : mdMethodDef := 0

inductive AssemblyIterationMode where
  | kModeSharedDomainAssemblies
  | kModeUnsharedADAssemblies
  | kModeAllADAssemblies
  deriving DecidableEq, Repr

open AssemblyIterationMode

/-- What the iterator reads of a `MethodDesc`: its flags, its module (the
address of the `Module`), its token, its slot, and the type-def RID of its
method table (`GetMethodTable()->GetTypeDefRid()`). -/
structure MethodDesc where
  addr : Nat
  HasClassInstantiation : Bool
  HasMethodInstantiation : Bool
  IsRestored : Bool
  GetModule : Nat
  GetMemberDef : mdMethodDef
  GetSlot : Nat
  GetMethodTable_GetTypeDefRid : Nat
  deriving DecidableEq, Repr

/-- Modelled from the spec: `MethodDesc::HasClassOrMethodInstantiation` (declared
in method.hpp), true when the method has type-level or method-level generic
parameters. -/
def MethodDesc.HasClassOrMethodInstantiation (md : MethodDesc) : Bool :=
  md.HasClassInstantiation || md.HasMethodInstantiation

/-- What the iterator reads of a `MethodTable`. -/
structure MethodTable where
  IsRestored : Bool
  GetTypeDefRid : Nat
  GetModule : Nat
  GetMethodDescForSlot : Nat → MethodDesc

/-- A `TypeHandle`: the result of `CORCOMPILE_IS_POINTER_TAGGED` on its address,
its two kind tests, and the method table it stands for. -/
structure TypeHandle where
  isPointerTagged : Bool
  IsEncodedFixup : Bool
  IsTypeDesc : Bool
  AsMethodTable : MethodTable

/-- Modelled from the spec: `TypeHandle::GetMethodTable` (typehandle.h), the method
table of the instantiated type, as `Current` reads it.  For a handle that is not a
`TypeDesc` (the only handles `Next` accepts) it is `AsMethodTable`. -/
def TypeHandle.GetMethodTable (th : TypeHandle) : MethodTable := th.AsMethodTable

/-- An entry of a module's table of instantiated types. -/
structure EETypeHashEntry where
  GetTypeHandle : TypeHandle

/-- An entry of a module's table of instantiated methods: the result of
`CORCOMPILE_IS_POINTER_TAGGED` on the method pointer, and the method. -/
structure InstMethodHashEntry where
  isPointerTagged : Bool
  GetMethod : MethodDesc
  deriving DecidableEq, Repr

structure Module where
  addr : Nat
  IsResource : Bool
  IsProfilerNotified : Bool
  LookupMethodDef : mdMethodDef → Option MethodDesc
  GetAvailableParamTypes : List EETypeHashEntry
  GetInstMethodHashTable : List InstMethodHashEntry

structure Assembly where
  IsDomainNeutral : Bool
  IterateModules : List Module

structure DomainAssembly where
  GetAssembly : Assembly
  IterateModules : ModuleIterationOption → List Module

structure AppDomain where
  IterateAssembliesEx : AssemblyIterationFlags → List DomainAssembly

/-- The caller's `CollectibleAssemblyHolder<DomainAssembly *>`. -/
abbrev Holder := Option DomainAssembly

/-! ## The cursors (code outside this file) -/

/-- Modelled from the spec: the iterator of an instantiation table
(`EETypeHashTable::Iterator`, `InstMethodHashTable::Iterator`), a restartable
sequence over the entries of one table.  `none` is the state after `Reset`;
`some rest` is an iteration in progress with `rest` still to come. -/
abbrev HashIterator (ε : Type) := Option (List ε)

/-- Modelled from the spec: `Iterator::Reset`. -/
def HashIterator.Reset {ε : Type} : HashIterator ε := none

/-- Modelled from the spec: `FindNext(&it, &entry)` on a table: a reset iterator
starts on the table it is given, the next entry is stored and TRUE returned, or
the entry is set to NULL and FALSE returned at the end. -/
def FindNext {ε : Type} (table : List ε) (it : HashIterator ε) :
    Bool × HashIterator ε × Option ε :=
  match it.getD table with
  | [] => (false, some [], none)
  | e :: rest => (true, some rest, some e)

/-- Modelled from the spec: a cursor over a sequence (`DomainModuleIterator`,
`ModuleIterator`, `SharedDomain::SharedAssemblyIterator`): the element it stands
on, if any, and the elements still to come. -/
structure Cursor (α : Type) where
  current : Option α
  remaining : List α

/-- Modelled from the spec: a cursor before its first `Next`. -/
def Cursor.start {α : Type} (xs : List α) : Cursor α := ⟨none, xs⟩

/-- Modelled from the spec: `Next()` of a cursor: move to the next element and
return TRUE, or return FALSE at the end (the cursor then has no current
element). -/
def Cursor.Next {α : Type} (c : Cursor α) : Bool × Cursor α :=
  match c.remaining with
  | [] => (false, ⟨none, []⟩)
  | a :: rest => (true, ⟨some a, rest⟩)

/-- Modelled from the spec: `AppDomain::AssemblyIterator`, the assemblies still to
come. -/
structure AssemblyIterator where
  remaining : List DomainAssembly

/-- Modelled from the spec: `AssemblyIterator::Next(pDomainAssemblyHolder)`: store
the next assembly in the holder and return TRUE, or store NULL and return
FALSE. -/
def AssemblyIterator.Next (it : AssemblyIterator) : Bool × AssemblyIterator × Holder :=
  match it.remaining with
  | [] => (false, ⟨[]⟩, none)
  | a :: rest => (true, ⟨rest⟩, some a)

/-! ## The iterator object -/

structure LoadedMethodDescIterator where
  m_assemblyIterationMode : AssemblyIterationMode
  m_assemIterationFlags : AssemblyIterationFlags
  m_moduleIterationFlags : ModuleIterationOption
  m_mainMD : Option MethodDesc
  m_module : Option Module
  m_md : mdMethodDef
  m_pAppDomain : Option AppDomain
  m_fFirstTime : Bool
  m_assemIterator : AssemblyIterator
  m_moduleIterator : Cursor Module
  m_sharedAssemblyIterator : Cursor Assembly
  m_sharedModuleIterator : Cursor Module
  m_typeIterator : HashIterator EETypeHashEntry
  m_typeIteratorEntry : Option EETypeHashEntry
  m_startedNonGenericType : Bool
  m_methodIterator : HashIterator InstMethodHashEntry
  m_methodIteratorEntry : Option InstMethodHashEntry
  m_startedNonGenericMethod : Bool
  dbg_m_pDomainAssembly : Holder

namespace LoadedMethodDescIterator

/-- The constructor: it writes four members; the cursors are default constructed
(the shared assembly cursor on the assemblies of the shared domain); every other
member keeps the value `raw` of the memory the object is built in. -/
def ctor (sharedDomain : List Assembly) (raw : LoadedMethodDescIterator) :
    LoadedMethodDescIterator :=
  { raw with
    m_mainMD := none
    m_module := none
    m_md := mdTokenNil
    m_pAppDomain := none
    m_assemIterator := ⟨[]⟩
    m_moduleIterator := Cursor.start []
    m_sharedAssemblyIterator := Cursor.start sharedDomain
    m_sharedModuleIterator := Cursor.start []
    m_typeIterator := HashIterator.Reset
    m_methodIterator := HashIterator.Reset }

/-- The six-argument `Start`. -/
def Start (self : LoadedMethodDescIterator) (pAppDomain : Option AppDomain)
    (pModule : Module) (md : mdMethodDef) (assemblyIterationMode : AssemblyIterationMode)
    (assemblyIterationFlags : AssemblyIterationFlags)
    (moduleIterationFlags : ModuleIterationOption) : LoadedMethodDescIterator :=
  { self with
    m_assemblyIterationMode := assemblyIterationMode
    m_assemIterationFlags := assemblyIterationFlags
    m_moduleIterationFlags := moduleIterationFlags
    m_mainMD := none
    m_module := some pModule
    m_md := md
    m_pAppDomain := pAppDomain
    m_fFirstTime := true }

def GetCurrentModule (self : LoadedMethodDescIterator) : Option Module :=
  if self.m_assemblyIterationMode = kModeSharedDomainAssemblies then
    self.m_sharedModuleIterator.current
  else
    self.m_moduleIterator.current

/-- The loop of `NextSharedModule` on the shared module cursor. -/
def nextSharedModuleLoop : List Module → Bool × Cursor Module
  | [] => (false, ⟨none, []⟩)
  | pModule :: rest =>
    if !pModule.IsProfilerNotified then nextSharedModuleLoop rest
    else (true, ⟨some pModule, rest⟩)

def NextSharedModule (self : LoadedMethodDescIterator) : Bool × LoadedMethodDescIterator :=
  let r := nextSharedModuleLoop self.m_sharedModuleIterator.remaining
  (r.1, { self with m_sharedModuleIterator := r.2 })

/-- The comparison `p != m_module` of a module address with the target module. -/
def neModule (p : Nat) (m_module : Option Module) : Bool :=
  match m_module with
  | none => true
  | some m => p != m.addr

def Current (self : LoadedMethodDescIterator) : Outcome MethodDesc :=
  match self.m_mainMD with
  | none => .undefinedBehaviour
  | some mainMD =>
    if mainMD.HasMethodInstantiation then
      match self.m_methodIteratorEntry with
      | none => .undefinedBehaviour
      | some e => .ok e.GetMethod
    else if !mainMD.HasClassInstantiation then
      .ok mainMD
    else
      match self.m_typeIteratorEntry with
      | none => .undefinedBehaviour
      | some e => .ok (e.GetTypeHandle.GetMethodTable.GetMethodDescForSlot mainMD.GetSlot)

end LoadedMethodDescIterator

/-! ## The labels of `Next` -/

inductive Label where
  | ADVANCE_ASSEMBLY
  | ADVANCE_MODULE
  | ADVANCE_TYPE
  | ADVANCE_METHOD
  deriving DecidableEq, Repr

open Label

/-- How a block ends. -/
inductive Step where
  | ret (b : Bool) (self : LoadedMethodDescIterator) (holder : Holder)
  | goto (l : Label) (self : LoadedMethodDescIterator) (holder : Holder)
  | fault

namespace LoadedMethodDescIterator

/-- Lines 82-112. -/
def blockAssembly (self : LoadedMethodDescIterator) (holder : Holder) : Step :=
  if self.m_assemblyIterationMode = kModeSharedDomainAssemblies then
    let r := self.m_sharedAssemblyIterator.Next
    let self1 := { self with m_sharedAssemblyIterator := r.2 }
    if !r.1 then .ret false self1 holder
    else
      match self1.m_sharedAssemblyIterator.current with
      | none => .fault
      | some a =>
        .goto ADVANCE_MODULE
          { self1 with m_sharedModuleIterator := Cursor.start a.IterateModules } holder
  else
    let r := self.m_assemIterator.Next
    let self1 := { self with m_assemIterator := r.2.1 }
    let holder1 : Holder := r.2.2
    if !r.1 then .ret false self1 holder1
    else
      match holder1 with
      | none => .fault
      | some da =>
        if self1.m_assemblyIterationMode = kModeUnsharedADAssemblies
            && da.GetAssembly.IsDomainNeutral then
          .goto ADVANCE_ASSEMBLY self1 holder1
        else
          .goto ADVANCE_MODULE
            { self1 with
              dbg_m_pDomainAssembly := holder1
              m_moduleIterator := Cursor.start (da.IterateModules self1.m_moduleIterationFlags) }
            holder1

/-- Lines 115-137. -/
def blockModule (self : LoadedMethodDescIterator) (holder : Holder) : Step :=
  let r : Bool × LoadedMethodDescIterator :=
    if self.m_assemblyIterationMode = kModeSharedDomainAssemblies then
      self.NextSharedModule
    else
      let n := self.m_moduleIterator.Next
      (n.1, { self with m_moduleIterator := n.2 })
  let self1 := r.2
  if !r.1 then .goto ADVANCE_ASSEMBLY self1 holder
  else
    match self1.GetCurrentModule with
    | none => .fault
    | some m =>
      if m.IsResource then .goto ADVANCE_MODULE self1 holder
      else
        match self1.m_mainMD with
        | none => .fault
        | some mainMD =>
          if mainMD.HasClassInstantiation then
            .goto ADVANCE_TYPE { self1 with m_typeIterator := HashIterator.Reset } holder
          else
            .goto ADVANCE_TYPE { self1 with m_startedNonGenericType := false } holder

/-- Lines 184-191, the end of the block of `ADVANCE_TYPE`. -/
def resetMethod (mainMD : MethodDesc) (self : LoadedMethodDescIterator) (holder : Holder) :
    Step :=
  if mainMD.HasMethodInstantiation then
    .goto ADVANCE_METHOD { self with m_methodIterator := HashIterator.Reset } holder
  else
    .goto ADVANCE_METHOD { self with m_startedNonGenericMethod := false } holder

/-- Lines 139-191. -/
def blockType (self : LoadedMethodDescIterator) (holder : Holder) : Step :=
  match self.m_mainMD with
  | none => .fault
  | some mainMD =>
    if mainMD.HasClassInstantiation then
      match self.GetCurrentModule with
      | none => .fault
      | some m =>
        let r := FindNext m.GetAvailableParamTypes self.m_typeIterator
        let self1 := { self with m_typeIterator := r.2.1, m_typeIteratorEntry := r.2.2 }
        if !r.1 then .goto ADVANCE_MODULE self1 holder
        else
          match self1.m_typeIteratorEntry with
          | none => .fault
          | some entry =>
            if entry.GetTypeHandle.isPointerTagged then .goto ADVANCE_TYPE self1 holder
            else
              let th := entry.GetTypeHandle
              if th.IsEncodedFixup then .goto ADVANCE_TYPE self1 holder
              else if th.IsTypeDesc then .goto ADVANCE_TYPE self1 holder
              else
                let pMT := th.AsMethodTable
                if !pMT.IsRestored then .goto ADVANCE_TYPE self1 holder
                else if pMT.GetTypeDefRid != mainMD.GetMethodTable_GetTypeDefRid then
                  .goto ADVANCE_TYPE self1 holder
                else if neModule pMT.GetModule self1.m_module then
                  .goto ADVANCE_TYPE self1 holder
                else resetMethod mainMD self1 holder
    else if self.m_startedNonGenericType then
      .goto ADVANCE_MODULE self holder
    else
      resetMethod mainMD { self with m_startedNonGenericType := true } holder

/-- Lines 193-224. -/
def blockMethod (self : LoadedMethodDescIterator) (holder : Holder) : Step :=
  match self.m_mainMD with
  | none => .fault
  | some mainMD =>
    if mainMD.HasMethodInstantiation then
      match self.GetCurrentModule with
      | none => .fault
      | some m =>
        let r := FindNext m.GetInstMethodHashTable self.m_methodIterator
        let self1 := { self with m_methodIterator := r.2.1, m_methodIteratorEntry := r.2.2 }
        if !r.1 then .goto ADVANCE_TYPE self1 holder
        else
          match self1.m_methodIteratorEntry with
          | none => .fault
          | some entry =>
            if entry.isPointerTagged then .goto ADVANCE_METHOD self1 holder
            else if !entry.GetMethod.IsRestored then .goto ADVANCE_METHOD self1 holder
            else if neModule entry.GetMethod.GetModule self1.m_module then
              .goto ADVANCE_METHOD self1 holder
            else if entry.GetMethod.GetMemberDef != self1.m_md then
              .goto ADVANCE_METHOD self1 holder
            else .ret true self1 holder
    else if self.m_startedNonGenericMethod then
      .goto ADVANCE_TYPE self holder
    else
      .ret true { self with m_startedNonGenericMethod := true } holder

/-- The block of a label. -/
def block : Label → LoadedMethodDescIterator → Holder → Step
  | ADVANCE_ASSEMBLY => blockAssembly
  | ADVANCE_MODULE => blockModule
  | ADVANCE_TYPE => blockType
  | ADVANCE_METHOD => blockMethod

/-- Run the blocks from a label, at most `fuel` of them. -/
def run : Nat → Label → LoadedMethodDescIterator → Holder →
    Outcome (Bool × LoadedMethodDescIterator × Holder)
  | 0, _, _, _ => .outOfFuel
  | fuel + 1, l, self, holder =>
    match block l self holder with
    | .ret b self1 holder1 => .ok (b, self1, holder1)
    | .goto l1 self1 holder1 => run fuel l1 self1 holder1
    | .fault => .undefinedBehaviour

/-! ### The fuel `Next` gives to `run` -/

/-- Whether the target has a class instantiation (FALSE when it is NULL). -/
def hasClassInst (self : LoadedMethodDescIterator) : Bool :=
  match self.m_mainMD with
  | some mainMD => mainMD.HasClassInstantiation
  | none => false

/-- Whether the target has a method instantiation (FALSE when it is NULL). -/
def hasMethodInst (self : LoadedMethodDescIterator) : Bool :=
  match self.m_mainMD with
  | some mainMD => mainMD.HasMethodInstantiation
  | none => false

/-- A bound on the blocks run for one module. -/
def modCost (hC hM : Bool) (m : Module) : Nat :=
  (if hC then m.GetAvailableParamTypes.length else 1)
    * ((if hM then m.GetInstMethodHashTable.length else 1) + 3) + 2

def modsCost (hC hM : Bool) (ms : List Module) : Nat :=
  (ms.map (modCost hC hM)).sum

def measureAssembly (self : LoadedMethodDescIterator) : Nat :=
  if self.m_assemblyIterationMode = kModeSharedDomainAssemblies then
    (self.m_sharedAssemblyIterator.remaining.map
      (fun a => modsCost self.hasClassInst self.hasMethodInst a.IterateModules + 2)).sum
  else
    (self.m_assemIterator.remaining.map
      (fun da => modsCost self.hasClassInst self.hasMethodInst
        (da.IterateModules self.m_moduleIterationFlags) + 2)).sum

def remainingModules (self : LoadedMethodDescIterator) : List Module :=
  if self.m_assemblyIterationMode = kModeSharedDomainAssemblies then
    self.m_sharedModuleIterator.remaining
  else
    self.m_moduleIterator.remaining

def measureModule (self : LoadedMethodDescIterator) : Nat :=
  modsCost self.hasClassInst self.hasMethodInst self.remainingModules + 1
    + self.measureAssembly

def currentTypes (self : LoadedMethodDescIterator) : List EETypeHashEntry :=
  match self.GetCurrentModule with
  | some m => m.GetAvailableParamTypes
  | none => []

def currentMethods (self : LoadedMethodDescIterator) : List InstMethodHashEntry :=
  match self.GetCurrentModule with
  | some m => m.GetInstMethodHashTable
  | none => []

def typeRem (self : LoadedMethodDescIterator) : Nat :=
  if self.hasClassInst then (self.m_typeIterator.getD self.currentTypes).length
  else if self.m_startedNonGenericType then 0 else 1

def methodCap (self : LoadedMethodDescIterator) : Nat :=
  if self.hasMethodInst then self.currentMethods.length else 1

def measureType (self : LoadedMethodDescIterator) : Nat :=
  self.typeRem * (self.methodCap + 3) + 1 + self.measureModule

def methodRem (self : LoadedMethodDescIterator) : Nat :=
  if self.hasMethodInst then (self.m_methodIterator.getD self.currentMethods).length
  else if self.m_startedNonGenericMethod then 0 else 1

def measureMethod (self : LoadedMethodDescIterator) : Nat :=
  self.methodRem + 1 + self.measureType

/-- A bound on the number of jumps from a label in a state: every jump of `block`
makes it smaller. -/
def measure : Label → LoadedMethodDescIterator → Nat
  | ADVANCE_ASSEMBLY => measureAssembly
  | ADVANCE_MODULE => measureModule
  | ADVANCE_TYPE => measureType
  | ADVANCE_METHOD => measureMethod

/-- The code from a label to the return of `Next`. -/
def exec (l : Label) (self : LoadedMethodDescIterator) (holder : Holder) :
    Outcome (Bool × LoadedMethodDescIterator × Holder) :=
  run (measure l self + 1) l self holder

/-- `Next`, lines 22-225.  The holder is passed in and returned. -/
def Next (self : LoadedMethodDescIterator) (holder : Holder) :
    Outcome (Bool × LoadedMethodDescIterator × Holder) :=
  if !self.m_fFirstTime then
    match self.m_mainMD with
    | none => .undefinedBehaviour
    | some mainMD =>
      if !mainMD.HasClassOrMethodInstantiation then .ok (false, self, none)
      else exec ADVANCE_METHOD self holder
  else
    let self1 := { self with m_fFirstTime := false }
    let looked : Outcome LoadedMethodDescIterator :=
      match self1.m_mainMD with
      | some _ => .ok self1
      | none =>
        match self1.m_module with
        | none => .undefinedBehaviour
        | some m => .ok { self1 with m_mainMD := m.LookupMethodDef self1.m_md }
    match looked with
    | .undefinedBehaviour => .undefinedBehaviour
    | .outOfFuel => .outOfFuel
    | .ok self2 =>
      match self2.m_mainMD with
      | none => .ok (false, self2, none)
      | some mainMD =>
        if !mainMD.HasClassOrMethodInstantiation then .ok (true, self2, none)
        else if self2.m_assemblyIterationMode = kModeSharedDomainAssemblies then
          exec ADVANCE_ASSEMBLY self2 holder
        else
          match self2.m_pAppDomain with
          | none => .undefinedBehaviour
          | some pAppDomain =>
            exec ADVANCE_ASSEMBLY
              { self2 with
                m_assemIterator := ⟨pAppDomain.IterateAssembliesEx self2.m_assemIterationFlags⟩ }
              holder

/-! ## What a caller observes, and the results still to come -/

/-- The checks of lines 144-173 on an entry of the type table, all passed. -/
def acceptsType (mainMD : MethodDesc) (m_module : Option Module) (e : EETypeHashEntry) : Bool :=
  !e.GetTypeHandle.isPointerTagged
    && !e.GetTypeHandle.IsEncodedFixup
    && !e.GetTypeHandle.IsTypeDesc
    && e.GetTypeHandle.AsMethodTable.IsRestored
    && (e.GetTypeHandle.AsMethodTable.GetTypeDefRid == mainMD.GetMethodTable_GetTypeDefRid)
    && !neModule e.GetTypeHandle.AsMethodTable.GetModule m_module

/-- The checks of lines 198-205 on an entry of the method table, all passed. -/
def acceptsMethod (m_module : Option Module) (m_md : mdMethodDef) (e : InstMethodHashEntry) :
    Bool :=
  !e.isPointerTagged
    && e.GetMethod.IsRestored
    && !neModule e.GetMethod.GetModule m_module
    && (e.GetMethod.GetMemberDef == m_md)

/-- What does not change during a traversal: the mode, the module flags, the
target definition, the target module and the target token. -/
structure Target where
  mode : AssemblyIterationMode
  moduleFlags : ModuleIterationOption
  mainMD : MethodDesc
  m_module : Option Module
  m_md : mdMethodDef

/-- What a caller can read after a call of `Next` that returned TRUE: the current
module, the current type entry (when the target has a class instantiation), the
current method entry (when it has a method instantiation) and the holder. -/
structure Seen where
  module : Option Module
  typeEntry : Option EETypeHashEntry
  methodEntry : Option InstMethodHashEntry
  holder : Holder

def seenType (t : Target) (self : LoadedMethodDescIterator) : Option EETypeHashEntry :=
  if t.mainMD.HasClassInstantiation then self.m_typeIteratorEntry else none

def seenMethod (t : Target) (self : LoadedMethodDescIterator) : Option InstMethodHashEntry :=
  if t.mainMD.HasMethodInstantiation then self.m_methodIteratorEntry else none

def seen (t : Target) (self : LoadedMethodDescIterator) (holder : Holder) : Seen :=
  ⟨self.GetCurrentModule, seenType t self, seenMethod t self, holder⟩

/-- The method entries surfaced for one type of a module: the accepted entries of
the method table, or one pass without entry. -/
def methodPasses (t : Target) (m : Module) : List (Option InstMethodHashEntry) :=
  if t.mainMD.HasMethodInstantiation then
    (m.GetInstMethodHashTable.filter (fun e => acceptsMethod t.m_module t.m_md e)).map some
  else [none]

/-- The type entries surfaced for a module: the accepted entries of the type
table, or one pass without entry. -/
def typePasses (t : Target) (m : Module) : List (Option EETypeHashEntry) :=
  if t.mainMD.HasClassInstantiation then
    (m.GetAvailableParamTypes.filter (fun e => acceptsType t.mainMD t.m_module e)).map some
  else [none]

def typeHits (t : Target) (holder : Holder) (m : Module) (te : Option EETypeHashEntry) :
    List Seen :=
  (methodPasses t m).map (fun me => ⟨some m, te, me, holder⟩)

def moduleHits (t : Target) (holder : Holder) (m : Module) : List Seen :=
  (typePasses t m).flatMap (fun te => typeHits t holder m te)

/-- The modules the module level stops on. -/
def admitsModule (t : Target) (m : Module) : Bool :=
  (if t.mode = kModeSharedDomainAssemblies then m.IsProfilerNotified else true)
    && !m.IsResource

/-- The assemblies of an app domain the assembly level stops on. -/
def admitsAssembly (t : Target) (da : DomainAssembly) : Bool :=
  !(t.mode = kModeUnsharedADAssemblies && da.GetAssembly.IsDomainNeutral)

def modulesHits (t : Target) (holder : Holder) (ms : List Module) : List Seen :=
  (ms.filter (fun m => admitsModule t m)).flatMap (fun m => moduleHits t holder m)

def sharedHits (t : Target) (holder : Holder) (assemblies : List Assembly) : List Seen :=
  assemblies.flatMap (fun a => modulesHits t holder a.IterateModules)

def domainHits (t : Target) (assemblies : List DomainAssembly) : List Seen :=
  (assemblies.filter (fun da => admitsAssembly t da)).flatMap
    (fun da => modulesHits t (some da) (da.IterateModules t.moduleFlags))

def pendingAssembly (t : Target) (self : LoadedMethodDescIterator) (holder : Holder) :
    List Seen :=
  if t.mode = kModeSharedDomainAssemblies then
    sharedHits t holder self.m_sharedAssemblyIterator.remaining
  else
    domainHits t self.m_assemIterator.remaining

def pendingModule (t : Target) (self : LoadedMethodDescIterator) (holder : Holder) :
    List Seen :=
  modulesHits t holder self.remainingModules ++ pendingAssembly t self holder

def pendingTypeOf (t : Target) (self : LoadedMethodDescIterator) (holder : Holder)
    (m : Module) : List Seen :=
  if t.mainMD.HasClassInstantiation then
    ((self.m_typeIterator.getD m.GetAvailableParamTypes).filter
        (fun e => acceptsType t.mainMD t.m_module e)).flatMap
      (fun e => typeHits t holder m (some e))
  else if self.m_startedNonGenericType then []
  else typeHits t holder m none

def pendingMethodOf (t : Target) (self : LoadedMethodDescIterator) (holder : Holder)
    (m : Module) : List Seen :=
  if t.mainMD.HasMethodInstantiation then
    ((self.m_methodIterator.getD m.GetInstMethodHashTable).filter
        (fun e => acceptsMethod t.m_module t.m_md e)).map
      (fun e => ⟨some m, seenType t self, some e, holder⟩)
  else if self.m_startedNonGenericMethod then []
  else [⟨some m, seenType t self, none, holder⟩]

/-- The results still to come when the code stands at a label: what the calls of
`Next` from here on let the caller see, in order. -/
def pending (t : Target) (l : Label) (self : LoadedMethodDescIterator) (holder : Holder) :
    List Seen :=
  match l with
  | ADVANCE_ASSEMBLY => pendingAssembly t self holder
  | ADVANCE_MODULE => pendingModule t self holder
  | ADVANCE_TYPE =>
    match self.GetCurrentModule with
    | some m => pendingTypeOf t self holder m ++ pendingModule t self holder
    | none => []
  | ADVANCE_METHOD =>
    match self.GetCurrentModule with
    | some m =>
      pendingMethodOf t self holder m
        ++ (pendingTypeOf t self holder m ++ pendingModule t self holder)
    | none => []

/-- The labels at which the module cursor stands on a module. -/
def hasCurrent (l : Label) (self : LoadedMethodDescIterator) : Prop :=
  match l with
  | ADVANCE_ASSEMBLY => True
  | ADVANCE_MODULE => True
  | ADVANCE_TYPE => self.GetCurrentModule.isSome = true
  | ADVANCE_METHOD => self.GetCurrentModule.isSome = true

/-- A traversal under way for a target. -/
def Ready (t : Target) (self : LoadedMethodDescIterator) : Prop :=
  self.m_mainMD = some t.mainMD ∧ self.m_fFirstTime = false
    ∧ self.m_assemblyIterationMode = t.mode ∧ self.m_moduleIterationFlags = t.moduleFlags
    ∧ self.m_module = t.m_module ∧ self.m_md = t.m_md

/-- The calls of `Next` from a state until the first FALSE, the caller passing the
holder back as it got it: the state and the holder after every call that returned
TRUE. -/
inductive Traversal :
    LoadedMethodDescIterator → Holder → List (LoadedMethodDescIterator × Holder) → Prop where
  | done {s : LoadedMethodDescIterator} {h : Holder} {s1 : LoadedMethodDescIterator}
      {h1 : Holder} : Next s h = .ok (false, s1, h1) → Traversal s h []
  | more {s : LoadedMethodDescIterator} {h : Holder} {s1 : LoadedMethodDescIterator}
      {h1 : Holder} {rs : List (LoadedMethodDescIterator × Holder)} :
      Next s h = .ok (true, s1, h1) → Traversal s1 h1 rs → Traversal s h ((s1, h1) :: rs)

/-- The states in which some call of `Next` has returned TRUE, every earlier call
having returned TRUE as well; the caller may pass any holder. -/
inductive ReturnedTrue (start : LoadedMethodDescIterator) : LoadedMethodDescIterator → Prop where
  | first {h : Holder} {s1 : LoadedMethodDescIterator} {h1 : Holder} :
      Next start h = .ok (true, s1, h1) → ReturnedTrue start s1
  | again {s : LoadedMethodDescIterator} {h : Holder} {s1 : LoadedMethodDescIterator}
      {h1 : Holder} :
      ReturnedTrue start s → Next s h = .ok (true, s1, h1) → ReturnedTrue start s1

/-- What a block does to the results still to come: a jump keeps them, a return
of TRUE surfaces the first of them, a return of FALSE means there are none. -/
def Simulates (t : Target) (l : Label) (s : LoadedMethodDescIterator) (h : Holder) :
    Step → Prop
  | .ret b s1 h1 =>
    Ready t s1 ∧ (b = false → pending t l s h = []) ∧
      (b = true → pending t l s h = seen t s1 h1 :: pending t ADVANCE_METHOD s1 h1 ∧
        hasCurrent ADVANCE_METHOD s1)
  | .goto l1 s1 h1 => Ready t s1 ∧ hasCurrent l1 s1 ∧ pending t l1 s1 h1 = pending t l s h
  | .fault => False

/-- Everything a traversal lets the caller see, in order: the nested enumeration
of the assemblies, the modules, the type entries and the method entries. -/
def allHits (t : Target) (sharedDomain : List Assembly) (pAppDomain : Option AppDomain)
    (assemblyIterationFlags : AssemblyIterationFlags) (holder : Holder) : List Seen :=
  if t.mode = kModeSharedDomainAssemblies then sharedHits t holder sharedDomain
  else
    match pAppDomain with
    | some ad => domainHits t (ad.IterateAssembliesEx assemblyIterationFlags)
    | none => []

/-- The value of `Current()` for what the caller sees. -/
def Seen.current (t : Target) (x : Seen) : Outcome MethodDesc :=
  if t.mainMD.HasMethodInstantiation then
    match x.methodEntry with
    | none => .undefinedBehaviour
    | some e => .ok e.GetMethod
  else if !t.mainMD.HasClassInstantiation then .ok t.mainMD
  else
    match x.typeEntry with
    | none => .undefinedBehaviour
    | some e => .ok (e.GetTypeHandle.GetMethodTable.GetMethodDescForSlot t.mainMD.GetSlot)

/-- The target of a traversal started with the six-argument `Start` on a token
that resolves to `mainMD`. -/
def startTarget (pModule : Module) (md : mdMethodDef) (mode : AssemblyIterationMode)
    (moduleIterationFlags : ModuleIterationOption) (mainMD : MethodDesc) : Target :=
  ⟨mode, moduleIterationFlags, mainMD, some pModule, md⟩

/-- The state in which the first call of `Next` reaches `ADVANCE_ASSEMBLY`, for a
token that resolves to `mainMD`. -/
def entered (sharedDomain : List Assembly) (raw : LoadedMethodDescIterator)
    (pAppDomain : Option AppDomain) (pModule : Module) (md : mdMethodDef)
    (mode : AssemblyIterationMode) (assemblyIterationFlags : AssemblyIterationFlags)
    (moduleIterationFlags : ModuleIterationOption) (mainMD : MethodDesc) :
    LoadedMethodDescIterator :=
  { Start (ctor sharedDomain raw) pAppDomain pModule md mode assemblyIterationFlags
      moduleIterationFlags with
    m_fFirstTime := false
    m_mainMD := some mainMD
    m_assemIterator :=
      if mode = kModeSharedDomainAssemblies then ⟨[]⟩
      else
        match pAppDomain with
        | some ad => ⟨ad.IterateAssembliesEx assemblyIterationFlags⟩
        | none => ⟨[]⟩ }

/-- What a caller sees is well formed for a target: the module is one the module
level stops on, the type entry passed the checks of `ADVANCE_TYPE` (there is none
when the target has no class instantiation), and the method entry passed the
checks of `ADVANCE_METHOD` (there is none when the target has no method
instantiation). -/
def Seen.Good (t : Target) (x : Seen) : Prop :=
  (∃ m, x.module = some m ∧ admitsModule t m = true) ∧
  (if t.mainMD.HasClassInstantiation then
      ∃ e, x.typeEntry = some e ∧ acceptsType t.mainMD t.m_module e = true
    else x.typeEntry = none) ∧
  (if t.mainMD.HasMethodInstantiation then
      ∃ e, x.methodEntry = some e ∧ acceptsMethod t.m_module t.m_md e = true
    else x.methodEntry = none)

/-- The descriptor `Current()` returns for a type entry and a method entry: the
method of the method entry if there is one, else the method at the slot of the
definition on the method table of the type entry if there is one, else the
definition. -/
def resultOf (mainMD : MethodDesc) (te : Option EETypeHashEntry)
    (me : Option InstMethodHashEntry) : MethodDesc :=
  match me with
  | some e => e.GetMethod
  | none =>
    match te with
    | some e => e.GetTypeHandle.GetMethodTable.GetMethodDescForSlot mainMD.GetSlot
    | none => mainMD

/-- The result of the `n`-th call of `Next` after this one, the caller passing the
holder back as it got it. -/
def nthNext : Nat → LoadedMethodDescIterator → Holder →
    Outcome (Bool × LoadedMethodDescIterator × Holder)
  | 0, s, h => Next s h
  | n + 1, s, h =>
    match Next s h with
    | .ok (_, s1, h1) => nthNext n s1 h1
    | .undefinedBehaviour => .undefinedBehaviour
    | .outOfFuel => .outOfFuel

/-- The caller's loop `while (it.Next(&holder)) use(it.Current())`, at most `fuel`
calls of `Next`: the values of `Current()`. -/
def currents : Nat → LoadedMethodDescIterator → Holder → Outcome (List MethodDesc)
  | 0, _, _ => .outOfFuel
  | fuel + 1, s, h =>
    match Next s h with
    | .ok (true, s1, h1) =>
      match Current s1 with
      | .ok md =>
        match currents fuel s1 h1 with
        | .ok rest => .ok (md :: rest)
        | .undefinedBehaviour => .undefinedBehaviour
        | .outOfFuel => .outOfFuel
      | .undefinedBehaviour => .undefinedBehaviour
      | .outOfFuel => .outOfFuel
    | .ok (false, _, _) => .ok []
    | .undefinedBehaviour => .undefinedBehaviour
    | .outOfFuel => .outOfFuel

/-- The state a call of `Next` left, or `dflt` when the call went wrong. -/
def stateOf (r : Outcome (Bool × LoadedMethodDescIterator × Holder))
    (dflt : LoadedMethodDescIterator) : LoadedMethodDescIterator :=
  match r with
  | .ok (_, s, _) => s
  | .undefinedBehaviour => dflt
  | .outOfFuel => dflt

/-- The value a call of `Next` returned, if it returned. -/
def returned (r : Outcome (Bool × LoadedMethodDescIterator × Holder)) : Outcome Bool :=
  match r with
  | .ok (b, _, _) => .ok b
  | .undefinedBehaviour => .undefinedBehaviour
  | .outOfFuel => .outOfFuel

/-- Every module in the scope of a traversal is a resource module. -/
def allResource (mode : AssemblyIterationMode) (sharedDomain : List Assembly)
    (pAppDomain : Option AppDomain) (assemblyIterationFlags : AssemblyIterationFlags)
    (moduleIterationFlags : ModuleIterationOption) : Prop :=
  if mode = kModeSharedDomainAssemblies then
    ∀ a ∈ sharedDomain, ∀ m ∈ a.IterateModules, m.IsResource = true
  else
    ∀ ad, pAppDomain = some ad → ∀ da ∈ ad.IterateAssembliesEx assemblyIterationFlags,
      ∀ m ∈ da.IterateModules moduleIterationFlags, m.IsResource = true

/-! ## The reference enumeration, in the words of the specification -/

/-- The module sequences of the admitted assemblies, in enumeration order: the
assemblies of the shared domain, or the assemblies of the app domain that match the
flags (without the domain-neutral ones in mode `kModeUnsharedADAssemblies`). -/
def scopeModules (mode : AssemblyIterationMode) (sharedDomain : List Assembly)
    (pAppDomain : Option AppDomain) (assemblyIterationFlags : AssemblyIterationFlags)
    (moduleIterationFlags : ModuleIterationOption) : List (List Module) :=
  match mode with
  | kModeSharedDomainAssemblies => sharedDomain.map (fun a => a.IterateModules)
  | kModeUnsharedADAssemblies =>
    match pAppDomain with
    | some ad =>
      ((ad.IterateAssembliesEx assemblyIterationFlags).filter
        (fun da => !da.GetAssembly.IsDomainNeutral)).map
        (fun da => da.IterateModules moduleIterationFlags)
    | none => []
  | kModeAllADAssemblies =>
    match pAppDomain with
    | some ad =>
      (ad.IterateAssembliesEx assemblyIterationFlags).map
        (fun da => da.IterateModules moduleIterationFlags)
    | none => []

/-- An admitted module: not a resource module and, in shared mode, profiler
notified. -/
def admittedModule (mode : AssemblyIterationMode) (m : Module) : Bool :=
  !m.IsResource && (mode != kModeSharedDomainAssemblies || m.IsProfilerNotified)

/-- The admitted modules of the scope, in order. -/
def admittedModules (mode : AssemblyIterationMode) (sharedDomain : List Assembly)
    (pAppDomain : Option AppDomain) (assemblyIterationFlags : AssemblyIterationFlags)
    (moduleIterationFlags : ModuleIterationOption) : List Module :=
  (scopeModules mode sharedDomain pAppDomain assemblyIterationFlags
    moduleIterationFlags).flatMap (fun ms => ms.filter (fun m => admittedModule mode m))

/-- The accepted type entries of a module in table order, or one virtual pass. -/
def acceptedTypes (mainMD : MethodDesc) (pModule : Module) (m : Module) :
    List (Option EETypeHashEntry) :=
  if mainMD.HasClassInstantiation then
    (m.GetAvailableParamTypes.filter (fun e => acceptsType mainMD (some pModule) e)).map some
  else [none]

/-- The accepted method entries of a module in table order, or one virtual pass. -/
def acceptedMethods (mainMD : MethodDesc) (pModule : Module) (md : mdMethodDef)
    (m : Module) : List (Option InstMethodHashEntry) :=
  if mainMD.HasMethodInstantiation then
    (m.GetInstMethodHashTable.filter (fun e => acceptsMethod (some pModule) md e)).map some
  else [none]

/-- The nested flat-map reference: for each admitted assembly, for each admitted
module, for each accepted type entry (or one virtual pass), for each accepted
method entry (or one virtual pass), one result. -/
def flatMapReference (mode : AssemblyIterationMode) (sharedDomain : List Assembly)
    (pAppDomain : Option AppDomain) (assemblyIterationFlags : AssemblyIterationFlags)
    (moduleIterationFlags : ModuleIterationOption) (mainMD : MethodDesc) (pModule : Module)
    (md : mdMethodDef) : List MethodDesc :=
  (scopeModules mode sharedDomain pAppDomain assemblyIterationFlags
    moduleIterationFlags).flatMap fun ms =>
    (ms.filter (fun m => admittedModule mode m)).flatMap fun m =>
      (acceptedTypes mainMD pModule m).flatMap fun te =>
        (acceptedMethods mainMD pModule md m).map fun me => resultOf mainMD te me

/-- The accepted type entries of the admitted modules of the scope, in the order
of the modules and of their tables. -/
def acceptedTypeEntries (mode : AssemblyIterationMode) (sharedDomain : List Assembly)
    (pAppDomain : Option AppDomain) (assemblyIterationFlags : AssemblyIterationFlags)
    (moduleIterationFlags : ModuleIterationOption) (mainMD : MethodDesc) (pModule : Module) :
    List EETypeHashEntry :=
  (admittedModules mode sharedDomain pAppDomain assemblyIterationFlags
    moduleIterationFlags).flatMap
    (fun m => m.GetAvailableParamTypes.filter (fun e => acceptsType mainMD (some pModule) e))

/-- The results one admitted module contributes. -/
def moduleResults (mainMD : MethodDesc) (pModule : Module) (md : mdMethodDef) (m : Module) :
    List MethodDesc :=
  (acceptedTypes mainMD pModule m).flatMap fun te =>
    (acceptedMethods mainMD pModule md m).map fun me => resultOf mainMD te me

/-- A step with the holder replaced. -/
def stepWithHolder (h : Holder) : Step → Step
  | .ret b s _ => .ret b s h
  | .goto l s _ => .goto l s h
  | .fault => .fault

/-- The result of a call with the holder replaced. -/
def withHolder (h : Holder) :
    Outcome (Bool × LoadedMethodDescIterator × Holder) →
      Outcome (Bool × LoadedMethodDescIterator × Holder)
  | .ok (b, s, _) => .ok (b, s, h)
  | .undefinedBehaviour => .undefinedBehaviour
  | .outOfFuel => .outOfFuel

/-- The state a step goes on with, if any. -/
def stepState : Step → Option LoadedMethodDescIterator
  | .ret _ s _ => some s
  | .goto _ s _ => some s
  | .fault => none

/-- The holder a step goes on with, if any. -/
def stepHolder : Step → Option Holder
  | .ret _ _ h => some h
  | .goto _ _ h => some h
  | .fault => none

/-- The members that are set by `Start` and by the first lines of `Next` only. -/
def fixedPart (s : LoadedMethodDescIterator) :
    AssemblyIterationMode × AssemblyIterationFlags × ModuleIterationOption × Option MethodDesc
      × Option Module × mdMethodDef × Option AppDomain × Bool :=
  (s.m_assemblyIterationMode, s.m_assemIterationFlags, s.m_moduleIterationFlags, s.m_mainMD,
    s.m_module, s.m_md, s.m_pAppDomain, s.m_fFirstTime)

/-- The members that only the block of `ADVANCE_ASSEMBLY` writes. -/
def assemblyPart (s : LoadedMethodDescIterator) :
    AssemblyIterator × Cursor Assembly × Holder :=
  (s.m_assemIterator, s.m_sharedAssemblyIterator, s.dbg_m_pDomainAssembly)

/-- The results an admitted module contributes for a target with a class and a
method instantiation: for every accepted type entry, the methods of the accepted
method entries in table order. -/
def fullyGenericResults (mainMD : MethodDesc) (pModule : Module) (md : mdMethodDef)
    (m : Module) : List MethodDesc :=
  (m.GetAvailableParamTypes.filter (fun e => acceptsType mainMD (some pModule) e)).flatMap
    fun _ =>
      (m.GetInstMethodHashTable.filter (fun e => acceptsMethod (some pModule) md e)).map
        fun e => e.GetMethod

/-- The states a sequence of calls of `Next` that returned leads to, whatever
holder the caller passes and whatever the calls returned. -/
inductive Called (start : LoadedMethodDescIterator) : LoadedMethodDescIterator → Prop where
  | start : Called start start
  | next {s : LoadedMethodDescIterator} {h : Holder} {b : Bool}
      {s1 : LoadedMethodDescIterator} {h1 : Holder} :
      Called start s → Next s h = .ok (b, s1, h1) → Called start s1

/-- What the caller holds after a call of `Next` that returned TRUE: the holder,
the current module and the value of `Current()`. -/
def observed (r : LoadedMethodDescIterator × Holder) :
    Holder × Option Module × Outcome MethodDesc :=
  (r.2, r.1.GetCurrentModule, Current r.1)

/-- The results one assembly of an app domain contributes in the per-domain modes,
each with the assembly and the module it lies in: for every module of the assembly
that is not a resource module, the results of the module. -/
def assemblyResults (moduleIterationFlags : ModuleIterationOption) (mainMD : MethodDesc)
    (pModule : Module) (md : mdMethodDef) (da : DomainAssembly) :
    List (Holder × Option Module × Outcome MethodDesc) :=
  ((da.IterateModules moduleIterationFlags).filter (fun m => !m.IsResource)).flatMap fun m =>
    (moduleResults mainMD pModule md m).map fun x => (some da, some m, .ok x)

/-- The assemblies still to come in the assembly cursor of the mode. -/
def assembliesLeft (self : LoadedMethodDescIterator) : Nat :=
  if self.m_assemblyIterationMode = kModeSharedDomainAssemblies then
    self.m_sharedAssemblyIterator.remaining.length
  else
    self.m_assemIterator.remaining.length

/-- The lexicographic measure of the jumps of `Next`: the assemblies still to come;
the modules still to come, at the labels inside an assembly; the type entries still
to come (or the one pass the flag `m_startedNonGenericType` has left), at the
labels inside a module; the method entries still to come (or the one pass the flag
`m_startedNonGenericMethod` has left), at `ADVANCE_METHOD`. -/
def lexMeasure (l : Label) (self : LoadedMethodDescIterator) : Nat × Nat × Nat × Nat :=
  match l with
  | ADVANCE_ASSEMBLY => (self.assembliesLeft, 0, 0, 0)
  | ADVANCE_MODULE => (self.assembliesLeft, self.remainingModules.length + 1, 0, 0)
  | ADVANCE_TYPE =>
    (self.assembliesLeft, self.remainingModules.length + 1, self.typeRem + 1, 0)
  | ADVANCE_METHOD =>
    (self.assembliesLeft, self.remainingModules.length + 1, self.typeRem + 1,
      self.methodRem + 1)

/-- The lexicographic order on the values of `lexMeasure`. -/
def lexLt (a b : Nat × Nat × Nat × Nat) : Prop :=
  a.1 < b.1 ∨ (a.1 = b.1 ∧ (a.2.1 < b.2.1 ∨ (a.2.1 = b.2.1 ∧
    (a.2.2.1 < b.2.2.1 ∨ (a.2.2.1 = b.2.2.1 ∧ a.2.2.2 < b.2.2.2)))))

instance (a b : Nat × Nat × Nat × Nat) : Decidable (lexLt a b) := by
  unfold lexLt; infer_instance

/-- The four-argument `Start`, lines 353-362: the six-argument `Start` in mode
`kModeAllADAssemblies`, then `m_mainMD = pMethodDesc`.  The call leaves the two
flag arguments to their defaults, which are declared in methoditer.h, not in this
file; the model takes them as the arguments `defaultAssemblyIterationFlags` and
`defaultModuleIterationFlags`. -/
def Start4 (self : LoadedMethodDescIterator)
    (defaultAssemblyIterationFlags : AssemblyIterationFlags)
    (defaultModuleIterationFlags : ModuleIterationOption)
    (pAppDomain : Option AppDomain) (pModule : Module) (md : mdMethodDef)
    (pMethodDesc : Option MethodDesc) : LoadedMethodDescIterator :=
  { Start self pAppDomain pModule md kModeAllADAssemblies defaultAssemblyIterationFlags
      defaultModuleIterationFlags with
    m_mainMD := pMethodDesc }

end LoadedMethodDescIterator

/-! ## A sample runtime, for the concrete instances of the theorems -/

namespace Sample

/-- The address of the module `M`. -/
def addrM : Nat := 7

/-- A non-generic definition, token `0x06000010` of module `M`. -/
def plainMD : MethodDesc := ⟨0x1000, false, false, true, addrM, 0x06000010, 3, 2⟩

/-- A definition generic over its type only, token `0x06000011`. -/
def classMD : MethodDesc := ⟨0x1100, true, false, true, addrM, 0x06000011, 4, 2⟩

/-- A definition generic over its type and over the method, token `0x06000012`. -/
def fullMD : MethodDesc := ⟨0x1200, true, true, true, addrM, 0x06000012, 5, 2⟩

/-- The instantiations of `classMD` over `int` and over `string`. -/
def classMD_int : MethodDesc := ⟨0x1101, true, false, true, addrM, 0x06000011, 4, 2⟩
def classMD_string : MethodDesc := ⟨0x1102, true, false, true, addrM, 0x06000011, 4, 2⟩

/-- Two instantiations of `fullMD`, one of each instantiated type. -/
def fullMD_int : MethodDesc := ⟨0x1201, true, true, true, addrM, 0x06000012, 5, 2⟩
def fullMD_string : MethodDesc := ⟨0x1202, true, true, true, addrM, 0x06000012, 5, 2⟩

/-- A method that is not restored, and the method of another token. -/
def unrestoredMD : MethodDesc := ⟨0x1203, true, true, false, addrM, 0x06000012, 5, 2⟩
def otherMD : MethodDesc := ⟨0x1300, true, true, true, addrM, 0x06000013, 6, 2⟩

def slotsOf (a b : MethodDesc) (slot : Nat) : MethodDesc :=
  if slot = 4 then a else b

/-- The method tables of the type instantiated over `int` and over `string`. -/
def mtInt : MethodTable := ⟨true, 2, addrM, slotsOf classMD_int fullMD_int⟩
def mtString : MethodTable := ⟨true, 2, addrM, slotsOf classMD_string fullMD_string⟩

/-- A method table that is not restored, one of another type definition, one of
another module. -/
def mtUnrestored : MethodTable := ⟨false, 2, addrM, slotsOf classMD_int fullMD_int⟩
def mtOtherRid : MethodTable := ⟨true, 9, addrM, slotsOf otherMD otherMD⟩
def mtOtherModule : MethodTable := ⟨true, 2, 8, slotsOf otherMD otherMD⟩

def teInt : EETypeHashEntry := ⟨⟨false, false, false, mtInt⟩⟩
def teString : EETypeHashEntry := ⟨⟨false, false, false, mtString⟩⟩

/-- The type table of `M`: the two instantiations among entries of every rejected
kind. -/
def typeTable : List EETypeHashEntry :=
  [⟨⟨true, false, false, mtInt⟩⟩, teInt, ⟨⟨false, true, false, mtInt⟩⟩,
   ⟨⟨false, false, true, mtInt⟩⟩, ⟨⟨false, false, false, mtUnrestored⟩⟩, teString,
   ⟨⟨false, false, false, mtOtherRid⟩⟩, ⟨⟨false, false, false, mtOtherModule⟩⟩]

/-- The method table of `M`: the two instantiations of `fullMD` among entries of
every rejected kind. -/
def methodTable : List InstMethodHashEntry :=
  [⟨true, fullMD_int⟩, ⟨false, fullMD_int⟩, ⟨false, unrestoredMD⟩, ⟨false, otherMD⟩,
   ⟨false, fullMD_string⟩]

def lookup (tok : mdMethodDef) : Option MethodDesc :=
  if tok = 0x06000010 then some plainMD
  else if tok = 0x06000011 then some classMD
  else if tok = 0x06000012 then some fullMD
  else none

/-- The module `M`. -/
def M : Module := ⟨addrM, false, true, lookup, typeTable, methodTable⟩

/-- A resource module with the tables of `M`. -/
def R : Module := ⟨9, true, true, lookup, typeTable, methodTable⟩

/-- An assembly of `R` and `M`, and a domain-neutral one. -/
def A : DomainAssembly := ⟨⟨false, [R, M]⟩, fun _ => [R, M]⟩
def N : DomainAssembly := ⟨⟨true, [M]⟩, fun _ => [M]⟩

/-- The app domain `D`. -/
def D : AppDomain := ⟨fun _ => [N, A]⟩

/-- An app domain whose only assembly holds only the resource module. -/
def Dres : AppDomain := ⟨fun _ => [⟨⟨false, [R]⟩, fun _ => [R]⟩]⟩

/-- An app domain whose only assembly is domain neutral. -/
def Dneutral : AppDomain := ⟨fun _ => [N]⟩

/-- The memory an iterator is constructed in. -/
def raw : LoadedMethodDescIterator :=
  ⟨kModeSharedDomainAssemblies, 0, 0, none, none, 0, none, false, ⟨[]⟩, ⟨none, []⟩,
    ⟨none, []⟩, ⟨none, []⟩, none, none, false, none, none, false, none⟩

/-- `Start(D, M, token)` in mode `kModeUnsharedADAssemblies`. -/
def start (token : mdMethodDef) : LoadedMethodDescIterator :=
  (LoadedMethodDescIterator.ctor [] raw).Start (some D) M token kModeUnsharedADAssemblies 0 0

/-- The state after the first call of `Next`. -/
def after1 (token : mdMethodDef) : LoadedMethodDescIterator :=
  LoadedMethodDescIterator.stateOf ((start token).Next none) raw

/-- The state after the second call of `Next`. -/
def after2 (token : mdMethodDef) : LoadedMethodDescIterator :=
  LoadedMethodDescIterator.stateOf ((after1 token).Next (some A)) raw

/-- `Start(Dneutral, M, token)` in mode `kModeUnsharedADAssemblies`: no assembly of
the scope is admitted. -/
def startNeutral (token : mdMethodDef) : LoadedMethodDescIterator :=
  (LoadedMethodDescIterator.ctor [] raw).Start (some Dneutral) M token
    kModeUnsharedADAssemblies 0 0

/-- A module the profiler has not been notified of, with the tables of `M`. -/
def H : Module := ⟨10, false, false, lookup, typeTable, methodTable⟩

/-- An assembly of the shared domain: `H` and then `M`. -/
def S : Assembly := ⟨true, [H, M]⟩

/-- `Start(NULL, M, token)` in mode `kModeSharedDomainAssemblies`, the shared domain
holding the assembly `S`. -/
def startShared (token : mdMethodDef) : LoadedMethodDescIterator :=
  (LoadedMethodDescIterator.ctor [S] raw).Start none M token kModeSharedDomainAssemblies 0 0

/-- The state after the first call of `Next` in the shared domain. -/
def afterShared1 (token : mdMethodDef) : LoadedMethodDescIterator :=
  LoadedMethodDescIterator.stateOf ((startShared token).Next none) raw

/-- `Start(D, M, token)` in mode `kModeAllADAssemblies`. -/
def startAll (token : mdMethodDef) : LoadedMethodDescIterator :=
  (LoadedMethodDescIterator.ctor [] raw).Start (some D) M token kModeAllADAssemblies 0 0

/-- A module without instantiated types, with the method table of `M`. -/
def Mno : Module := ⟨11, false, true, lookup, [], methodTable⟩

/-- An assembly of `Mno` and `M`, and the app domain that holds it. -/
def B : DomainAssembly := ⟨⟨false, [Mno, M]⟩, fun _ => [Mno, M]⟩
def DB : AppDomain := ⟨fun _ => [B]⟩

/-- A module with the address and the tables of `M` in which no token resolves. -/
def Munresolved : Module := ⟨addrM, false, true, fun _ => none, typeTable, methodTable⟩

end Sample

/-! # Theorems -/

namespace LoadedMethodDescIterator

/-! ## Every jump makes the measure smaller -/

theorem modsCost_cons (hC hM : Bool) (m : Module) (ms : List Module) :
    modsCost hC hM (m :: ms) = modCost hC hM m + modsCost hC hM ms := by
  simp [modsCost]

theorem modCost_pos (hC hM : Bool) (m : Module) : 2 ≤ modCost hC hM m := by
  simp [modCost]

theorem blockAssembly_decreases (s : LoadedMethodDescIterator) (h : Holder) (l1 : Label)
    (s1 : LoadedMethodDescIterator) (h1 : Holder)
    (hb : blockAssembly s h = .goto l1 s1 h1) : measure l1 s1 < measure ADVANCE_ASSEMBLY s := by
  unfold blockAssembly at hb
  by_cases hmode : s.m_assemblyIterationMode = kModeSharedDomainAssemblies
  · simp only [hmode, if_true] at hb
    cases hrem : s.m_sharedAssemblyIterator.remaining with
    | nil => simp [Cursor.Next, hrem] at hb
    | cons a rest =>
      simp [Cursor.Next, hrem] at hb
      obtain ⟨rfl, rfl, rfl⟩ := hb
      simp [measure, measureModule, measureAssembly, hmode, hrem, remainingModules,
        Cursor.start, hasClassInst, hasMethodInst]
  · simp only [hmode, if_false] at hb
    cases hrem : s.m_assemIterator.remaining with
    | nil => simp [AssemblyIterator.Next, hrem] at hb
    | cons a rest =>
      simp [AssemblyIterator.Next, hrem] at hb
      split at hb
      · simp at hb
        obtain ⟨rfl, rfl, rfl⟩ := hb
        simp [measure, measureAssembly, hmode, hrem, hasClassInst, hasMethodInst]
      · simp at hb
        obtain ⟨rfl, rfl, rfl⟩ := hb
        simp [measure, measureModule, measureAssembly, hmode, hrem, remainingModules,
          Cursor.start, hasClassInst, hasMethodInst]

theorem nextSharedModuleLoop_false (ms : List Module)
    (h : (nextSharedModuleLoop ms).1 = false) : nextSharedModuleLoop ms = (false, ⟨none, []⟩) := by
  induction ms with
  | nil => rfl
  | cons m rest ih =>
    unfold nextSharedModuleLoop at h ⊢
    by_cases hp : m.IsProfilerNotified
    · simp [hp] at h
    · simp only [hp] at h ⊢
      exact ih h

theorem nextSharedModuleLoop_true (hC hM : Bool) (ms : List Module)
    (h : (nextSharedModuleLoop ms).1 = true) :
    ∃ m, (nextSharedModuleLoop ms).2.current = some m ∧
      modCost hC hM m + modsCost hC hM (nextSharedModuleLoop ms).2.remaining
        ≤ modsCost hC hM ms := by
  induction ms with
  | nil => simp [nextSharedModuleLoop] at h
  | cons m rest ih =>
    unfold nextSharedModuleLoop at h ⊢
    by_cases hp : m.IsProfilerNotified
    · simp [hp, modsCost_cons]
    · simp only [hp] at h ⊢
      obtain ⟨m1, h1, h2⟩ := ih h
      refine ⟨m1, h1, ?_⟩
      rw [modsCost_cons]
      simp at h2 ⊢
      omega

theorem blockModule_decreases (s : LoadedMethodDescIterator) (h : Holder) (l1 : Label)
    (s1 : LoadedMethodDescIterator) (h1 : Holder)
    (hb : blockModule s h = .goto l1 s1 h1) : measure l1 s1 < measure ADVANCE_MODULE s := by
  unfold blockModule at hb
  by_cases hmode : s.m_assemblyIterationMode = kModeSharedDomainAssemblies
  · simp only [hmode, if_true, NextSharedModule] at hb
    cases hr : (nextSharedModuleLoop s.m_sharedModuleIterator.remaining).1 with
    | false =>
      simp [hr] at hb
      obtain ⟨rfl, rfl, rfl⟩ := hb
      simp [measure, measureModule, measureAssembly, hmode, hasClassInst, hasMethodInst]
    | true =>
      obtain ⟨m, hm1, hm2⟩ := nextSharedModuleLoop_true s.hasClassInst s.hasMethodInst _ hr
      simp [hr, GetCurrentModule, hmode, hm1] at hb
      split at hb
      · simp at hb
        obtain ⟨rfl, rfl, rfl⟩ := hb
        simp [measure, measureModule, measureAssembly, hmode, hasClassInst, hasMethodInst,
          remainingModules] at hm2 ⊢
        have := modCost_pos s.hasClassInst s.hasMethodInst m
        simp [hasClassInst, hasMethodInst] at this hm2
        omega
      · cases hmd : s.m_mainMD with
        | none => simp [hmd] at hb
        | some mainMD =>
          simp [hmd] at hb
          by_cases hC : mainMD.HasClassInstantiation = true
          · simp [hC] at hb
            obtain ⟨rfl, rfl, rfl⟩ := hb
            simp [measure, measureType, measureModule, measureAssembly, hmode, hasClassInst,
              hasMethodInst, remainingModules, typeRem, methodCap, currentTypes, currentMethods,
              GetCurrentModule, hm1, hmd, hC, HashIterator.Reset, modCost] at hm2 ⊢
            omega
          · simp [hC] at hb
            obtain ⟨rfl, rfl, rfl⟩ := hb
            simp [measure, measureType, measureModule, measureAssembly, hmode, hasClassInst,
              hasMethodInst, remainingModules, typeRem, methodCap, currentTypes, currentMethods,
              GetCurrentModule, hm1, hmd, hC, HashIterator.Reset, modCost] at hm2 ⊢
            omega
  · simp only [hmode, if_false] at hb
    cases hrem : s.m_moduleIterator.remaining with
    | nil =>
      simp [Cursor.Next, hrem] at hb
      obtain ⟨rfl, rfl, rfl⟩ := hb
      simp [measure, measureModule, measureAssembly, hmode, hasClassInst, hasMethodInst]
    | cons m rest =>
      simp [Cursor.Next, hrem, GetCurrentModule, hmode] at hb
      split at hb
      · simp at hb
        obtain ⟨rfl, rfl, rfl⟩ := hb
        simp [measure, measureModule, measureAssembly, hmode, hasClassInst, hasMethodInst,
          remainingModules, hrem, modsCost_cons]
        have := modCost_pos s.hasClassInst s.hasMethodInst m
        simp [hasClassInst, hasMethodInst] at this
        omega
      · cases hmd : s.m_mainMD with
        | none => simp [hmd] at hb
        | some mainMD =>
          simp [hmd] at hb
          by_cases hC : mainMD.HasClassInstantiation = true
          · simp [hC] at hb
            obtain ⟨rfl, rfl, rfl⟩ := hb
            simp [measure, measureType, measureModule, measureAssembly, hmode, hasClassInst,
              hasMethodInst, remainingModules, typeRem, methodCap, currentTypes, currentMethods,
              GetCurrentModule, hrem, hmd, hC, HashIterator.Reset, modCost, modsCost_cons]
            omega
          · simp [hC] at hb
            obtain ⟨rfl, rfl, rfl⟩ := hb
            simp [measure, measureType, measureModule, measureAssembly, hmode, hasClassInst,
              hasMethodInst, remainingModules, typeRem, methodCap, currentTypes, currentMethods,
              GetCurrentModule, hrem, hmd, hC, HashIterator.Reset, modCost, modsCost_cons]
            omega

theorem blockType_decreases (s : LoadedMethodDescIterator) (h : Holder) (l1 : Label)
    (s1 : LoadedMethodDescIterator) (h1 : Holder)
    (hb : blockType s h = .goto l1 s1 h1) : measure l1 s1 < measure ADVANCE_TYPE s := by
  rcases s with ⟨mode, aflags, mflags, mainMD?, mod?, md, ad?, first, ai, mi, sai, smi, ti, te,
    st, mti, mte, sm, dbg⟩
  unfold blockType at hb
  cases mainMD? with
  | none => simp at hb
  | some mainMD =>
    simp only at hb
    by_cases hC : mainMD.HasClassInstantiation = true
    · simp only [hC, if_true] at hb
      cases hcur : GetCurrentModule ⟨mode, aflags, mflags, some mainMD, mod?, md, ad?, first, ai,
          mi, sai, smi, ti, te, st, mti, mte, sm, dbg⟩ with
      | none => simp [hcur] at hb
      | some m =>
        simp only [hcur] at hb
        cases hrest : ti.getD m.GetAvailableParamTypes with
        | nil =>
          simp [FindNext, hrest] at hb
          obtain ⟨rfl, rfl, rfl⟩ := hb
          simp [measure, measureType, measureModule, measureAssembly,
            hasClassInst, hasMethodInst, remainingModules]
        | cons e rest =>
          simp [FindNext, hrest, resetMethod] at hb
          simp only [GetCurrentModule] at hcur
          split_ifs at hb <;> simp at hb <;> obtain ⟨rfl, rfl, rfl⟩ := hb <;>
            simp [measure, measureMethod, measureType, measureModule, measureAssembly,
              hasClassInst, hasMethodInst, remainingModules, typeRem, methodCap, methodRem,
              currentTypes, currentMethods, HashIterator.Reset, GetCurrentModule, hC, hcur,
              hrest, Nat.add_mul, *] <;>
            omega
    · simp only [hC] at hb
      simp [resetMethod] at hb
      split_ifs at hb <;> simp at hb <;> obtain ⟨rfl, rfl, rfl⟩ := hb <;>
        simp [measure, measureMethod, measureType, measureModule, measureAssembly,
          hasClassInst, hasMethodInst, remainingModules, typeRem, methodCap, methodRem,
          currentTypes, currentMethods, HashIterator.Reset, GetCurrentModule, hC,
          Nat.add_mul, *] <;>
        try omega

theorem blockMethod_decreases (s : LoadedMethodDescIterator) (h : Holder) (l1 : Label)
    (s1 : LoadedMethodDescIterator) (h1 : Holder)
    (hb : blockMethod s h = .goto l1 s1 h1) : measure l1 s1 < measure ADVANCE_METHOD s := by
  rcases s with ⟨mode, aflags, mflags, mainMD?, mod?, md, ad?, first, ai, mi, sai, smi, ti, te,
    st, mti, mte, sm, dbg⟩
  unfold blockMethod at hb
  cases mainMD? with
  | none => simp at hb
  | some mainMD =>
    simp only at hb
    by_cases hM : mainMD.HasMethodInstantiation = true
    · simp only [hM, if_true] at hb
      cases hcur : GetCurrentModule ⟨mode, aflags, mflags, some mainMD, mod?, md, ad?, first, ai,
          mi, sai, smi, ti, te, st, mti, mte, sm, dbg⟩ with
      | none => simp [hcur] at hb
      | some m =>
        simp only [hcur] at hb
        simp only [GetCurrentModule] at hcur
        cases hrest : mti.getD m.GetInstMethodHashTable with
        | nil =>
          simp [FindNext, hrest] at hb
          obtain ⟨rfl, rfl, rfl⟩ := hb
          simp [measure, measureMethod, measureType, measureModule, measureAssembly,
            hasClassInst, hasMethodInst, remainingModules, typeRem, methodCap, methodRem,
            currentTypes, currentMethods, GetCurrentModule, hM, hcur, hrest]
        | cons e rest =>
          simp [FindNext, hrest] at hb
          split_ifs at hb <;> simp at hb <;> obtain ⟨rfl, rfl, rfl⟩ := hb <;>
            simp [measure, measureMethod, measureType, measureModule, measureAssembly,
              hasClassInst, hasMethodInst, remainingModules, typeRem, methodCap, methodRem,
              currentTypes, currentMethods, GetCurrentModule, hM, hcur, hrest]
    · simp only [hM] at hb
      simp at hb
      split_ifs at hb
      all_goals simp at hb
      obtain ⟨rfl, rfl, rfl⟩ := hb
      simp [measure, measureMethod, measureType, measureModule, measureAssembly,
        hasClassInst, hasMethodInst, remainingModules, typeRem, methodCap, methodRem,
        currentTypes, currentMethods, GetCurrentModule, hM, *]

theorem block_decreases (l : Label) (s : LoadedMethodDescIterator) (h : Holder) (l1 : Label)
    (s1 : LoadedMethodDescIterator) (h1 : Holder)
    (hb : block l s h = .goto l1 s1 h1) : measure l1 s1 < measure l s := by
  cases l with
  | ADVANCE_ASSEMBLY => exact blockAssembly_decreases s h l1 s1 h1 hb
  | ADVANCE_MODULE => exact blockModule_decreases s h l1 s1 h1 hb
  | ADVANCE_TYPE => exact blockType_decreases s h l1 s1 h1 hb
  | ADVANCE_METHOD => exact blockMethod_decreases s h l1 s1 h1 hb

/-! ## The driver has fuel enough -/

theorem run_mono (n : Nat) : ∀ (l : Label) (s : LoadedMethodDescIterator) (h : Holder)
    (r : Bool × LoadedMethodDescIterator × Holder) (k : Nat),
    run n l s h = .ok r → run (n + k) l s h = .ok r := by
  induction n with
  | zero => intro l s h r k hr; simp [run] at hr
  | succ n ih =>
    intro l s h r k hr
    rw [Nat.add_right_comm]
    unfold run at hr ⊢
    cases hb : block l s h with
    | ret b s1 h1 => simpa [hb] using hr
    | goto l1 s1 h1 =>
      simp only [hb] at hr ⊢
      exact ih l1 s1 h1 r k hr
    | fault => simp [hb] at hr

theorem run_fault_mono (n : Nat) : ∀ (l : Label) (s : LoadedMethodDescIterator) (h : Holder)
    (k : Nat), run n l s h = .undefinedBehaviour → run (n + k) l s h = .undefinedBehaviour := by
  induction n with
  | zero => intro l s h k hr; simp [run] at hr
  | succ n ih =>
    intro l s h k hr
    rw [Nat.add_right_comm]
    unfold run at hr ⊢
    cases hb : block l s h with
    | ret b s1 h1 => simp [hb] at hr
    | goto l1 s1 h1 =>
      simp only [hb] at hr ⊢
      exact ih l1 s1 h1 k hr
    | fault => simp [hb]

theorem run_enough (n : Nat) : ∀ (l : Label) (s : LoadedMethodDescIterator) (h : Holder),
    measure l s < n → run n l s h ≠ .outOfFuel := by
  induction n with
  | zero => intro l s h hlt; omega
  | succ n ih =>
    intro l s h hlt
    unfold run
    cases hb : block l s h with
    | ret b s1 h1 => simp
    | goto l1 s1 h1 =>
      simp only
      have := block_decreases l s h l1 s1 h1 hb
      exact ih l1 s1 h1 (by omega)
    | fault => simp

/-! ## Every block keeps the results still to come -/

theorem blockMethod_simulates (t : Target) (s : LoadedMethodDescIterator) (h : Holder)
    (hr : Ready t s) (hc : hasCurrent ADVANCE_METHOD s) :
    Simulates t ADVANCE_METHOD s h (blockMethod s h) := by
  rcases s with ⟨mode, aflags, mflags, mainMD?, mod?, md, ad?, first, ai, mi, sai, smi, ti, te,
    st, mti, mte, sm, dbg⟩
  obtain ⟨hmd, hf, hmode, hmf, hmod, hmdt⟩ := hr
  simp only at hmd hf hmode hmf hmod hmdt
  subst hmd hf hmode hmf hmod hmdt
  simp only [hasCurrent, Option.isSome_iff_exists] at hc
  obtain ⟨m, hcur⟩ := hc
  unfold blockMethod
  simp only [hcur]
  simp only [GetCurrentModule] at hcur
  by_cases hM : t.mainMD.HasMethodInstantiation = true
  · simp only [hM, if_true]
    cases hrest : mti.getD m.GetInstMethodHashTable with
    | nil =>
      simp [FindNext, hrest, Simulates, Ready, hasCurrent, pending, hcur, GetCurrentModule,
        pendingMethodOf, pendingTypeOf, pendingModule, pendingAssembly, remainingModules, hM]
    | cons e rest =>
      simp only [FindNext, hrest]
      split_ifs <;>
      simp_all [Simulates, Ready, hasCurrent, pending, GetCurrentModule,
        pendingMethodOf, pendingTypeOf, pendingModule, pendingAssembly, remainingModules,
        acceptsMethod, seen, seenType, seenMethod]
  · simp only [hM]
    cases sm <;>
    simp [Simulates, Ready, hasCurrent, pending, hcur, GetCurrentModule,
      pendingMethodOf, pendingTypeOf, pendingModule, pendingAssembly, remainingModules, hM,
      seen, seenType, seenMethod]

theorem blockType_simulates (t : Target) (s : LoadedMethodDescIterator) (h : Holder)
    (hr : Ready t s) (hc : hasCurrent ADVANCE_TYPE s) :
    Simulates t ADVANCE_TYPE s h (blockType s h) := by
  rcases s with ⟨mode, aflags, mflags, mainMD?, mod?, md, ad?, first, ai, mi, sai, smi, ti, te,
    st, mti, mte, sm, dbg⟩
  obtain ⟨hmd, hf, hmode, hmf, hmod, hmdt⟩ := hr
  simp only at hmd hf hmode hmf hmod hmdt
  subst hmd hf hmode hmf hmod hmdt
  simp only [hasCurrent, Option.isSome_iff_exists] at hc
  obtain ⟨m, hcur⟩ := hc
  unfold blockType
  simp only [hcur]
  simp only [GetCurrentModule] at hcur
  by_cases hC : t.mainMD.HasClassInstantiation = true
  · simp only [hC, if_true]
    cases hrest : ti.getD m.GetAvailableParamTypes with
    | nil =>
      simp [FindNext, hrest, Simulates, Ready, hasCurrent, pending, hcur, GetCurrentModule,
        pendingTypeOf, pendingModule, pendingAssembly, remainingModules, hC]
    | cons e rest =>
      simp only [FindNext, hrest, resetMethod]
      split_ifs <;>
      simp_all [Simulates, Ready, hasCurrent, pending, GetCurrentModule,
        pendingMethodOf, pendingTypeOf, pendingModule, pendingAssembly, remainingModules,
        acceptsType, seenType, typeHits, methodPasses, HashIterator.Reset]
  · simp only [hC, resetMethod]
    cases st with
    | true =>
      simp [Simulates, Ready, hasCurrent, pending, hcur, GetCurrentModule,
        pendingTypeOf, pendingModule, pendingAssembly, remainingModules, hC]
    | false =>
      by_cases hM : t.mainMD.HasMethodInstantiation = true <;>
      simp [hM, Simulates, Ready, hasCurrent, pending, hcur, GetCurrentModule,
        pendingMethodOf, pendingTypeOf, pendingModule, pendingAssembly, remainingModules, hC,
        seenType, typeHits, methodPasses, HashIterator.Reset]

theorem nextSharedModuleLoop_spec (ms : List Module) :
    (∃ m rest, nextSharedModuleLoop ms = (true, ⟨some m, rest⟩) ∧ m.IsProfilerNotified = true ∧
        ∀ q : Module → Bool, ms.filter (fun x => x.IsProfilerNotified && q x)
          = (m :: rest).filter (fun x => x.IsProfilerNotified && q x)) ∨
      (nextSharedModuleLoop ms = (false, ⟨none, []⟩) ∧
        ∀ q : Module → Bool, ms.filter (fun x => x.IsProfilerNotified && q x) = []) := by
  induction ms with
  | nil => right; simp [nextSharedModuleLoop]
  | cons a rest ih =>
    by_cases hp : a.IsProfilerNotified = true
    · left
      exact ⟨a, rest, by simp [nextSharedModuleLoop, hp], hp, fun q => rfl⟩
    · rcases ih with ⟨m, r, h1, h2, h3⟩ | ⟨h1, h3⟩
      · left
        refine ⟨m, r, by simp [nextSharedModuleLoop, hp, h1], h2, fun q => ?_⟩
        rw [List.filter_cons_of_neg (by simp [hp])]
        exact h3 q
      · right
        refine ⟨by simp [nextSharedModuleLoop, hp, h1], fun q => ?_⟩
        rw [List.filter_cons_of_neg (by simp [hp])]
        exact h3 q

theorem blockModule_simulates (t : Target) (s : LoadedMethodDescIterator) (h : Holder)
    (hr : Ready t s) : Simulates t ADVANCE_MODULE s h (blockModule s h) := by
  rcases s with ⟨mode, aflags, mflags, mainMD?, mod?, md, ad?, first, ai, mi, sai, smi, ti, te,
    st, mti, mte, sm, dbg⟩
  obtain ⟨hmd, hf, hmode, hmf, hmod, hmdt⟩ := hr
  simp only at hmd hf hmode hmf hmod hmdt
  subst hmd hf hmode hmf hmod hmdt
  unfold blockModule
  by_cases hmode : t.mode = kModeSharedDomainAssemblies
  · simp only [hmode, if_true, NextSharedModule]
    rcases nextSharedModuleLoop_spec smi.remaining with ⟨m, r, h1, h2, h3⟩ | ⟨h1, h3⟩
    · simp only [h1, GetCurrentModule, hmode, if_true]
      have h3a := h3 (fun x => !x.IsResource)
      by_cases hres : m.IsResource = true
      · simp [hres, Simulates, Ready, hasCurrent, pending, pendingModule, pendingAssembly,
          remainingModules, hmode, modulesHits, admitsModule, h3a]
      · by_cases hC : t.mainMD.HasClassInstantiation = true <;>
        simp [hres, hC, h2, Simulates, Ready, hasCurrent, pending, pendingModule,
          pendingAssembly, pendingTypeOf, HashIterator.Reset, GetCurrentModule,
          remainingModules, hmode, modulesHits, admitsModule, h3a, moduleHits, typePasses,
          List.flatMap_map]
    · have h3a := h3 (fun x => !x.IsResource)
      simp [h1, Simulates, Ready, hasCurrent, pending, pendingModule, pendingAssembly,
          remainingModules, hmode, modulesHits, admitsModule, h3a]
  · simp only [hmode, if_false]
    cases hrem : mi.remaining with
    | nil =>
      simp [Cursor.Next, hrem, Simulates, Ready, hasCurrent, pending, pendingModule,
        pendingAssembly, remainingModules, hmode, modulesHits]
    | cons m r =>
      simp only [Cursor.Next, hrem, GetCurrentModule, hmode, if_false]
      by_cases hres : m.IsResource = true
      · simp [hres, Simulates, Ready, hasCurrent, pending, pendingModule, pendingAssembly,
          remainingModules, hmode, modulesHits, admitsModule, hrem]
      · by_cases hC : t.mainMD.HasClassInstantiation = true <;>
        simp [hres, hC, Simulates, Ready, hasCurrent, pending, pendingModule,
          pendingAssembly, pendingTypeOf, HashIterator.Reset, GetCurrentModule,
          remainingModules, hmode, modulesHits, admitsModule, hrem, moduleHits, typePasses,
          List.flatMap_map]

theorem blockAssembly_simulates (t : Target) (s : LoadedMethodDescIterator) (h : Holder)
    (hr : Ready t s) : Simulates t ADVANCE_ASSEMBLY s h (blockAssembly s h) := by
  rcases s with ⟨mode, aflags, mflags, mainMD?, mod?, md, ad?, first, ai, mi, sai, smi, ti, te,
    st, mti, mte, sm, dbg⟩
  obtain ⟨hmd, hf, hmode, hmf, hmod, hmdt⟩ := hr
  simp only at hmd hf hmode hmf hmod hmdt
  subst hmd hf hmode hmf hmod hmdt
  unfold blockAssembly
  by_cases hmode : t.mode = kModeSharedDomainAssemblies
  · simp only [hmode, if_true]
    cases hrem : sai.remaining with
    | nil =>
      simp [Cursor.Next, hrem, Simulates, Ready, pending, pendingAssembly, hmode, sharedHits]
    | cons a r =>
      simp [Cursor.Next, hrem, Simulates, Ready, hasCurrent, pending, pendingAssembly,
        pendingModule, remainingModules, hmode, sharedHits, Cursor.start]
  · simp only [hmode, if_false]
    cases hrem : ai.remaining with
    | nil =>
      simp [AssemblyIterator.Next, hrem, Simulates, Ready, pending, pendingAssembly, hmode,
        domainHits]
    | cons a r =>
      simp only [AssemblyIterator.Next, hrem]
      by_cases hskip : (t.mode = kModeUnsharedADAssemblies
          ∧ a.GetAssembly.IsDomainNeutral = true)
      · simp [hskip, Simulates, Ready, hasCurrent, pending, pendingAssembly, hmode,
          domainHits, admitsAssembly, hrem]
      · have hadm : admitsAssembly t a = true := by
          simp only [not_and, Bool.not_eq_true] at hskip
          by_cases hu : t.mode = kModeUnsharedADAssemblies
          · simp [admitsAssembly, hskip hu]
          · simp [admitsAssembly, hu]
        have hskip1 : ¬ ((decide (t.mode = kModeUnsharedADAssemblies)
            && a.GetAssembly.IsDomainNeutral) = true) := by
          simpa using hskip
        simp [hskip1, Simulates, Ready, hasCurrent, pending, pendingAssembly,
          pendingModule, remainingModules, hmode, domainHits, Cursor.start, hrem,
          List.filter_cons, hadm]

theorem block_simulates (t : Target) (l : Label) (s : LoadedMethodDescIterator) (h : Holder)
    (hr : Ready t s) (hc : hasCurrent l s) : Simulates t l s h (block l s h) := by
  cases l with
  | ADVANCE_ASSEMBLY => exact blockAssembly_simulates t s h hr
  | ADVANCE_MODULE => exact blockModule_simulates t s h hr
  | ADVANCE_TYPE => exact blockType_simulates t s h hr hc
  | ADVANCE_METHOD => exact blockMethod_simulates t s h hr hc

/-! ## One call of `Next`, and the calls until the first FALSE -/

theorem run_spec (t : Target) (n : Nat) :
    ∀ (l : Label) (s : LoadedMethodDescIterator) (h : Holder),
      Ready t s → hasCurrent l s → measure l s < n →
      ∃ b s1 h1, run n l s h = .ok (b, s1, h1) ∧ Ready t s1 ∧
        (b = false → pending t l s h = []) ∧
        (b = true → pending t l s h = seen t s1 h1 :: pending t ADVANCE_METHOD s1 h1 ∧
          hasCurrent ADVANCE_METHOD s1) := by
  induction n with
  | zero => intro l s h _ _ hlt; omega
  | succ n ih =>
    intro l s h hr hc hlt
    have hsim := block_simulates t l s h hr hc
    unfold run
    cases hb : block l s h with
    | ret b s1 h1 =>
      rw [hb] at hsim
      exact ⟨b, s1, h1, rfl, hsim⟩
    | goto l1 s1 h1 =>
      rw [hb] at hsim
      obtain ⟨hr1, hc1, hp⟩ := hsim
      have hdec := block_decreases l s h l1 s1 h1 hb
      obtain ⟨b, s2, h2, hrun, hr2, hf, ht⟩ := ih l1 s1 h1 hr1 hc1 (by omega)
      refine ⟨b, s2, h2, hrun, hr2, ?_, ?_⟩
      · intro hb0; rw [← hp]; exact hf hb0
      · intro hb1; rw [← hp]; exact ht hb1
    | fault =>
      rw [hb] at hsim
      exact hsim.elim

theorem exec_spec (t : Target) (l : Label) (s : LoadedMethodDescIterator) (h : Holder)
    (hr : Ready t s) (hc : hasCurrent l s) :
    ∃ b s1 h1, exec l s h = .ok (b, s1, h1) ∧ Ready t s1 ∧
      (b = false → pending t l s h = []) ∧
      (b = true → pending t l s h = seen t s1 h1 :: pending t ADVANCE_METHOD s1 h1 ∧
        hasCurrent ADVANCE_METHOD s1) :=
  run_spec t (measure l s + 1) l s h hr hc (Nat.lt_succ_self _)

theorem Next_of_ready (t : Target) (s : LoadedMethodDescIterator) (h : Holder)
    (hr : Ready t s) (hg : t.mainMD.HasClassOrMethodInstantiation = true) :
    Next s h = exec ADVANCE_METHOD s h := by
  obtain ⟨hmd, hf, _⟩ := hr
  simp [Next, hmd, hf, hg]

theorem traversal_of_ready (t : Target) (hg : t.mainMD.HasClassOrMethodInstantiation = true)
    (k : Nat) : ∀ (s : LoadedMethodDescIterator) (h : Holder),
      Ready t s → hasCurrent ADVANCE_METHOD s →
      (pending t ADVANCE_METHOD s h).length = k →
      ∃ rs, Traversal s h rs ∧
        rs.map (fun r => seen t r.1 r.2) = pending t ADVANCE_METHOD s h := by
  induction k with
  | zero =>
    intro s h hr hc hlen
    obtain ⟨b, s1, h1, hex, _, hf, ht⟩ := exec_spec t ADVANCE_METHOD s h hr hc
    rw [← Next_of_ready t s h hr hg] at hex
    cases b with
    | false => exact ⟨[], Traversal.done hex, by rw [hf rfl]; rfl⟩
    | true =>
      rw [(ht rfl).1] at hlen
      simp at hlen
  | succ k ih =>
    intro s h hr hc hlen
    obtain ⟨b, s1, h1, hex, hr1, hf, ht⟩ := exec_spec t ADVANCE_METHOD s h hr hc
    rw [← Next_of_ready t s h hr hg] at hex
    cases b with
    | false =>
      rw [hf rfl] at hlen
      simp at hlen
    | true =>
      obtain ⟨hp, hc1⟩ := ht rfl
      rw [hp] at hlen
      simp at hlen
      obtain ⟨rs, htr, hrs⟩ := ih s1 h1 hr1 hc1 hlen
      exact ⟨(s1, h1) :: rs, Traversal.more hex htr, by rw [hp]; simp [hrs]⟩

theorem traversal_of_label (t : Target) (hg : t.mainMD.HasClassOrMethodInstantiation = true)
    (l : Label) (s : LoadedMethodDescIterator) (h : Holder)
    (hr : Ready t s) (hc : hasCurrent l s) :
    (∃ s1 h1, exec l s h = .ok (false, s1, h1) ∧ pending t l s h = []) ∨
    (∃ s1 h1 rs, exec l s h = .ok (true, s1, h1) ∧ Traversal s1 h1 rs ∧
      seen t s1 h1 :: rs.map (fun r => seen t r.1 r.2) = pending t l s h) := by
  obtain ⟨b, s1, h1, hex, hr1, hf, ht⟩ := exec_spec t l s h hr hc
  cases b with
  | false => exact Or.inl ⟨s1, h1, hex, hf rfl⟩
  | true =>
    obtain ⟨hp, hc1⟩ := ht rfl
    obtain ⟨rs, htr, hrs⟩ := traversal_of_ready t hg _ s1 h1 hr1 hc1 rfl
    exact Or.inr ⟨s1, h1, rs, hex, htr, by rw [hp, hrs]⟩

theorem Next_start (sharedDomain : List Assembly) (raw : LoadedMethodDescIterator)
    (pAppDomain : Option AppDomain) (pModule : Module) (md : mdMethodDef)
    (mode : AssemblyIterationMode) (af : AssemblyIterationFlags) (mf : ModuleIterationOption)
    (mainMD : MethodDesc) (h0 : Holder)
    (hlook : pModule.LookupMethodDef md = some mainMD)
    (hg : mainMD.HasClassOrMethodInstantiation = true)
    (had : mode = kModeSharedDomainAssemblies ∨ pAppDomain.isSome = true) :
    Next (Start (ctor sharedDomain raw) pAppDomain pModule md mode af mf) h0
      = exec ADVANCE_ASSEMBLY
          (entered sharedDomain raw pAppDomain pModule md mode af mf mainMD) h0 := by
  by_cases hmode : mode = kModeSharedDomainAssemblies
  · simp [Next, Start, ctor, entered, hlook, hg, hmode]
  · rcases had with had | had
    · exact absurd had hmode
    · obtain ⟨ad, rfl⟩ := Option.isSome_iff_exists.mp had
      simp [Next, Start, ctor, entered, hlook, hg, hmode]

theorem entered_ready (sharedDomain : List Assembly) (raw : LoadedMethodDescIterator)
    (pAppDomain : Option AppDomain) (pModule : Module) (md : mdMethodDef)
    (mode : AssemblyIterationMode) (af : AssemblyIterationFlags) (mf : ModuleIterationOption)
    (mainMD : MethodDesc) :
    Ready (startTarget pModule md mode mf mainMD)
      (entered sharedDomain raw pAppDomain pModule md mode af mf mainMD) := by
  simp [Ready, startTarget, entered, Start]

theorem entered_pending (sharedDomain : List Assembly) (raw : LoadedMethodDescIterator)
    (pAppDomain : Option AppDomain) (pModule : Module) (md : mdMethodDef)
    (mode : AssemblyIterationMode) (af : AssemblyIterationFlags) (mf : ModuleIterationOption)
    (mainMD : MethodDesc) (h0 : Holder) :
    pending (startTarget pModule md mode mf mainMD) ADVANCE_ASSEMBLY
      (entered sharedDomain raw pAppDomain pModule md mode af mf mainMD) h0
      = allHits (startTarget pModule md mode mf mainMD) sharedDomain pAppDomain af h0 := by
  by_cases hmode : mode = kModeSharedDomainAssemblies
  · simp [pending, pendingAssembly, allHits, startTarget, entered, Start, ctor, hmode,
      Cursor.start]
  · cases pAppDomain <;>
    simp [pending, pendingAssembly, allHits, startTarget, entered, Start, ctor, hmode,
      domainHits]

/-- The calls of `Next` after `Start`, for a generic target: they end, and what the
caller sees after the calls that returned TRUE is `allHits`. -/
theorem traversal_start (sharedDomain : List Assembly) (raw : LoadedMethodDescIterator)
    (pAppDomain : Option AppDomain) (pModule : Module) (md : mdMethodDef)
    (mode : AssemblyIterationMode) (af : AssemblyIterationFlags) (mf : ModuleIterationOption)
    (mainMD : MethodDesc) (h0 : Holder)
    (hlook : pModule.LookupMethodDef md = some mainMD)
    (hg : mainMD.HasClassOrMethodInstantiation = true)
    (had : mode = kModeSharedDomainAssemblies ∨ pAppDomain.isSome = true) :
    ∃ rs, Traversal (Start (ctor sharedDomain raw) pAppDomain pModule md mode af mf) h0 rs ∧
      rs.map (fun r => seen (startTarget pModule md mode mf mainMD) r.1 r.2)
        = allHits (startTarget pModule md mode mf mainMD) sharedDomain pAppDomain af h0 := by
  have hn := Next_start sharedDomain raw pAppDomain pModule md mode af mf mainMD h0 hlook hg had
  have hr := entered_ready sharedDomain raw pAppDomain pModule md mode af mf mainMD
  have hp := entered_pending sharedDomain raw pAppDomain pModule md mode af mf mainMD h0
  rcases traversal_of_label (startTarget pModule md mode mf mainMD) hg ADVANCE_ASSEMBLY _ h0 hr
      trivial with ⟨s1, h1, hex, hnil⟩ | ⟨s1, h1, rs, hex, htr, hrs⟩
  · rw [← hn] at hex
    exact ⟨[], Traversal.done hex, by rw [← hp, hnil]; rfl⟩
  · rw [← hn] at hex
    exact ⟨(s1, h1) :: rs, Traversal.more hex htr, by rw [← hp, ← hrs]; rfl⟩

/-! ## What the caller sees is well formed -/

theorem good_typeHits (t : Target) (h : Holder) (m : Module) (te : Option EETypeHashEntry)
    (hm : admitsModule t m = true)
    (hte : if t.mainMD.HasClassInstantiation then
        ∃ e, te = some e ∧ acceptsType t.mainMD t.m_module e = true else te = none) :
    ∀ x ∈ typeHits t h m te, Seen.Good t x := by
  intro x hx
  simp only [typeHits, List.mem_map] at hx
  obtain ⟨me, hme, rfl⟩ := hx
  refine ⟨⟨m, rfl, hm⟩, hte, ?_⟩
  by_cases hM : t.mainMD.HasMethodInstantiation = true
  · simp only [methodPasses, hM, if_true, List.mem_map, List.mem_filter] at hme
    obtain ⟨e, ⟨_, he⟩, rfl⟩ := hme
    simp only [hM, if_true]
    exact ⟨e, rfl, he⟩
  · simp [methodPasses, hM] at hme
    simp [hM, hme]

theorem good_moduleHits (t : Target) (h : Holder) (m : Module) (hm : admitsModule t m = true) :
    ∀ x ∈ moduleHits t h m, Seen.Good t x := by
  intro x hx
  simp only [moduleHits, List.mem_flatMap] at hx
  obtain ⟨te, hte, hx⟩ := hx
  refine good_typeHits t h m te hm ?_ x hx
  by_cases hC : t.mainMD.HasClassInstantiation = true
  · simp only [typePasses, hC, if_true, List.mem_map, List.mem_filter] at hte
    obtain ⟨e, ⟨_, he⟩, rfl⟩ := hte
    simp only [hC, if_true]
    exact ⟨e, rfl, he⟩
  · simp [typePasses, hC] at hte
    simp [hC, hte]

theorem good_modulesHits (t : Target) (h : Holder) (ms : List Module) :
    ∀ x ∈ modulesHits t h ms, Seen.Good t x := by
  intro x hx
  simp only [modulesHits, List.mem_flatMap, List.mem_filter] at hx
  obtain ⟨m, ⟨_, hm⟩, hx⟩ := hx
  exact good_moduleHits t h m hm x hx

theorem good_pendingAssembly (t : Target) (s : LoadedMethodDescIterator) (h : Holder) :
    ∀ x ∈ pendingAssembly t s h, Seen.Good t x := by
  intro x hx
  unfold pendingAssembly at hx
  split at hx
  · simp only [sharedHits, List.mem_flatMap] at hx
    obtain ⟨a, _, hx⟩ := hx
    exact good_modulesHits t h _ x hx
  · simp only [domainHits, List.mem_flatMap] at hx
    obtain ⟨a, _, hx⟩ := hx
    exact good_modulesHits t _ _ x hx

theorem good_pendingModule (t : Target) (s : LoadedMethodDescIterator) (h : Holder) :
    ∀ x ∈ pendingModule t s h, Seen.Good t x := by
  intro x hx
  simp only [pendingModule, List.mem_append] at hx
  rcases hx with hx | hx
  · exact good_modulesHits t h _ x hx
  · exact good_pendingAssembly t s h x hx

theorem good_pendingMethod (t : Target) (s : LoadedMethodDescIterator) (h h0 : Holder)
    (hgood : Seen.Good t (seen t s h0)) :
    ∀ x ∈ pending t ADVANCE_METHOD s h, Seen.Good t x := by
  intro x hx
  obtain ⟨⟨m, hcur, hm⟩, hte, _⟩ := hgood
  simp only [seen] at hcur hte
  simp only [pending, hcur, List.mem_append] at hx
  rcases hx with hx | hx | hx
  · refine ⟨?_, ?_, ?_⟩
    · unfold pendingMethodOf at hx
      split_ifs at hx
      · simp only [List.mem_map] at hx
        obtain ⟨e, _, rfl⟩ := hx
        exact ⟨m, rfl, hm⟩
      · simp at hx
      · simp only [List.mem_singleton] at hx
        subst hx
        exact ⟨m, rfl, hm⟩
    · unfold pendingMethodOf at hx
      split_ifs at hx
      · simp only [List.mem_map] at hx
        obtain ⟨e, _, rfl⟩ := hx
        exact hte
      · simp at hx
      · simp only [List.mem_singleton] at hx
        subst hx
        exact hte
    · unfold pendingMethodOf at hx
      split_ifs at hx with hM
      · simp only [List.mem_map, List.mem_filter] at hx
        obtain ⟨e, ⟨_, he⟩, rfl⟩ := hx
        simp only [hM, if_true]
        exact ⟨e, rfl, he⟩
      · simp at hx
      · simp only [List.mem_singleton] at hx
        subst hx
        simp [hM]
  · unfold pendingTypeOf at hx
    split_ifs at hx with hC
    · simp only [List.mem_flatMap, List.mem_filter] at hx
      obtain ⟨e, ⟨_, he⟩, hx⟩ := hx
      exact good_typeHits t h m (some e) hm (by simp [hC, he]) x hx
    · simp at hx
    · exact good_typeHits t h m none hm (by simp [hC]) x hx
  · exact good_pendingModule t s h x hx

theorem current_of_seen (t : Target) (s : LoadedMethodDescIterator) (h : Holder)
    (hr : Ready t s) : Current s = Seen.current t (seen t s h) := by
  obtain ⟨hmd, _⟩ := hr
  unfold Current Seen.current seen seenType seenMethod
  simp only [hmd]
  by_cases hM : t.mainMD.HasMethodInstantiation = true
  · simp [hM]
  · by_cases hC : t.mainMD.HasClassInstantiation = true <;> simp [hM, hC]

theorem current_of_good (t : Target) (x : Seen) (hx : Seen.Good t x) :
    Seen.current t x = .ok (resultOf t.mainMD x.typeEntry x.methodEntry) := by
  obtain ⟨_, hte, hme⟩ := hx
  unfold Seen.current resultOf
  by_cases hM : t.mainMD.HasMethodInstantiation = true
  · simp only [hM, if_true] at hme ⊢
    obtain ⟨e, he, _⟩ := hme
    simp [he]
  · simp [hM] at hme
    by_cases hC : t.mainMD.HasClassInstantiation = true
    · simp only [hC, if_true] at hte
      obtain ⟨e, he, _⟩ := hte
      simp [hM, hC, he, hme]
    · simp [hC] at hte
      simp [hM, hC, hte, hme]

theorem returnedTrue_good (sharedDomain : List Assembly) (raw : LoadedMethodDescIterator)
    (pAppDomain : Option AppDomain) (pModule : Module) (md : mdMethodDef)
    (mode : AssemblyIterationMode) (af : AssemblyIterationFlags) (mf : ModuleIterationOption)
    (mainMD : MethodDesc) (hlook : pModule.LookupMethodDef md = some mainMD)
    (hg : mainMD.HasClassOrMethodInstantiation = true) (s : LoadedMethodDescIterator)
    (hrt : ReturnedTrue (Start (ctor sharedDomain raw) pAppDomain pModule md mode af mf) s) :
    Ready (startTarget pModule md mode mf mainMD) s ∧
      ∀ h, Seen.Good (startTarget pModule md mode mf mainMD)
        (seen (startTarget pModule md mode mf mainMD) s h) := by
  induction hrt with
  | @first h s1 h1 hnext =>
    have had : mode = kModeSharedDomainAssemblies ∨ pAppDomain.isSome = true := by
      by_cases hmode : mode = kModeSharedDomainAssemblies
      · exact Or.inl hmode
      · cases pAppDomain with
        | none => simp [Next, Start, ctor, hlook, hg, hmode] at hnext
        | some ad => exact Or.inr rfl
    rw [Next_start sharedDomain raw pAppDomain pModule md mode af mf mainMD h hlook hg had]
      at hnext
    obtain ⟨b, s2, h2, hex, hr2, _, ht⟩ :=
      exec_spec (startTarget pModule md mode mf mainMD) ADVANCE_ASSEMBLY _ h
        (entered_ready sharedDomain raw pAppDomain pModule md mode af mf mainMD) trivial
    rw [hnext] at hex
    simp only [Outcome.ok.injEq, Prod.mk.injEq] at hex
    obtain ⟨rfl, rfl, rfl⟩ := hex
    refine ⟨hr2, fun h3 => ?_⟩
    have hmem : seen (startTarget pModule md mode mf mainMD) s1 h1 ∈
        pending (startTarget pModule md mode mf mainMD) ADVANCE_ASSEMBLY
          (entered sharedDomain raw pAppDomain pModule md mode af mf mainMD) h := by
      rw [(ht rfl).1]; exact List.mem_cons_self _ _
    exact (good_pendingAssembly _ _ _ _ hmem : Seen.Good _ (seen _ s1 h1))
  | @again s0 h s1 h1 _ hnext ih =>
    obtain ⟨hr0, hgood⟩ := ih
    have hc : hasCurrent ADVANCE_METHOD s0 := by
      obtain ⟨⟨m, hcur, _⟩, _⟩ := hgood none
      simp only [seen] at hcur
      simp [hasCurrent, hcur]
    rw [Next_of_ready _ s0 h hr0 hg] at hnext
    obtain ⟨b, s2, h2, hex, hr2, _, ht⟩ :=
      exec_spec (startTarget pModule md mode mf mainMD) ADVANCE_METHOD s0 h hr0 hc
    rw [hnext] at hex
    simp only [Outcome.ok.injEq, Prod.mk.injEq] at hex
    obtain ⟨rfl, rfl, rfl⟩ := hex
    refine ⟨hr2, fun h3 => ?_⟩
    have hmem : seen (startTarget pModule md mode mf mainMD) s1 h1 ∈
        pending (startTarget pModule md mode mf mainMD) ADVANCE_METHOD s0 h := by
      rw [(ht rfl).1]; exact List.mem_cons_self _ _
    exact (good_pendingMethod _ s0 h none (hgood none) _ hmem : Seen.Good _ (seen _ s1 h1))

/-! ## Non-generic targets and unresolved tokens -/

theorem Next_first_nongeneric (sharedDomain : List Assembly) (raw : LoadedMethodDescIterator)
    (pAppDomain : Option AppDomain) (pModule : Module) (md : mdMethodDef)
    (mode : AssemblyIterationMode) (af : AssemblyIterationFlags) (mf : ModuleIterationOption)
    (mainMD : MethodDesc) (h0 : Holder)
    (hlook : pModule.LookupMethodDef md = some mainMD)
    (hng : mainMD.HasClassOrMethodInstantiation = false) :
    Next (Start (ctor sharedDomain raw) pAppDomain pModule md mode af mf) h0
      = .ok (true,
          { Start (ctor sharedDomain raw) pAppDomain pModule md mode af mf with
            m_fFirstTime := false, m_mainMD := some mainMD }, none) := by
  simp [Next, Start, ctor, hlook, hng]

theorem Next_later_nongeneric (s : LoadedMethodDescIterator) (mainMD : MethodDesc) (h : Holder)
    (hmd : s.m_mainMD = some mainMD) (hf : s.m_fFirstTime = false)
    (hng : mainMD.HasClassOrMethodInstantiation = false) :
    Next s h = .ok (false, s, none) := by
  simp [Next, hmd, hf, hng]

theorem nthNext_later_nongeneric (s : LoadedMethodDescIterator) (mainMD : MethodDesc)
    (hmd : s.m_mainMD = some mainMD) (hf : s.m_fFirstTime = false)
    (hng : mainMD.HasClassOrMethodInstantiation = false) (n : Nat) :
    ∀ h, nthNext n s h = .ok (false, s, none) := by
  induction n with
  | zero => intro h; exact Next_later_nongeneric s mainMD h hmd hf hng
  | succ n ih =>
    intro h
    simp only [nthNext, Next_later_nongeneric s mainMD h hmd hf hng]
    exact ih none

/-- C1: for every scope and every definition that resolves and has neither class
nor method instantiation, the first `Next` after `Start` returns TRUE, `Current`
then returns the resolved definition `m_mainMD`, and every later call of `Next`
returns FALSE. -/
theorem C1_nongeneric_true_once (sharedDomain : List Assembly)
    (raw : LoadedMethodDescIterator) (pAppDomain : Option AppDomain) (pModule : Module)
    (md : mdMethodDef) (mode : AssemblyIterationMode) (af : AssemblyIterationFlags)
    (mf : ModuleIterationOption) (mainMD : MethodDesc) (h0 : Holder)
    (hlook : pModule.LookupMethodDef md = some mainMD)
    (hng : mainMD.HasClassOrMethodInstantiation = false) :
    ∃ s1, Next (Start (ctor sharedDomain raw) pAppDomain pModule md mode af mf) h0
        = .ok (true, s1, none)
      ∧ s1.m_mainMD = some mainMD
      ∧ Current s1 = .ok mainMD
      ∧ (∀ h, Next s1 h = .ok (false, s1, none))
      ∧ (∀ n, nthNext (n + 1) (Start (ctor sharedDomain raw) pAppDomain pModule md mode af mf)
          h0 = .ok (false, s1, none)) := by
  have h1 := Next_first_nongeneric sharedDomain raw pAppDomain pModule md mode af mf mainMD h0
    hlook hng
  simp only [MethodDesc.HasClassOrMethodInstantiation, Bool.or_eq_false_iff] at hng
  refine ⟨_, h1, rfl, ?_, ?_, ?_⟩
  · simp [Current, hng.1, hng.2]
  · intro h
    exact Next_later_nongeneric _ mainMD h rfl rfl (by
      simp [MethodDesc.HasClassOrMethodInstantiation, hng.1, hng.2])
  · intro n
    simp only [nthNext, h1]
    exact nthNext_later_nongeneric _ mainMD rfl rfl (by
      simp [MethodDesc.HasClassOrMethodInstantiation, hng.1, hng.2]) n none

/-- C1 on the sample: token `0x06000010` of `M` is not generic. -/
theorem C1_nongeneric_true_once_witness :
    Sample.M.LookupMethodDef 0x06000010 = some Sample.plainMD
      ∧ Sample.plainMD.HasClassOrMethodInstantiation = false
      ∧ ∃ s1, Next (Sample.start 0x06000010) none = .ok (true, s1, none)
        ∧ s1.m_mainMD = some Sample.plainMD
        ∧ Current s1 = .ok Sample.plainMD
        ∧ (∀ h, Next s1 h = .ok (false, s1, none))
        ∧ (∀ n, nthNext (n + 1) (Sample.start 0x06000010) none = .ok (false, s1, none)) :=
  ⟨rfl, rfl, C1_nongeneric_true_once [] Sample.raw (some Sample.D) Sample.M 0x06000010
    kModeUnsharedADAssemblies 0 0 Sample.plainMD none rfl rfl⟩

theorem returnedTrue_nongeneric (sharedDomain : List Assembly) (raw : LoadedMethodDescIterator)
    (pAppDomain : Option AppDomain) (pModule : Module) (md : mdMethodDef)
    (mode : AssemblyIterationMode) (af : AssemblyIterationFlags) (mf : ModuleIterationOption)
    (mainMD : MethodDesc) (hlook : pModule.LookupMethodDef md = some mainMD)
    (hng : mainMD.HasClassOrMethodInstantiation = false) (s : LoadedMethodDescIterator)
    (hrt : ReturnedTrue (Start (ctor sharedDomain raw) pAppDomain pModule md mode af mf) s) :
    s.m_mainMD = some mainMD ∧ s.m_fFirstTime = false := by
  induction hrt with
  | @first h s1 h1 hnext =>
    rw [Next_first_nongeneric sharedDomain raw pAppDomain pModule md mode af mf mainMD h hlook
      hng] at hnext
    simp only [Outcome.ok.injEq, Prod.mk.injEq, true_and] at hnext
    obtain ⟨rfl, _⟩ := hnext
    exact ⟨rfl, rfl⟩
  | @again s0 h s1 h1 _ hnext ih =>
    rw [Next_later_nongeneric s0 mainMD h ih.1 ih.2 hng] at hnext
    simp at hnext

/-! ## The entries and the module of a result -/

/-- C5: for a target with a class instantiation, whenever `Next` returns TRUE the
current type entry is none of the rejected kinds: its handle is not pointer-tagged,
not an encoded fixup, not a `TypeDesc`, its method table is restored, has the
type-def RID of the target and the module `m_module`. -/
theorem C5_type_entry_accepted (sharedDomain : List Assembly)
    (raw : LoadedMethodDescIterator) (pAppDomain : Option AppDomain) (pModule : Module)
    (md : mdMethodDef) (mode : AssemblyIterationMode) (af : AssemblyIterationFlags)
    (mf : ModuleIterationOption) (mainMD : MethodDesc) (s : LoadedMethodDescIterator)
    (hlook : pModule.LookupMethodDef md = some mainMD)
    (hC : mainMD.HasClassInstantiation = true)
    (hrt : ReturnedTrue (Start (ctor sharedDomain raw) pAppDomain pModule md mode af mf) s) :
    ∃ e, s.m_typeIteratorEntry = some e
      ∧ e.GetTypeHandle.isPointerTagged = false
      ∧ e.GetTypeHandle.IsEncodedFixup = false
      ∧ e.GetTypeHandle.IsTypeDesc = false
      ∧ e.GetTypeHandle.AsMethodTable.IsRestored = true
      ∧ e.GetTypeHandle.AsMethodTable.GetTypeDefRid = mainMD.GetMethodTable_GetTypeDefRid
      ∧ e.GetTypeHandle.AsMethodTable.GetModule = pModule.addr := by
  have hg : mainMD.HasClassOrMethodInstantiation = true := by
    simp [MethodDesc.HasClassOrMethodInstantiation, hC]
  obtain ⟨_, hgood⟩ := returnedTrue_good sharedDomain raw pAppDomain pModule md mode af mf
    mainMD hlook hg s hrt
  obtain ⟨_, hte, _⟩ := hgood none
  simp only [startTarget, hC, if_true, seen, seenType] at hte
  obtain ⟨e, he, hacc⟩ := hte
  refine ⟨e, he, ?_⟩
  simpa [acceptsType, neModule, and_assoc] using hacc

/-- C5 on the sample: after the first call for the type-generic token the current
type entry is the instantiation over `int`, the second entry of the table. -/
theorem C5_type_entry_accepted_witness :
    ∃ e, (Sample.after1 0x06000011).m_typeIteratorEntry = some e
      ∧ e.GetTypeHandle.isPointerTagged = false
      ∧ e.GetTypeHandle.IsEncodedFixup = false
      ∧ e.GetTypeHandle.IsTypeDesc = false
      ∧ e.GetTypeHandle.AsMethodTable.IsRestored = true
      ∧ e.GetTypeHandle.AsMethodTable.GetTypeDefRid
          = Sample.classMD.GetMethodTable_GetTypeDefRid
      ∧ e.GetTypeHandle.AsMethodTable.GetModule = Sample.M.addr :=
  C5_type_entry_accepted [] Sample.raw (some Sample.D) Sample.M 0x06000011
    kModeUnsharedADAssemblies 0 0 Sample.classMD (Sample.after1 0x06000011) rfl rfl
    (@ReturnedTrue.first _ none _ (some Sample.A) rfl)

/-- C6: for a target with a method instantiation, whenever `Next` returns TRUE the
current method entry is not pointer-tagged, its method is restored, has the module
`m_module` and the token `m_md`, and `Current()` is the method of that entry. -/
theorem C6_method_entry_accepted (sharedDomain : List Assembly)
    (raw : LoadedMethodDescIterator) (pAppDomain : Option AppDomain) (pModule : Module)
    (md : mdMethodDef) (mode : AssemblyIterationMode) (af : AssemblyIterationFlags)
    (mf : ModuleIterationOption) (mainMD : MethodDesc) (s : LoadedMethodDescIterator)
    (hlook : pModule.LookupMethodDef md = some mainMD)
    (hM : mainMD.HasMethodInstantiation = true)
    (hrt : ReturnedTrue (Start (ctor sharedDomain raw) pAppDomain pModule md mode af mf) s) :
    ∃ e, s.m_methodIteratorEntry = some e
      ∧ e.isPointerTagged = false
      ∧ e.GetMethod.IsRestored = true
      ∧ e.GetMethod.GetModule = pModule.addr
      ∧ e.GetMethod.GetMemberDef = md
      ∧ Current s = .ok e.GetMethod := by
  have hg : mainMD.HasClassOrMethodInstantiation = true := by
    simp [MethodDesc.HasClassOrMethodInstantiation, hM]
  obtain ⟨hr, hgood⟩ := returnedTrue_good sharedDomain raw pAppDomain pModule md mode af mf
    mainMD hlook hg s hrt
  obtain ⟨_, _, hme⟩ := hgood none
  simp only [startTarget, hM, if_true, seen, seenMethod] at hme
  obtain ⟨e, he, hacc⟩ := hme
  have hcur : Current s = .ok e.GetMethod := by
    obtain ⟨hmd, _⟩ := hr
    simp only [startTarget] at hmd
    simp [Current, hmd, hM, he]
  simp only [acceptsMethod, neModule, Bool.and_eq_true, Bool.not_eq_true',
    bne_eq_false_iff_eq, beq_iff_eq] at hacc
  exact ⟨e, he, hacc.1.1.1, hacc.1.1.2, hacc.1.2, hacc.2, hcur⟩

/-- C6 on the sample: the first result for the fully generic token. -/
theorem C6_method_entry_accepted_witness :
    ∃ e, (Sample.after1 0x06000012).m_methodIteratorEntry = some e
      ∧ e.isPointerTagged = false
      ∧ e.GetMethod.IsRestored = true
      ∧ e.GetMethod.GetModule = Sample.M.addr
      ∧ e.GetMethod.GetMemberDef = 0x06000012
      ∧ Current (Sample.after1 0x06000012) = .ok e.GetMethod :=
  C6_method_entry_accepted [] Sample.raw (some Sample.D) Sample.M 0x06000012
    kModeUnsharedADAssemblies 0 0 Sample.fullMD (Sample.after1 0x06000012) rfl rfl
    (@ReturnedTrue.first _ none _ (some Sample.A) rfl)

/-- C9: after every call of `Next` that returned TRUE, `Current` is defined: it is
the method of the current (accepted) method entry when the target has a method
instantiation; otherwise, when the target has a class instantiation, the method at
the slot of the target definition on the method table of the current (accepted)
type entry; otherwise the target definition `m_mainMD`. -/
theorem C9_current_after_true (sharedDomain : List Assembly)
    (raw : LoadedMethodDescIterator) (pAppDomain : Option AppDomain) (pModule : Module)
    (md : mdMethodDef) (mode : AssemblyIterationMode) (af : AssemblyIterationFlags)
    (mf : ModuleIterationOption) (mainMD : MethodDesc) (s : LoadedMethodDescIterator)
    (hlook : pModule.LookupMethodDef md = some mainMD)
    (hrt : ReturnedTrue (Start (ctor sharedDomain raw) pAppDomain pModule md mode af mf) s) :
    (mainMD.HasMethodInstantiation = true →
        ∃ e, s.m_methodIteratorEntry = some e ∧ acceptsMethod (some pModule) md e = true
          ∧ Current s = .ok e.GetMethod)
      ∧ (mainMD.HasMethodInstantiation = false → mainMD.HasClassInstantiation = true →
        ∃ e, s.m_typeIteratorEntry = some e ∧ acceptsType mainMD (some pModule) e = true
          ∧ Current s
            = .ok (e.GetTypeHandle.GetMethodTable.GetMethodDescForSlot mainMD.GetSlot))
      ∧ (mainMD.HasMethodInstantiation = false → mainMD.HasClassInstantiation = false →
        Current s = .ok mainMD) := by
  refine ⟨fun hM => ?_, fun hM hC => ?_, fun hM hC => ?_⟩
  · have hg : mainMD.HasClassOrMethodInstantiation = true := by
      simp [MethodDesc.HasClassOrMethodInstantiation, hM]
    obtain ⟨hr, hgood⟩ := returnedTrue_good sharedDomain raw pAppDomain pModule md mode af mf
      mainMD hlook hg s hrt
    obtain ⟨_, _, hme⟩ := hgood none
    simp only [startTarget, hM, if_true, seen, seenMethod] at hme
    obtain ⟨e, he, hacc⟩ := hme
    obtain ⟨hmd, _⟩ := hr
    simp only [startTarget] at hmd
    exact ⟨e, he, hacc, by simp [Current, hmd, hM, he]⟩
  · have hg : mainMD.HasClassOrMethodInstantiation = true := by
      simp [MethodDesc.HasClassOrMethodInstantiation, hC]
    obtain ⟨hr, hgood⟩ := returnedTrue_good sharedDomain raw pAppDomain pModule md mode af mf
      mainMD hlook hg s hrt
    obtain ⟨_, hte, _⟩ := hgood none
    simp only [startTarget, hC, if_true, seen, seenType] at hte
    obtain ⟨e, he, hacc⟩ := hte
    obtain ⟨hmd, _⟩ := hr
    simp only [startTarget] at hmd
    exact ⟨e, he, hacc, by simp [Current, hmd, hM, hC, he]⟩
  · have hng : mainMD.HasClassOrMethodInstantiation = false := by
      simp [MethodDesc.HasClassOrMethodInstantiation, hM, hC]
    obtain ⟨hmd, _⟩ := returnedTrue_nongeneric sharedDomain raw pAppDomain pModule md mode af
      mf mainMD hlook hng s hrt
    simp [Current, hmd, hM, hC]

/-- C9 on the sample: the second result for the type-generic token is the method at
slot 4 of the method table of the instantiation over `string`. -/
theorem C9_current_after_true_witness :
    Current (Sample.after2 0x06000011) = .ok Sample.classMD_string :=
  ((C9_current_after_true [] Sample.raw (some Sample.D) Sample.M 0x06000011
      kModeUnsharedADAssemblies 0 0 Sample.classMD (Sample.after2 0x06000011) rfl
      (@ReturnedTrue.again _ (Sample.after1 0x06000011) (some Sample.A) _ (some Sample.A)
        (@ReturnedTrue.first _ none _ (some Sample.A) rfl) rfl)).2.1 rfl rfl).elim
    (fun e he => by
      have h1 := he.1
      have h2 := he.2.2
      rw [h2]
      have : e = Sample.teString := Option.some.inj (h1.symm.trans rfl)
      rw [this]; rfl)

theorem modulesHits_allResource (t : Target) (h : Holder) (ms : List Module)
    (hres : ∀ m ∈ ms, m.IsResource = true) : modulesHits t h ms = [] := by
  have : ms.filter (fun m => admitsModule t m) = [] := by
    rw [List.filter_eq_nil_iff]
    intro m hm
    simp [admitsModule, hres m hm]
  simp [modulesHits, this]

theorem allHits_allResource (t : Target) (sharedDomain : List Assembly)
    (pAppDomain : Option AppDomain) (af : AssemblyIterationFlags) (h : Holder)
    (hres : allResource t.mode sharedDomain pAppDomain af t.moduleFlags) :
    allHits t sharedDomain pAppDomain af h = [] := by
  unfold allHits
  unfold allResource at hres
  split_ifs at hres ⊢ with hmode
  · simp only [sharedHits, List.flatMap_eq_nil_iff]
    intro a ha
    exact modulesHits_allResource t h _ (hres a ha)
  · cases pAppDomain with
    | none => rfl
    | some ad =>
      simp only [domainHits, List.flatMap_eq_nil_iff, List.mem_filter]
      intro da hda
      exact modulesHits_allResource t _ _ (hres ad rfl da hda.1)

/-- C10: for a generic target, whenever `Next` returns TRUE the current module is
not a resource module; and when every module in the scope is a resource module
the first call of `Next` returns FALSE, whatever the tables of those modules
hold. -/
theorem C10_resource_module_skipped (sharedDomain : List Assembly)
    (raw : LoadedMethodDescIterator) (pAppDomain : Option AppDomain) (pModule : Module)
    (md : mdMethodDef) (mode : AssemblyIterationMode) (af : AssemblyIterationFlags)
    (mf : ModuleIterationOption) (mainMD : MethodDesc)
    (hlook : pModule.LookupMethodDef md = some mainMD)
    (hg : mainMD.HasClassOrMethodInstantiation = true) :
    (∀ s, ReturnedTrue (Start (ctor sharedDomain raw) pAppDomain pModule md mode af mf) s →
        ∃ m, s.GetCurrentModule = some m ∧ m.IsResource = false)
      ∧ ((mode = kModeSharedDomainAssemblies ∨ pAppDomain.isSome = true) →
          allResource mode sharedDomain pAppDomain af mf →
          ∀ h0, ∃ s1 h1,
            Next (Start (ctor sharedDomain raw) pAppDomain pModule md mode af mf) h0
              = .ok (false, s1, h1)) := by
  refine ⟨fun s hrt => ?_, fun had hres h0 => ?_⟩
  · obtain ⟨_, hgood⟩ := returnedTrue_good sharedDomain raw pAppDomain pModule md mode af mf
      mainMD hlook hg s hrt
    obtain ⟨⟨m, hm, hadm⟩, _⟩ := hgood none
    simp only [seen] at hm
    refine ⟨m, hm, ?_⟩
    simp only [admitsModule, Bool.and_eq_true, Bool.not_eq_true'] at hadm
    exact hadm.2
  · obtain ⟨rs, htr, hrs⟩ := traversal_start sharedDomain raw pAppDomain pModule md mode af mf
      mainMD h0 hlook hg had
    rw [allHits_allResource (startTarget pModule md mode mf mainMD) sharedDomain pAppDomain af
      h0 hres] at hrs
    have hnil : rs = [] := List.map_eq_nil_iff.mp hrs
    subst hnil
    cases htr with
    | @done _ _ s1 h1 hnext => exact ⟨s1, h1, hnext⟩

/-! ## The traversal against the reference enumeration -/

theorem admitsModule_eq (pModule : Module) (md : mdMethodDef) (mode : AssemblyIterationMode)
    (mf : ModuleIterationOption) (mainMD : MethodDesc) (m : Module) :
    admitsModule (startTarget pModule md mode mf mainMD) m = admittedModule mode m := by
  cases mode <;> cases hr : m.IsResource <;> cases hp : m.IsProfilerNotified <;>
    simp [admitsModule, admittedModule, startTarget, hr, hp]

/-- The modules a traversal stops on, in order. -/
theorem modulesHits_eq (pModule : Module) (md : mdMethodDef) (mode : AssemblyIterationMode)
    (mf : ModuleIterationOption) (mainMD : MethodDesc) (h : Holder) (ms : List Module) :
    modulesHits (startTarget pModule md mode mf mainMD) h ms
      = (ms.filter (fun m => admittedModule mode m)).flatMap
          (fun m => moduleHits (startTarget pModule md mode mf mainMD) h m) := by
  simp only [modulesHits, admitsModule_eq]

theorem map_moduleHits (pModule : Module) (md : mdMethodDef) (mode : AssemblyIterationMode)
    (mf : ModuleIterationOption) (mainMD : MethodDesc) (h : Holder) (m : Module) :
    (moduleHits (startTarget pModule md mode mf mainMD) h m).map
        (fun x => resultOf mainMD x.typeEntry x.methodEntry)
      = (acceptedTypes mainMD pModule m).flatMap fun te =>
          (acceptedMethods mainMD pModule md m).map fun me => resultOf mainMD te me := by
  simp [moduleHits, typeHits, typePasses, methodPasses, acceptedTypes, acceptedMethods,
    startTarget, List.map_flatMap, Function.comp_def]

theorem map_modulesHits (pModule : Module) (md : mdMethodDef) (mode : AssemblyIterationMode)
    (mf : ModuleIterationOption) (mainMD : MethodDesc) (h : Holder) (ms : List Module) :
    (modulesHits (startTarget pModule md mode mf mainMD) h ms).map
        (fun x => resultOf mainMD x.typeEntry x.methodEntry)
      = (ms.filter (fun m => admittedModule mode m)).flatMap fun m =>
          (acceptedTypes mainMD pModule m).flatMap fun te =>
            (acceptedMethods mainMD pModule md m).map fun me => resultOf mainMD te me := by
  rw [modulesHits_eq, List.map_flatMap]
  simp only [map_moduleHits]

theorem map_allHits (sharedDomain : List Assembly) (pAppDomain : Option AppDomain)
    (pModule : Module) (md : mdMethodDef) (mode : AssemblyIterationMode)
    (af : AssemblyIterationFlags) (mf : ModuleIterationOption) (mainMD : MethodDesc)
    (h0 : Holder) :
    (allHits (startTarget pModule md mode mf mainMD) sharedDomain pAppDomain af h0).map
        (fun x => resultOf mainMD x.typeEntry x.methodEntry)
      = flatMapReference mode sharedDomain pAppDomain af mf mainMD pModule md := by
  unfold allHits flatMapReference scopeModules
  cases mode with
  | kModeSharedDomainAssemblies =>
    simp only [startTarget, if_true, sharedHits, List.map_flatMap, List.flatMap_map]
    congr 1
    funext a
    exact map_modulesHits pModule md _ mf mainMD h0 _
  | kModeUnsharedADAssemblies =>
    cases pAppDomain with
    | none => simp [startTarget]
    | some ad =>
      simp only [startTarget, domainHits, List.map_flatMap, List.flatMap_map, admitsAssembly]
      simp only [reduceCtorEq, if_false, decide_True, Bool.true_and]
      rw [List.map_flatMap]
      congr 1
      funext da
      exact map_modulesHits pModule md _ mf mainMD _ _
  | kModeAllADAssemblies =>
    cases pAppDomain with
    | none => simp [startTarget]
    | some ad =>
      simp only [startTarget, domainHits, List.map_flatMap, List.flatMap_map, admitsAssembly]
      simp only [reduceCtorEq, if_false, decide_False, Bool.false_and, Bool.not_false,
        List.filter_true]
      rw [List.map_flatMap]
      congr 1
      funext da
      exact map_modulesHits pModule md _ mf mainMD _ _

theorem traversal_returnedTrue (start : LoadedMethodDescIterator)
    (s : LoadedMethodDescIterator) (h : Holder) (rs : List (LoadedMethodDescIterator × Holder))
    (htr : Traversal s h rs)
    (hs : ∀ h s1 h1, Next s h = .ok (true, s1, h1) → ReturnedTrue start s1) :
    ∀ r ∈ rs, ReturnedTrue start r.1 := by
  induction htr with
  | done _ => intro r hr; simp at hr
  | @more s h s1 h1 rs hnext _ ih =>
    intro r hr
    have h1rt : ReturnedTrue start s1 := hs h s1 h1 hnext
    rcases List.mem_cons.mp hr with rfl | hr
    · exact h1rt
    · exact ih (fun h2 s2 h3 hn => ReturnedTrue.again h1rt hn) r hr

theorem traversal_start_returnedTrue (start : LoadedMethodDescIterator) (h : Holder)
    (rs : List (LoadedMethodDescIterator × Holder)) (htr : Traversal start h rs) :
    ∀ r ∈ rs, ReturnedTrue start r.1 :=
  traversal_returnedTrue start start h rs htr (fun _ _ _ hn => ReturnedTrue.first hn)

theorem currents_of_traversal (f : LoadedMethodDescIterator → MethodDesc)
    (s : LoadedMethodDescIterator) (h : Holder) (rs : List (LoadedMethodDescIterator × Holder))
    (htr : Traversal s h rs) (hcur : ∀ r ∈ rs, Current r.1 = .ok (f r.1)) :
    ∀ fuel, rs.length < fuel → currents fuel s h = .ok (rs.map (fun r => f r.1)) := by
  induction htr with
  | done hnext =>
    intro fuel hf
    cases fuel with
    | zero => simp at hf
    | succ n => simp [currents, hnext]
  | @more s h s1 h1 rs hnext _ ih =>
    intro fuel hf
    cases fuel with
    | zero => simp at hf
    | succ n =>
      have hc1 := hcur (s1, h1) (List.mem_cons_self _ _)
      have hrest := ih (fun r hr => hcur r (List.mem_cons_of_mem _ hr)) n
        (by simp at hf; omega)
      simp only at hc1
      simp [currents, hnext, hc1, hrest]

theorem nthNext_of_traversal (s : LoadedMethodDescIterator) (h : Holder)
    (rs : List (LoadedMethodDescIterator × Holder)) (htr : Traversal s h rs) :
    ∀ i, i ≤ rs.length → returned (nthNext i s h) = .ok (decide (i < rs.length)) := by
  induction htr with
  | done hnext =>
    intro i hi
    simp only [List.length_nil, Nat.le_zero] at hi
    subst hi
    simp [nthNext, hnext, returned]
  | @more s h s1 h1 rs hnext _ ih =>
    intro i hi
    cases i with
    | zero => simp [nthNext, hnext, returned]
    | succ n =>
      simp only [List.length_cons, Nat.add_le_add_iff_right] at hi
      simp only [nthNext, hnext, List.length_cons, Nat.add_lt_add_iff_right]
      exact ih n hi

/-- The calls of `Next` after `Start` for a generic target, with what the caller
sees, the values of `Current()` and the state of every result. -/
theorem traversal_start_full (sharedDomain : List Assembly) (raw : LoadedMethodDescIterator)
    (pAppDomain : Option AppDomain) (pModule : Module) (md : mdMethodDef)
    (mode : AssemblyIterationMode) (af : AssemblyIterationFlags) (mf : ModuleIterationOption)
    (mainMD : MethodDesc) (h0 : Holder)
    (hlook : pModule.LookupMethodDef md = some mainMD)
    (hg : mainMD.HasClassOrMethodInstantiation = true)
    (had : mode = kModeSharedDomainAssemblies ∨ pAppDomain.isSome = true) :
    ∃ rs, Traversal (Start (ctor sharedDomain raw) pAppDomain pModule md mode af mf) h0 rs ∧
      rs.map (fun r => seen (startTarget pModule md mode mf mainMD) r.1 r.2)
        = allHits (startTarget pModule md mode mf mainMD) sharedDomain pAppDomain af h0 ∧
      (∀ r ∈ rs, Current r.1 = .ok (resultOf mainMD
        (seenType (startTarget pModule md mode mf mainMD) r.1)
        (seenMethod (startTarget pModule md mode mf mainMD) r.1))) ∧
      rs.map (fun r => resultOf mainMD
        (seenType (startTarget pModule md mode mf mainMD) r.1)
        (seenMethod (startTarget pModule md mode mf mainMD) r.1))
        = flatMapReference mode sharedDomain pAppDomain af mf mainMD pModule md := by
  obtain ⟨rs, htr, hrs⟩ := traversal_start sharedDomain raw pAppDomain pModule md mode af mf
    mainMD h0 hlook hg had
  refine ⟨rs, htr, hrs, ?_, ?_⟩
  · intro r hr
    have hrt := traversal_start_returnedTrue _ h0 rs htr r hr
    obtain ⟨hready, hgood⟩ := returnedTrue_good sharedDomain raw pAppDomain pModule md mode af
      mf mainMD hlook hg r.1 hrt
    rw [current_of_seen _ r.1 none hready, current_of_good _ _ (hgood none)]
    rfl
  · rw [← map_allHits sharedDomain pAppDomain pModule md mode af mf mainMD h0, ← hrs,
      List.map_map]
    rfl

/-- C2: for every snapshot and every generic target, the list of the values of
`Current()` obtained by calling `Next` until it first returns FALSE is the nested
flat-map reference (assemblies, admitted modules, accepted type entries or one
virtual pass, accepted method entries or one virtual pass). -/
theorem C2_traversal_is_flatMap (sharedDomain : List Assembly)
    (raw : LoadedMethodDescIterator) (pAppDomain : Option AppDomain) (pModule : Module)
    (md : mdMethodDef) (mode : AssemblyIterationMode) (af : AssemblyIterationFlags)
    (mf : ModuleIterationOption) (mainMD : MethodDesc) (h0 : Holder) (fuel : Nat)
    (hlook : pModule.LookupMethodDef md = some mainMD)
    (hg : mainMD.HasClassOrMethodInstantiation = true)
    (had : mode = kModeSharedDomainAssemblies ∨ pAppDomain.isSome = true)
    (hfuel : (flatMapReference mode sharedDomain pAppDomain af mf mainMD pModule md).length
      < fuel) :
    currents fuel (Start (ctor sharedDomain raw) pAppDomain pModule md mode af mf) h0
      = .ok (flatMapReference mode sharedDomain pAppDomain af mf mainMD pModule md) := by
  obtain ⟨rs, htr, _, hcur, hmap⟩ := traversal_start_full sharedDomain raw pAppDomain pModule
    md mode af mf mainMD h0 hlook hg had
  have hlen : rs.length < fuel := by
    rw [← hmap, List.length_map] at hfuel
    exact hfuel
  rw [← hmap]
  exact currents_of_traversal
    (fun s => resultOf mainMD (seenType (startTarget pModule md mode mf mainMD) s)
      (seenMethod (startTarget pModule md mode mf mainMD) s)) _ h0 rs htr hcur fuel hlen

/-- C2 on the sample: the fully generic token in the app domain `D`. -/
theorem C2_traversal_is_flatMap_witness :
    currents 5 (Sample.start 0x06000012) none
      = .ok (flatMapReference kModeUnsharedADAssemblies [] (some Sample.D) 0 0 Sample.fullMD
          Sample.M 0x06000012) :=
  C2_traversal_is_flatMap [] Sample.raw (some Sample.D) Sample.M 0x06000012
    kModeUnsharedADAssemblies 0 0 Sample.fullMD none 5 rfl rfl (Or.inr rfl) (by decide)

/-! ## Counting the results -/

/-- Any reading of the results that does not depend on the holder, module by
module. -/
theorem map_allHits_modules {β : Type} (g : Seen → β) (G : Module → List β)
    (sharedDomain : List Assembly) (pAppDomain : Option AppDomain)
    (pModule : Module) (md : mdMethodDef) (mode : AssemblyIterationMode)
    (af : AssemblyIterationFlags) (mf : ModuleIterationOption) (mainMD : MethodDesc)
    (h0 : Holder)
    (hG : ∀ h m, (moduleHits (startTarget pModule md mode mf mainMD) h m).map g = G m) :
    (allHits (startTarget pModule md mode mf mainMD) sharedDomain pAppDomain af h0).map g
      = (admittedModules mode sharedDomain pAppDomain af mf).flatMap G := by
  have hms : ∀ h ms, (modulesHits (startTarget pModule md mode mf mainMD) h ms).map g
      = (ms.filter (fun m => admittedModule mode m)).flatMap G := by
    intro h ms
    rw [modulesHits_eq, List.map_flatMap]
    simp only [hG]
  unfold allHits admittedModules
  rw [List.flatMap_assoc]
  unfold scopeModules
  cases mode with
  | kModeSharedDomainAssemblies =>
    simp only [startTarget, if_true, sharedHits, List.map_flatMap, List.flatMap_map]
    congr 1
    funext a
    exact hms h0 _
  | kModeUnsharedADAssemblies =>
    cases pAppDomain with
    | none => simp [startTarget]
    | some ad =>
      simp only [startTarget, domainHits, List.flatMap_map, admitsAssembly]
      simp only [reduceCtorEq, if_false, decide_True, Bool.true_and]
      rw [List.map_flatMap]
      congr 1
      funext da
      exact hms _ _
  | kModeAllADAssemblies =>
    cases pAppDomain with
    | none => simp [startTarget]
    | some ad =>
      simp only [startTarget, domainHits, List.flatMap_map, admitsAssembly]
      simp only [reduceCtorEq, if_false, decide_False, Bool.false_and, Bool.not_false,
        List.filter_true]
      rw [List.map_flatMap]
      congr 1
      funext da
      exact hms _ _

theorem flatMapReference_eq (mode : AssemblyIterationMode) (sharedDomain : List Assembly)
    (pAppDomain : Option AppDomain) (af : AssemblyIterationFlags) (mf : ModuleIterationOption)
    (mainMD : MethodDesc) (pModule : Module) (md : mdMethodDef) :
    flatMapReference mode sharedDomain pAppDomain af mf mainMD pModule md
      = (admittedModules mode sharedDomain pAppDomain af mf).flatMap
          (moduleResults mainMD pModule md) := by
  unfold flatMapReference admittedModules
  rw [List.flatMap_assoc]
  rfl

theorem flatMap_singleton_map {α β : Type} (f : α → β) (xs : List α) :
    (xs.flatMap fun a => [f a]) = xs.map f := by
  induction xs with
  | nil => rfl
  | cons x xs ih => simp [ih]

theorem length_flatMap_const {α β : Type} (xs : List α) (ys : List β) :
    (xs.flatMap (fun _ => ys)).length = xs.length * ys.length := by
  induction xs with
  | nil => simp
  | cons x xs ih => simp [ih, Nat.succ_mul, Nat.add_comm]

/-- C3: for a target with a class instantiation and no method instantiation, when
the admitted modules of the scope hold N accepted type entries in all, `Next`
returns TRUE exactly N times and then FALSE, and the current type entries of the
results are those N entries, each once, in the order of the tables. -/
theorem C3_one_result_per_accepted_type (sharedDomain : List Assembly)
    (raw : LoadedMethodDescIterator) (pAppDomain : Option AppDomain) (pModule : Module)
    (md : mdMethodDef) (mode : AssemblyIterationMode) (af : AssemblyIterationFlags)
    (mf : ModuleIterationOption) (mainMD : MethodDesc) (h0 : Holder)
    (hlook : pModule.LookupMethodDef md = some mainMD)
    (hC : mainMD.HasClassInstantiation = true)
    (hM : mainMD.HasMethodInstantiation = false)
    (had : mode = kModeSharedDomainAssemblies ∨ pAppDomain.isSome = true) :
    ∃ rs, Traversal (Start (ctor sharedDomain raw) pAppDomain pModule md mode af mf) h0 rs
      ∧ rs.map (fun r => r.1.m_typeIteratorEntry)
        = (acceptedTypeEntries mode sharedDomain pAppDomain af mf mainMD pModule).map some
      ∧ ∀ i, i ≤ (acceptedTypeEntries mode sharedDomain pAppDomain af mf mainMD pModule).length →
          returned (nthNext i (Start (ctor sharedDomain raw) pAppDomain pModule md mode af mf)
            h0)
            = .ok (decide (i
              < (acceptedTypeEntries mode sharedDomain pAppDomain af mf mainMD pModule).length))
    := by
  have hg : mainMD.HasClassOrMethodInstantiation = true := by
    simp [MethodDesc.HasClassOrMethodInstantiation, hC]
  obtain ⟨rs, htr, hrs⟩ := traversal_start sharedDomain raw pAppDomain pModule md mode af mf
    mainMD h0 hlook hg had
  have hmap : rs.map (fun r => r.1.m_typeIteratorEntry)
      = (acceptedTypeEntries mode sharedDomain pAppDomain af mf mainMD pModule).map some := by
    have h1 := map_allHits_modules (fun x => x.typeEntry)
      (fun m => (m.GetAvailableParamTypes.filter
        (fun e => acceptsType mainMD (some pModule) e)).map some)
      sharedDomain pAppDomain pModule md mode af mf mainMD h0 (by
        intro h m
        simp [moduleHits, typeHits, typePasses, methodPasses, startTarget, hC, hM,
          List.map_flatMap, List.flatMap_map, flatMap_singleton_map])
    rw [← hrs, List.map_map] at h1
    simp only [acceptedTypeEntries, List.map_flatMap]
    rw [← h1]
    apply List.map_congr_left
    intro r _
    simp [seen, seenType, startTarget, hC]
  have hlen : rs.length
      = (acceptedTypeEntries mode sharedDomain pAppDomain af mf mainMD pModule).length := by
    have := congrArg List.length hmap
    simpa using this
  refine ⟨rs, htr, hmap, ?_⟩
  rw [← hlen]
  exact nthNext_of_traversal _ h0 rs htr

/-- C3 on the sample: the type-generic token has the two accepted instantiations
over `int` and over `string`; the third call returns FALSE. -/
theorem C3_one_result_per_accepted_type_witness :
    (acceptedTypeEntries kModeUnsharedADAssemblies [] (some Sample.D) 0 0 Sample.classMD
        Sample.M).length = 2
      ∧ returned (nthNext 0 (Sample.start 0x06000011) none) = .ok true
      ∧ returned (nthNext 1 (Sample.start 0x06000011) none) = .ok true
      ∧ returned (nthNext 2 (Sample.start 0x06000011) none) = .ok false :=
  (C3_one_result_per_accepted_type [] Sample.raw (some Sample.D) Sample.M 0x06000011
    kModeUnsharedADAssemblies 0 0 Sample.classMD none rfl rfl rfl (Or.inr rfl)).elim
    (fun _ hrs => ⟨by decide, hrs.2.2 0 (by decide), hrs.2.2 1 (by decide),
      hrs.2.2 2 (by decide)⟩)

/-- C4, the claim as stated fails: on the sample the fully generic token has one
admitted module with two accepted type entries and one accepted method entry for
each of the two types, and the traversal has four results, each method
instantiation twice. -/
theorem C4_counterexample_duplicates :
    admittedModules kModeUnsharedADAssemblies [] (some Sample.D) 0 0 = [Sample.M]
      ∧ (Sample.M.GetAvailableParamTypes.filter
          (fun e => acceptsType Sample.fullMD (some Sample.M) e)).length = 2
      ∧ (Sample.M.GetInstMethodHashTable.filter
          (fun e => acceptsMethod (some Sample.M) 0x06000012 e)).map (fun e => e.GetMethod)
          = [Sample.fullMD_int, Sample.fullMD_string]
      ∧ currents 10 (Sample.start 0x06000012) none
          = .ok [Sample.fullMD_int, Sample.fullMD_string, Sample.fullMD_int,
              Sample.fullMD_string]
      ∧ ¬ [Sample.fullMD_int, Sample.fullMD_string, Sample.fullMD_int,
            Sample.fullMD_string].Nodup :=
  ⟨rfl, by decide, by decide, by decide, by decide⟩

/-- C4 as amended: for a target with a class and a method instantiation, in a scope
whose single admitted module holds T accepted type entries and K accepted method
entries of the target (of whatever instantiated type), `Next` returns TRUE exactly
T×K times and then FALSE; the values of `Current()` are the K accepted method
instantiations in table order, once for every accepted type entry; every accepted
method instantiation is returned when T is not zero. -/
theorem C4_amended_types_times_methods (sharedDomain : List Assembly)
    (raw : LoadedMethodDescIterator) (pAppDomain : Option AppDomain) (pModule : Module)
    (md : mdMethodDef) (mode : AssemblyIterationMode) (af : AssemblyIterationFlags)
    (mf : ModuleIterationOption) (mainMD : MethodDesc) (h0 : Holder) (m : Module)
    (hlook : pModule.LookupMethodDef md = some mainMD)
    (hC : mainMD.HasClassInstantiation = true)
    (hM : mainMD.HasMethodInstantiation = true)
    (had : mode = kModeSharedDomainAssemblies ∨ pAppDomain.isSome = true)
    (hsingle : admittedModules mode sharedDomain pAppDomain af mf = [m]) :
    ∃ rs, Traversal (Start (ctor sharedDomain raw) pAppDomain pModule md mode af mf) h0 rs
      ∧ rs.map (fun r => Current r.1)
        = ((m.GetAvailableParamTypes.filter
              (fun e => acceptsType mainMD (some pModule) e)).flatMap fun _ =>
            (m.GetInstMethodHashTable.filter
              (fun e => acceptsMethod (some pModule) md e)).map fun e => .ok e.GetMethod)
      ∧ rs.length
        = (m.GetAvailableParamTypes.filter
              (fun e => acceptsType mainMD (some pModule) e)).length
          * (m.GetInstMethodHashTable.filter
              (fun e => acceptsMethod (some pModule) md e)).length
      ∧ (∀ i, i ≤ rs.length →
          returned (nthNext i (Start (ctor sharedDomain raw) pAppDomain pModule md mode af mf)
            h0) = .ok (decide (i < rs.length)))
      ∧ (0 < (m.GetAvailableParamTypes.filter
              (fun e => acceptsType mainMD (some pModule) e)).length →
          ∀ e ∈ m.GetInstMethodHashTable.filter (fun e => acceptsMethod (some pModule) md e),
            Outcome.ok e.GetMethod ∈ rs.map (fun r => Current r.1)) := by
  have hg : mainMD.HasClassOrMethodInstantiation = true := by
    simp [MethodDesc.HasClassOrMethodInstantiation, hC]
  obtain ⟨rs, htr, _, hcur, hmap⟩ := traversal_start_full sharedDomain raw pAppDomain pModule
    md mode af mf mainMD h0 hlook hg had
  have href : flatMapReference mode sharedDomain pAppDomain af mf mainMD pModule md
      = ((m.GetAvailableParamTypes.filter
            (fun e => acceptsType mainMD (some pModule) e)).flatMap fun _ =>
          (m.GetInstMethodHashTable.filter
            (fun e => acceptsMethod (some pModule) md e)).map fun e => e.GetMethod) := by
    rw [flatMapReference_eq, hsingle]
    simp [moduleResults, acceptedTypes, acceptedMethods, hC, hM, resultOf, List.flatMap_map,
      Function.comp_def]
  have hkey : rs.map (fun r => Current r.1)
      = ((m.GetAvailableParamTypes.filter
            (fun e => acceptsType mainMD (some pModule) e)).flatMap fun _ =>
          (m.GetInstMethodHashTable.filter
            (fun e => acceptsMethod (some pModule) md e)).map fun e => .ok e.GetMethod) := by
    have h1 : rs.map (fun r => Current r.1)
        = (flatMapReference mode sharedDomain pAppDomain af mf mainMD pModule md).map
            Outcome.ok := by
      rw [← hmap, List.map_map]
      apply List.map_congr_left
      intro r hr
      exact hcur r hr
    rw [h1, href, List.map_flatMap]
    simp [Function.comp_def]
  have hlen : rs.length
      = (m.GetAvailableParamTypes.filter
            (fun e => acceptsType mainMD (some pModule) e)).length
        * (m.GetInstMethodHashTable.filter
            (fun e => acceptsMethod (some pModule) md e)).length := by
    have := congrArg List.length hkey
    rw [List.length_map, length_flatMap_const, List.length_map] at this
    exact this
  refine ⟨rs, htr, hkey, hlen, nthNext_of_traversal _ h0 rs htr, ?_⟩
  intro hT e he
  rw [hkey, List.mem_flatMap]
  obtain ⟨t0, ht0⟩ := List.exists_mem_of_length_pos hT
  exact ⟨t0, ht0, List.mem_map.mpr ⟨e, he, rfl⟩⟩

/-- C4 as amended, on the sample: two accepted type entries and two accepted method
entries, four results and then FALSE. -/
theorem C4_amended_types_times_methods_witness :
    returned (nthNext 3 (Sample.start 0x06000012) none) = .ok true
      ∧ returned (nthNext 4 (Sample.start 0x06000012) none) = .ok false :=
  (C4_amended_types_times_methods [] Sample.raw (some Sample.D) Sample.M 0x06000012
    kModeUnsharedADAssemblies 0 0 Sample.fullMD none Sample.M rfl rfl rfl (Or.inr rfl)
    rfl).elim
    (fun rs hrs => by
      have hlen : rs.length = 4 := hrs.2.2.1.trans (by decide)
      have h3 := hrs.2.2.2.1 3 (by omega)
      have h4 := hrs.2.2.2.1 4 (by omega)
      rw [hlen] at h3 h4
      exact ⟨h3, h4⟩)

/-! ## Calls after a FALSE -/

/-- An unresolved token: the first call returns FALSE, and every later call
dereferences the null `m_mainMD` at line 38. -/
theorem Next_unresolved (sharedDomain : List Assembly) (raw : LoadedMethodDescIterator)
    (pAppDomain : Option AppDomain) (pModule : Module) (md : mdMethodDef)
    (mode : AssemblyIterationMode) (af : AssemblyIterationFlags) (mf : ModuleIterationOption)
    (h0 : Holder) (hlook : pModule.LookupMethodDef md = none) :
    ∃ s1, Next (Start (ctor sharedDomain raw) pAppDomain pModule md mode af mf) h0
        = .ok (false, s1, none)
      ∧ ∀ h, Next s1 h = .undefinedBehaviour := by
  refine ⟨{ Start (ctor sharedDomain raw) pAppDomain pModule md mode af mf with
      m_fFirstTime := false, m_mainMD := none }, ?_, ?_⟩
  · simp [Next, Start, ctor, hlook]
  · intro h
    simp [Next]

/-- C7, the code at the failing input: token `0x06000099` does not resolve in `M`;
the first `Next` returns FALSE, the second dereferences the null `m_mainMD`. -/
theorem C7_unresolved_second_call :
    Sample.M.LookupMethodDef 0x06000099 = none
      ∧ returned (Next (Sample.start 0x06000099) none) = .ok false
      ∧ returned (Next (Sample.after1 0x06000099) none) = .undefinedBehaviour :=
  ⟨rfl, by decide, by decide⟩

/-- C8, the code at the failing inputs.  For the type-generic token of the sample
the third call returns FALSE (the assemblies are exhausted) and the fourth reads
the module cursor, which stands on no module.  In a scope with no admitted
assembly, on an iterator built in zeroed memory, the first call returns FALSE and
the second returns TRUE. -/
theorem C8_call_after_exhaustion :
    returned (nthNext 2 (Sample.start 0x06000011) none) = .ok false
      ∧ returned (nthNext 3 (Sample.start 0x06000011) none) = .undefinedBehaviour
      ∧ returned (nthNext 0 (Sample.startNeutral 0x06000011) none) = .ok false
      ∧ returned (nthNext 1 (Sample.startNeutral 0x06000011) none) = .ok true :=
  ⟨by decide, by decide, by decide, by decide⟩

/-- C10 on the sample: the resource module `R` comes before `M` in the assembly and
has the same tables, and the first result lies in `M`; in the app domain that
holds only `R` the first call returns FALSE. -/
theorem C10_resource_module_skipped_witness :
    (∃ m, (Sample.after1 0x06000011).GetCurrentModule = some m ∧ m.IsResource = false)
      ∧ ∃ s1 h1,
        Next ((ctor [] Sample.raw).Start (some Sample.Dres) Sample.M 0x06000011
          kModeAllADAssemblies 0 0) none = .ok (false, s1, h1) :=
  ⟨(C10_resource_module_skipped [] Sample.raw (some Sample.D) Sample.M 0x06000011
      kModeUnsharedADAssemblies 0 0 Sample.classMD rfl rfl).1 _
      (@ReturnedTrue.first _ none _ (some Sample.A) rfl),
    (C10_resource_module_skipped [] Sample.raw (some Sample.Dres) Sample.M 0x06000011
      kModeAllADAssemblies 0 0 Sample.classMD rfl rfl).2 (Or.inr rfl)
      (by simp [allResource, Sample.Dres, Sample.R]) none⟩

/-! ## What the blocks leave as it is -/

theorem blockMethod_holder (s : LoadedMethodDescIterator) (h : Holder) :
    blockMethod s h = stepWithHolder h (blockMethod s none) := by
  rcases s with ⟨mode, aflags, mflags, mainMD?, mod?, md, ad?, first, ai, mi, sai, smi, ti, te,
    st, mti, mte, sm, dbg⟩
  unfold blockMethod
  cases mainMD? with
  | none => rfl
  | some mainMD =>
    dsimp only
    cases hcur : GetCurrentModule ⟨mode, aflags, mflags, some mainMD, mod?, md, ad?, first, ai,
        mi, sai, smi, ti, te, st, mti, mte, sm, dbg⟩ with
    | none =>
      simp only [apply_ite (stepWithHolder h)]
      rfl
    | some m =>
      cases hrest : mti.getD m.GetInstMethodHashTable with
      | nil =>
        simp only [FindNext, hrest, apply_ite (stepWithHolder h)]
        rfl
      | cons e rest =>
        simp only [FindNext, hrest, apply_ite (stepWithHolder h)]
        rfl

theorem blockType_holder (s : LoadedMethodDescIterator) (h : Holder) :
    blockType s h = stepWithHolder h (blockType s none) := by
  rcases s with ⟨mode, aflags, mflags, mainMD?, mod?, md, ad?, first, ai, mi, sai, smi, ti, te,
    st, mti, mte, sm, dbg⟩
  unfold blockType
  cases mainMD? with
  | none => rfl
  | some mainMD =>
    dsimp only
    cases hcur : GetCurrentModule ⟨mode, aflags, mflags, some mainMD, mod?, md, ad?, first, ai,
        mi, sai, smi, ti, te, st, mti, mte, sm, dbg⟩ with
    | none =>
      simp only [resetMethod, apply_ite (stepWithHolder h)]
      rfl
    | some m =>
      cases hrest : ti.getD m.GetAvailableParamTypes with
      | nil =>
        simp only [FindNext, hrest, resetMethod, apply_ite (stepWithHolder h)]
        rfl
      | cons e rest =>
        simp only [FindNext, hrest, resetMethod, apply_ite (stepWithHolder h)]
        rfl

theorem blockModule_holder (s : LoadedMethodDescIterator) (h : Holder) :
    blockModule s h = stepWithHolder h (blockModule s none) := by
  rcases s with ⟨mode, aflags, mflags, mainMD?, mod?, md, ad?, first, ai, mi, sai, smi, ti, te,
    st, mti, mte, sm, dbg⟩
  unfold blockModule
  by_cases hmode : mode = kModeSharedDomainAssemblies
  · simp only [hmode, if_true, NextSharedModule]
    rcases nextSharedModuleLoop_spec smi.remaining with ⟨m, r, h1, h2, h3⟩ | ⟨h1, h3⟩
    · simp only [h1, GetCurrentModule, if_true]
      cases mainMD? with
      | none =>
        simp only [apply_ite (stepWithHolder h)]
        rfl
      | some mainMD =>
        simp only [apply_ite (stepWithHolder h)]
        rfl
    · simp only [h1, apply_ite (stepWithHolder h)]
      rfl
  · simp only [hmode, if_false]
    cases hrem : mi.remaining with
    | nil =>
      simp only [Cursor.Next, hrem, apply_ite (stepWithHolder h)]
      rfl
    | cons m r =>
      simp only [Cursor.Next, hrem, GetCurrentModule, hmode, if_false]
      cases mainMD? with
      | none =>
        simp only [apply_ite (stepWithHolder h)]
        rfl
      | some mainMD =>
        simp only [apply_ite (stepWithHolder h)]
        rfl

theorem blockAssembly_holder (s : LoadedMethodDescIterator) (h : Holder)
    (hmode : s.m_assemblyIterationMode = kModeSharedDomainAssemblies) :
    blockAssembly s h = stepWithHolder h (blockAssembly s none) := by
  rcases s with ⟨mode, aflags, mflags, mainMD?, mod?, md, ad?, first, ai, mi, sai, smi, ti, te,
    st, mti, mte, sm, dbg⟩
  simp only at hmode
  subst hmode
  unfold blockAssembly
  simp only [if_true]
  cases hrem : sai.remaining with
  | nil =>
    simp only [Cursor.Next, hrem, apply_ite (stepWithHolder h)]
    rfl
  | cons a r =>
    simp only [Cursor.Next, hrem, apply_ite (stepWithHolder h)]
    rfl

theorem blockMethod_fixed (s : LoadedMethodDescIterator) (h : Holder) :
    (stepState (blockMethod s h)).map (fun s1 => (fixedPart s1, assemblyPart s1))
      = (stepState (blockMethod s h)).map (fun _ => (fixedPart s, assemblyPart s)) := by
  rcases s with ⟨mode, aflags, mflags, mainMD?, mod?, md, ad?, first, ai, mi, sai, smi, ti, te,
    st, mti, mte, sm, dbg⟩
  unfold blockMethod
  cases mainMD? with
  | none => rfl
  | some mainMD =>
    dsimp only
    cases hcur : GetCurrentModule ⟨mode, aflags, mflags, some mainMD, mod?, md, ad?, first, ai,
        mi, sai, smi, ti, te, st, mti, mte, sm, dbg⟩ with
    | none =>
      simp only [apply_ite stepState, apply_ite (Option.map _)]
      rfl
    | some m =>
      cases hrest : mti.getD m.GetInstMethodHashTable with
      | nil =>
        simp only [FindNext, hrest, apply_ite stepState, apply_ite (Option.map _)]
        rfl
      | cons e rest =>
        simp only [FindNext, hrest, apply_ite stepState, apply_ite (Option.map _)]
        rfl

theorem blockType_fixed (s : LoadedMethodDescIterator) (h : Holder) :
    (stepState (blockType s h)).map (fun s1 => (fixedPart s1, assemblyPart s1))
      = (stepState (blockType s h)).map (fun _ => (fixedPart s, assemblyPart s)) := by
  rcases s with ⟨mode, aflags, mflags, mainMD?, mod?, md, ad?, first, ai, mi, sai, smi, ti, te,
    st, mti, mte, sm, dbg⟩
  unfold blockType
  cases mainMD? with
  | none => rfl
  | some mainMD =>
    dsimp only
    cases hcur : GetCurrentModule ⟨mode, aflags, mflags, some mainMD, mod?, md, ad?, first, ai,
        mi, sai, smi, ti, te, st, mti, mte, sm, dbg⟩ with
    | none =>
      simp only [resetMethod, apply_ite stepState, apply_ite (Option.map _)]
      rfl
    | some m =>
      cases hrest : ti.getD m.GetAvailableParamTypes with
      | nil =>
        simp only [FindNext, hrest, resetMethod, apply_ite stepState, apply_ite (Option.map _)]
        rfl
      | cons e rest =>
        simp only [FindNext, hrest, resetMethod, apply_ite stepState, apply_ite (Option.map _)]
        rfl

theorem blockModule_fixed (s : LoadedMethodDescIterator) (h : Holder) :
    (stepState (blockModule s h)).map (fun s1 => (fixedPart s1, assemblyPart s1))
      = (stepState (blockModule s h)).map (fun _ => (fixedPart s, assemblyPart s)) := by
  rcases s with ⟨mode, aflags, mflags, mainMD?, mod?, md, ad?, first, ai, mi, sai, smi, ti, te,
    st, mti, mte, sm, dbg⟩
  unfold blockModule
  by_cases hmode : mode = kModeSharedDomainAssemblies
  · simp only [hmode, if_true, NextSharedModule]
    rcases nextSharedModuleLoop_spec smi.remaining with ⟨m, r, h1, h2, h3⟩ | ⟨h1, h3⟩
    · simp only [h1, GetCurrentModule, if_true]
      cases mainMD? with
      | none =>
        simp only [apply_ite stepState, apply_ite (Option.map _)]
        rfl
      | some mainMD =>
        simp only [apply_ite stepState, apply_ite (Option.map _)]
        rfl
    · simp only [h1, apply_ite stepState, apply_ite (Option.map _)]
      rfl
  · simp only [hmode, if_false]
    cases hrem : mi.remaining with
    | nil =>
      simp only [Cursor.Next, hrem, apply_ite stepState, apply_ite (Option.map _)]
      rfl
    | cons m r =>
      simp only [Cursor.Next, hrem, GetCurrentModule, hmode, if_false]
      cases mainMD? with
      | none =>
        simp only [apply_ite stepState, apply_ite (Option.map _)]
        rfl
      | some mainMD =>
        simp only [apply_ite stepState, apply_ite (Option.map _)]
        rfl

theorem blockAssembly_fixed (s : LoadedMethodDescIterator) (h : Holder) :
    (stepState (blockAssembly s h)).map fixedPart
      = (stepState (blockAssembly s h)).map (fun _ => fixedPart s) := by
  rcases s with ⟨mode, aflags, mflags, mainMD?, mod?, md, ad?, first, ai, mi, sai, smi, ti, te,
    st, mti, mte, sm, dbg⟩
  unfold blockAssembly
  by_cases hmode : mode = kModeSharedDomainAssemblies
  · simp only [hmode, if_true]
    cases hrem : sai.remaining with
    | nil =>
      simp only [Cursor.Next, hrem, apply_ite stepState, apply_ite (Option.map _)]
      rfl
    | cons a r =>
      simp only [Cursor.Next, hrem, apply_ite stepState, apply_ite (Option.map _)]
      rfl
  · simp only [hmode, if_false]
    cases hrem : ai.remaining with
    | nil =>
      simp only [AssemblyIterator.Next, hrem, apply_ite stepState, apply_ite (Option.map _)]
      rfl
    | cons a r =>
      simp only [AssemblyIterator.Next, hrem, apply_ite stepState, apply_ite (Option.map _)]
      rfl

/-- What every block leaves as it is: the members set by `Start`; and, for the
blocks other than that of `ADVANCE_ASSEMBLY`, the assembly cursors, the debug copy
of the holder and the holder of the caller. -/
theorem block_frame (l : Label) (s : LoadedMethodDescIterator) (h : Holder)
    (s1 : LoadedMethodDescIterator) (h1 : Holder)
    (hb : (∃ l1, block l s h = .goto l1 s1 h1) ∨ (∃ b, block l s h = .ret b s1 h1)) :
    fixedPart s1 = fixedPart s
      ∧ (l ≠ ADVANCE_ASSEMBLY → assemblyPart s1 = assemblyPart s ∧ h1 = h) := by
  have hst : stepState (block l s h) = some s1 := by
    rcases hb with ⟨l1, hb⟩ | ⟨b, hb⟩ <;> rw [hb] <;> rfl
  have hho : stepHolder (block l s h) = some h1 := by
    rcases hb with ⟨l1, hb⟩ | ⟨b, hb⟩ <;> rw [hb] <;> rfl
  have inner : ∀ (blk : LoadedMethodDescIterator → Holder → Step),
      block l = blk →
      ((stepState (blk s h)).map (fun s1 => (fixedPart s1, assemblyPart s1))
        = (stepState (blk s h)).map (fun _ => (fixedPart s, assemblyPart s))) →
      blk s h = stepWithHolder h (blk s none) →
      fixedPart s1 = fixedPart s ∧ assemblyPart s1 = assemblyPart s ∧ h1 = h := by
    intro blk hblk hfix hhold
    rw [hblk] at hst hho
    rw [hst] at hfix
    simp only [Option.map_some', Option.some.injEq, Prod.mk.injEq] at hfix
    refine ⟨hfix.1, hfix.2, ?_⟩
    rw [hhold] at hho
    cases hn : blk s none with
    | ret b s2 h2 => rw [hn] at hho; simpa [stepWithHolder, stepHolder] using hho.symm
    | goto l2 s2 h2 => rw [hn] at hho; simpa [stepWithHolder, stepHolder] using hho.symm
    | fault => rw [hn] at hho; simp [stepWithHolder, stepHolder] at hho
  cases l with
  | ADVANCE_ASSEMBLY =>
    refine ⟨?_, fun hne => absurd rfl hne⟩
    have hfix := blockAssembly_fixed s h
    have hst1 : stepState (blockAssembly s h) = some s1 := hst
    rw [hst1] at hfix
    simpa using hfix
  | ADVANCE_MODULE =>
    obtain ⟨a, b, c⟩ := inner blockModule rfl (blockModule_fixed s h) (blockModule_holder s h)
    exact ⟨a, fun _ => ⟨b, c⟩⟩
  | ADVANCE_TYPE =>
    obtain ⟨a, b, c⟩ := inner blockType rfl (blockType_fixed s h) (blockType_holder s h)
    exact ⟨a, fun _ => ⟨b, c⟩⟩
  | ADVANCE_METHOD =>
    obtain ⟨a, b, c⟩ := inner blockMethod rfl (blockMethod_fixed s h) (blockMethod_holder s h)
    exact ⟨a, fun _ => ⟨b, c⟩⟩

/-! ## Invariants of a call -/

theorem run_invariant (J : Label → LoadedMethodDescIterator → Holder → Prop)
    (Q : Bool → LoadedMethodDescIterator → Holder → Prop)
    (hgoto : ∀ l s h l1 s1 h1, J l s h → block l s h = .goto l1 s1 h1 → J l1 s1 h1)
    (hret : ∀ l s h b s1 h1, J l s h → block l s h = .ret b s1 h1 → Q b s1 h1) (n : Nat) :
    ∀ l s h b s1 h1, J l s h → run n l s h = .ok (b, s1, h1) → Q b s1 h1 := by
  induction n with
  | zero => intro l s h b s1 h1 _ hr; simp [run] at hr
  | succ n ih =>
    intro l s h b s1 h1 hJ hr
    unfold run at hr
    cases hb : block l s h with
    | ret b2 s2 h2 =>
      rw [hb] at hr
      simp only [Outcome.ok.injEq, Prod.mk.injEq] at hr
      obtain ⟨rfl, rfl, rfl⟩ := hr
      exact hret l s h _ _ _ hJ hb
    | goto l2 s2 h2 =>
      rw [hb] at hr
      exact ih l2 s2 h2 b s1 h1 (hgoto l s h l2 s2 h2 hJ hb) hr
    | fault =>
      rw [hb] at hr
      simp at hr

/-- A call keeps the members set by `Start` and by the first lines of `Next`. -/
theorem run_fixed (n : Nat) (l : Label) (s : LoadedMethodDescIterator) (h : Holder) (b : Bool)
    (s1 : LoadedMethodDescIterator) (h1 : Holder) (hr : run n l s h = .ok (b, s1, h1)) :
    fixedPart s1 = fixedPart s :=
  run_invariant (fun _ s2 _ => fixedPart s2 = fixedPart s) (fun _ s2 _ => fixedPart s2 = fixedPart s)
    (fun l2 s2 h2 l3 s3 h3 hJ hb => (block_frame l2 s2 h2 s3 h3 (Or.inl ⟨l3, hb⟩)).1.trans hJ)
    (fun l2 s2 h2 b2 s3 h3 hJ hb => (block_frame l2 s2 h2 s3 h3 (Or.inr ⟨b2, hb⟩)).1.trans hJ)
    n l s h b s1 h1 rfl hr

theorem blockAssembly_lands (s : LoadedMethodDescIterator) (h : Holder) :
    (∀ b s1 h1, blockAssembly s h = .ret b s1 h1 → b = false)
      ∧ (∀ l1 s1 h1, blockAssembly s h = .goto l1 s1 h1 →
          (s.m_assemblyIterationMode = kModeSharedDomainAssemblies
              ∧ h1 = h ∧ assemblyPart s1 = (s.m_assemIterator, s1.m_sharedAssemblyIterator,
                s.dbg_m_pDomainAssembly))
            ∨ (s.m_assemblyIterationMode ≠ kModeSharedDomainAssemblies
              ∧ s1.m_assemIterator.remaining.length < s.m_assemIterator.remaining.length
              ∧ (l1 = ADVANCE_ASSEMBLY ∨ h1 = s1.dbg_m_pDomainAssembly))) := by
  rcases s with ⟨mode, aflags, mflags, mainMD?, mod?, md, ad?, first, ai, mi, sai, smi, ti, te,
    st, mti, mte, sm, dbg⟩
  unfold blockAssembly
  by_cases hmode : mode = kModeSharedDomainAssemblies
  · simp only [hmode, if_true]
    cases hrem : sai.remaining with
    | nil => simp [Cursor.Next, hrem]
    | cons a r => simp [Cursor.Next, hrem, assemblyPart]
  · simp only [hmode, if_false]
    cases hrem : ai.remaining with
    | nil => simp [AssemblyIterator.Next, hrem]
    | cons a r =>
      simp only [AssemblyIterator.Next, hrem, Bool.not_true, Bool.false_eq_true, if_false]
      by_cases hskip : (decide (mode = kModeUnsharedADAssemblies)
          && a.GetAssembly.IsDomainNeutral) = true
      · simp only [hskip, if_true]
        refine ⟨fun b s1 h1 hb => by simp at hb, fun l1 s1 h1 hb => ?_⟩
        simp only [Step.goto.injEq] at hb
        obtain ⟨rfl, rfl, rfl⟩ := hb
        exact Or.inr ⟨hmode, by simp [hrem], Or.inl rfl⟩
      · simp only [hskip, if_false]
        refine ⟨fun b s1 h1 hb => by simp at hb, fun l1 s1 h1 hb => ?_⟩
        simp only [Step.goto.injEq] at hb
        obtain ⟨rfl, rfl, rfl⟩ := hb
        exact Or.inr ⟨hmode, by simp [hrem], Or.inr rfl⟩
/-- A call that returns TRUE with the assembly cursor where it was returns the
holder it was given. -/
theorem run_holder_kept (n : Nat) (l : Label) (s : LoadedMethodDescIterator) (h : Holder)
    (s1 : LoadedMethodDescIterator) (h1 : Holder)
    (hr : run n l s h = .ok (true, s1, h1))
    (hsame : s1.m_assemIterator.remaining.length = s.m_assemIterator.remaining.length) :
    h1 = h := by
  have key := run_invariant
    (fun _ s2 h2 => s2.m_assemIterator.remaining.length ≤ s.m_assemIterator.remaining.length
      ∧ (s2.m_assemIterator.remaining.length = s.m_assemIterator.remaining.length → h2 = h))
    (fun b s2 h2 => b = true →
      s2.m_assemIterator.remaining.length = s.m_assemIterator.remaining.length → h2 = h)
    (by
      intro l2 s2 h2 l3 s3 h3 hJ hb
      cases l2 with
      | ADVANCE_ASSEMBLY =>
        rcases (blockAssembly_lands s2 h2).2 l3 s3 h3 hb with ⟨_, hh, hp⟩ | ⟨_, hlt, _⟩
        · have hai : s3.m_assemIterator = s2.m_assemIterator := congrArg (fun p => p.1) hp
          rw [hai, hh]
          exact hJ
        · exact ⟨by omega, fun he => by omega⟩
      | ADVANCE_MODULE =>
        obtain ⟨_, hf⟩ := block_frame ADVANCE_MODULE s2 h2 s3 h3 (Or.inl ⟨l3, hb⟩)
        obtain ⟨hp, hh⟩ := hf (by simp)
        have hai : s3.m_assemIterator = s2.m_assemIterator := congrArg (fun p => p.1) hp
        rw [hai, hh]
        exact hJ
      | ADVANCE_TYPE =>
        obtain ⟨_, hf⟩ := block_frame ADVANCE_TYPE s2 h2 s3 h3 (Or.inl ⟨l3, hb⟩)
        obtain ⟨hp, hh⟩ := hf (by simp)
        have hai : s3.m_assemIterator = s2.m_assemIterator := congrArg (fun p => p.1) hp
        rw [hai, hh]
        exact hJ
      | ADVANCE_METHOD =>
        obtain ⟨_, hf⟩ := block_frame ADVANCE_METHOD s2 h2 s3 h3 (Or.inl ⟨l3, hb⟩)
        obtain ⟨hp, hh⟩ := hf (by simp)
        have hai : s3.m_assemIterator = s2.m_assemIterator := congrArg (fun p => p.1) hp
        rw [hai, hh]
        exact hJ)
    (by
      intro l2 s2 h2 b s3 h3 hJ hb hbt
      cases l2 with
      | ADVANCE_ASSEMBLY =>
        have := (blockAssembly_lands s2 h2).1 b s3 h3 hb
        rw [hbt] at this
        simp at this
      | ADVANCE_MODULE =>
        obtain ⟨_, hf⟩ := block_frame ADVANCE_MODULE s2 h2 s3 h3 (Or.inr ⟨b, hb⟩)
        obtain ⟨hp, hh⟩ := hf (by simp)
        have hai : s3.m_assemIterator = s2.m_assemIterator := congrArg (fun p => p.1) hp
        rw [hai, hh]
        exact hJ.2
      | ADVANCE_TYPE =>
        obtain ⟨_, hf⟩ := block_frame ADVANCE_TYPE s2 h2 s3 h3 (Or.inr ⟨b, hb⟩)
        obtain ⟨hp, hh⟩ := hf (by simp)
        have hai : s3.m_assemIterator = s2.m_assemIterator := congrArg (fun p => p.1) hp
        rw [hai, hh]
        exact hJ.2
      | ADVANCE_METHOD =>
        obtain ⟨_, hf⟩ := block_frame ADVANCE_METHOD s2 h2 s3 h3 (Or.inr ⟨b, hb⟩)
        obtain ⟨hp, hh⟩ := hf (by simp)
        have hai : s3.m_assemIterator = s2.m_assemIterator := congrArg (fun p => p.1) hp
        rw [hai, hh]
        exact hJ.2)
    n l s h true s1 h1 ⟨le_refl _, fun _ => rfl⟩ hr
  exact key rfl hsame

/-- In the per-domain modes a call that returns TRUE returns the holder that the
debug copy `dbg_m_pDomainAssembly` holds, when it is entered at `ADVANCE_ASSEMBLY`
or with the holder equal to the debug copy. -/
theorem run_dbg (n : Nat) (l : Label) (s : LoadedMethodDescIterator) (h : Holder)
    (s1 : LoadedMethodDescIterator) (h1 : Holder)
    (hmode : s.m_assemblyIterationMode ≠ kModeSharedDomainAssemblies)
    (hin : l ≠ ADVANCE_ASSEMBLY → h = s.dbg_m_pDomainAssembly)
    (hr : run n l s h = .ok (true, s1, h1)) :
    h1 = s1.dbg_m_pDomainAssembly := by
  have hmodeOf : ∀ a b : LoadedMethodDescIterator, fixedPart a = fixedPart b →
      a.m_assemblyIterationMode = b.m_assemblyIterationMode :=
    fun a b hab => congrArg (fun p => p.1) hab
  have hdbgOf : ∀ a b : LoadedMethodDescIterator, assemblyPart a = assemblyPart b →
      a.dbg_m_pDomainAssembly = b.dbg_m_pDomainAssembly :=
    fun a b hab => congrArg (fun p => p.2.2) hab
  have key := run_invariant
    (fun l2 s2 h2 => s2.m_assemblyIterationMode ≠ kModeSharedDomainAssemblies
      ∧ (l2 ≠ ADVANCE_ASSEMBLY → h2 = s2.dbg_m_pDomainAssembly))
    (fun b s2 h2 => b = true → h2 = s2.dbg_m_pDomainAssembly)
    (by
      intro l2 s2 h2 l3 s3 h3 hJ hb
      obtain ⟨hfix, hf⟩ := block_frame l2 s2 h2 s3 h3 (Or.inl ⟨l3, hb⟩)
      refine ⟨by rw [hmodeOf _ _ hfix]; exact hJ.1, fun hl3 => ?_⟩
      by_cases hl2 : l2 = ADVANCE_ASSEMBLY
      · subst hl2
        rcases (blockAssembly_lands s2 h2).2 l3 s3 h3 hb with ⟨hsh, _⟩ | ⟨_, _, hor⟩
        · exact absurd hsh hJ.1
        · rcases hor with hor | hor
          · exact absurd hor hl3
          · exact hor
      · obtain ⟨hp, hh⟩ := hf hl2
        rw [hh, hdbgOf _ _ hp]
        exact hJ.2 hl2)
    (by
      intro l2 s2 h2 b s3 h3 hJ hb hbt
      obtain ⟨_, hf⟩ := block_frame l2 s2 h2 s3 h3 (Or.inr ⟨b, hb⟩)
      by_cases hl2 : l2 = ADVANCE_ASSEMBLY
      · subst hl2
        have := (blockAssembly_lands s2 h2).1 b s3 h3 hb
        rw [hbt] at this
        simp at this
      · obtain ⟨hp, hh⟩ := hf hl2
        rw [hh, hdbgOf _ _ hp]
        exact hJ.2 hl2)
    n l s h true s1 h1 ⟨hmode, hin⟩ hr
  exact key rfl

theorem withHolder_withHolder (h h2 : Holder)
    (r : Outcome (Bool × LoadedMethodDescIterator × Holder)) :
    withHolder h (withHolder h2 r) = withHolder h r := by
  cases r with
  | ok a => rfl
  | undefinedBehaviour => rfl
  | outOfFuel => rfl

/-- In mode `kModeSharedDomainAssemblies` a call passes the holder through: its
result is the result for any other holder, with the holder it was given. -/
theorem run_holder_shared (n : Nat) : ∀ (l : Label) (s : LoadedMethodDescIterator)
    (h : Holder), s.m_assemblyIterationMode = kModeSharedDomainAssemblies →
    run n l s h = withHolder h (run n l s none) := by
  induction n with
  | zero => intro l s h _; rfl
  | succ n ih =>
    intro l s h hmode
    have hblock : block l s h = stepWithHolder h (block l s none) := by
      cases l with
      | ADVANCE_ASSEMBLY => exact blockAssembly_holder s h hmode
      | ADVANCE_MODULE => exact blockModule_holder s h
      | ADVANCE_TYPE => exact blockType_holder s h
      | ADVANCE_METHOD => exact blockMethod_holder s h
    unfold run
    rw [hblock]
    cases hb : block l s none with
    | ret b s1 h1 => rfl
    | goto l1 s1 h1 =>
      have hfix := (block_frame l s none s1 h1 (Or.inl ⟨l1, hb⟩)).1
      have hmode1 : s1.m_assemblyIterationMode = kModeSharedDomainAssemblies := by
        have : s1.m_assemblyIterationMode = s.m_assemblyIterationMode :=
          congrArg (fun p => p.1) hfix
        rw [this, hmode]
      simp only [stepWithHolder]
      rw [ih l1 s1 h hmode1, ih l1 s1 h1 hmode1, withHolder_withHolder]
    | fault => rfl

/-! ## The shared domain -/

/-- C12: in mode `kModeSharedDomainAssemblies`, `NextSharedModule` returns TRUE
exactly when a module still to come in the shared module cursor is profiler
notified, it then leaves the cursor on the first such module (the modules before it
are not notified) and changes nothing else; it returns FALSE with the cursor at its
end otherwise.  So whenever `Next` returns TRUE for a generic target in this mode
the current module is profiler notified. -/
theorem C12_shared_module_profiler_notified (sharedDomain : List Assembly)
    (raw : LoadedMethodDescIterator) (pAppDomain : Option AppDomain) (pModule : Module)
    (md : mdMethodDef) (af : AssemblyIterationFlags) (mf : ModuleIterationOption)
    (mainMD : MethodDesc)
    (hlook : pModule.LookupMethodDef md = some mainMD)
    (hg : mainMD.HasClassOrMethodInstantiation = true) :
    (∀ self : LoadedMethodDescIterator,
        ((self.NextSharedModule).1 = true ↔
          ∃ m ∈ self.m_sharedModuleIterator.remaining, m.IsProfilerNotified = true)
        ∧ ((self.NextSharedModule).1 = true →
          ∃ skipped m rest, self.m_sharedModuleIterator.remaining = skipped ++ m :: rest
            ∧ (∀ x ∈ skipped, x.IsProfilerNotified = false)
            ∧ m.IsProfilerNotified = true
            ∧ (self.NextSharedModule).2
              = { self with m_sharedModuleIterator := ⟨some m, rest⟩ })
        ∧ ((self.NextSharedModule).1 = false →
          (self.NextSharedModule).2 = { self with m_sharedModuleIterator := ⟨none, []⟩ }))
      ∧ ∀ s, ReturnedTrue (Start (ctor sharedDomain raw) pAppDomain pModule md
            kModeSharedDomainAssemblies af mf) s →
          ∃ m, s.GetCurrentModule = some m ∧ m.IsProfilerNotified = true := by
  refine ⟨fun self => ?_, fun s hrt => ?_⟩
  · have key : ∀ ms : List Module,
        ((nextSharedModuleLoop ms).1 = true ↔ ∃ m ∈ ms, m.IsProfilerNotified = true)
        ∧ ((nextSharedModuleLoop ms).1 = true →
            ∃ skipped m rest, ms = skipped ++ m :: rest
              ∧ (∀ x ∈ skipped, x.IsProfilerNotified = false)
              ∧ m.IsProfilerNotified = true
              ∧ (nextSharedModuleLoop ms).2 = ⟨some m, rest⟩)
        ∧ ((nextSharedModuleLoop ms).1 = false → (nextSharedModuleLoop ms).2 = ⟨none, []⟩) := by
      intro ms
      induction ms with
      | nil => simp [nextSharedModuleLoop]
      | cons a rest ih =>
        by_cases hp : a.IsProfilerNotified = true
        · refine ⟨by simp [nextSharedModuleLoop, hp], fun _ => ?_, by simp [nextSharedModuleLoop, hp]⟩
          exact ⟨[], a, rest, rfl, by simp, hp, by simp [nextSharedModuleLoop, hp]⟩
        · obtain ⟨ih1, ih2, ih3⟩ := ih
          have hloop : nextSharedModuleLoop (a :: rest) = nextSharedModuleLoop rest := by
            simp [nextSharedModuleLoop, hp]
          rw [hloop]
          refine ⟨?_, fun h => ?_, ih3⟩
          · rw [ih1]
            simp [hp]
          · obtain ⟨sk, m, r, h1, h2, h3, h4⟩ := ih2 h
            refine ⟨a :: sk, m, r, by simp [h1], ?_, h3, h4⟩
            intro x hx
            rcases List.mem_cons.mp hx with rfl | hx
            · simpa using hp
            · exact h2 x hx
    obtain ⟨k1, k2, k3⟩ := key self.m_sharedModuleIterator.remaining
    refine ⟨k1, fun h => ?_, fun h => ?_⟩
    · obtain ⟨sk, m, r, h1, h2, h3, h4⟩ := k2 h
      exact ⟨sk, m, r, h1, h2, h3, by simp [NextSharedModule, h4]⟩
    · simp [NextSharedModule, k3 h]
  · obtain ⟨_, hgood⟩ := returnedTrue_good sharedDomain raw pAppDomain pModule md
      kModeSharedDomainAssemblies af mf mainMD hlook hg s hrt
    obtain ⟨⟨m, hm, hadm⟩, _⟩ := hgood none
    simp only [seen] at hm
    refine ⟨m, hm, ?_⟩
    simp only [admitsModule, startTarget, if_true, Bool.and_eq_true] at hadm
    exact hadm.1

/-- C12 on the sample: the shared assembly `S` holds `H`, which the profiler has not
been notified of, before `M`; the first result lies in a notified module. -/
theorem C12_shared_module_profiler_notified_witness :
    ∃ m, (Sample.afterShared1 0x06000012).GetCurrentModule = some m
      ∧ m.IsProfilerNotified = true :=
  (C12_shared_module_profiler_notified [Sample.S] Sample.raw none Sample.M 0x06000012 0 0
    Sample.fullMD rfl rfl).2 _ (@ReturnedTrue.first _ none _ none rfl)

/-! ## Targets with a class and a method instantiation -/

theorem moduleResults_fullyGeneric (mainMD : MethodDesc) (pModule : Module)
    (md : mdMethodDef) (m : Module) (hC : mainMD.HasClassInstantiation = true)
    (hM : mainMD.HasMethodInstantiation = true) :
    moduleResults mainMD pModule md m = fullyGenericResults mainMD pModule md m := by
  simp [moduleResults, fullyGenericResults, acceptedTypes, acceptedMethods, hC, hM, resultOf,
    List.flatMap_map, Function.comp_def]

/-- C16: for a target with a class and a method instantiation, the method entries
are accepted whatever the current type entry: every admitted module contributes
the methods of its accepted method entries once for each of its accepted type
entries, that is (accepted type entries) × (accepted method entries) results, and
nothing when it has no accepted type entry, whatever its method table holds. -/
theorem C16_module_contribution (sharedDomain : List Assembly)
    (raw : LoadedMethodDescIterator) (pAppDomain : Option AppDomain) (pModule : Module)
    (md : mdMethodDef) (mode : AssemblyIterationMode) (af : AssemblyIterationFlags)
    (mf : ModuleIterationOption) (mainMD : MethodDesc) (h0 : Holder) (fuel : Nat)
    (hlook : pModule.LookupMethodDef md = some mainMD)
    (hC : mainMD.HasClassInstantiation = true)
    (hM : mainMD.HasMethodInstantiation = true)
    (had : mode = kModeSharedDomainAssemblies ∨ pAppDomain.isSome = true)
    (hfuel : ((admittedModules mode sharedDomain pAppDomain af mf).flatMap
      (fullyGenericResults mainMD pModule md)).length < fuel) :
    currents fuel (Start (ctor sharedDomain raw) pAppDomain pModule md mode af mf) h0
        = .ok ((admittedModules mode sharedDomain pAppDomain af mf).flatMap
            (fullyGenericResults mainMD pModule md))
      ∧ (∀ m, (fullyGenericResults mainMD pModule md m).length
          = (m.GetAvailableParamTypes.filter
              (fun e => acceptsType mainMD (some pModule) e)).length
            * (m.GetInstMethodHashTable.filter
              (fun e => acceptsMethod (some pModule) md e)).length)
      ∧ (∀ m, m.GetAvailableParamTypes.filter
            (fun e => acceptsType mainMD (some pModule) e) = [] →
          fullyGenericResults mainMD pModule md m = []) := by
  have hg : mainMD.HasClassOrMethodInstantiation = true := by
    simp [MethodDesc.HasClassOrMethodInstantiation, hC]
  have href : flatMapReference mode sharedDomain pAppDomain af mf mainMD pModule md
      = (admittedModules mode sharedDomain pAppDomain af mf).flatMap
          (fullyGenericResults mainMD pModule md) := by
    rw [flatMapReference_eq]
    congr 1
    funext m
    exact moduleResults_fullyGeneric mainMD pModule md m hC hM
  obtain ⟨rs, htr, _, hcur, hmap⟩ := traversal_start_full sharedDomain raw pAppDomain pModule
    md mode af mf mainMD h0 hlook hg had
  refine ⟨?_, fun m => ?_, fun m hm => ?_⟩
  · rw [← href, ← hmap]
    refine currents_of_traversal
      (fun s => resultOf mainMD (seenType (startTarget pModule md mode mf mainMD) s)
        (seenMethod (startTarget pModule md mode mf mainMD) s)) _ h0 rs htr hcur fuel ?_
    rw [← href, ← hmap, List.length_map] at hfuel
    exact hfuel
  · unfold fullyGenericResults
    rw [length_flatMap_const, List.length_map]
  · simp [fullyGenericResults, hm]

/-- C16 on the sample: the assembly `B` holds `Mno`, whose method table is the one
of `M` and whose type table is empty, and `M`, with two accepted type entries and
two accepted method entries; the results are the four of `M`. -/
theorem C16_module_contribution_witness :
    currents 5 ((ctor [] Sample.raw).Start (some Sample.DB) Sample.M 0x06000012
        kModeAllADAssemblies 0 0) none
      = .ok [Sample.fullMD_int, Sample.fullMD_string, Sample.fullMD_int, Sample.fullMD_string]
    ∧ fullyGenericResults Sample.fullMD Sample.M 0x06000012 Sample.Mno = [] :=
  ⟨(C16_module_contribution [] Sample.raw (some Sample.DB) Sample.M 0x06000012
      kModeAllADAssemblies 0 0 Sample.fullMD none 5 rfl rfl rfl (Or.inr rfl)
      (by decide)).1.trans rfl,
    (C16_module_contribution [] Sample.raw (some Sample.DB) Sample.M 0x06000012
      kModeAllADAssemblies 0 0 Sample.fullMD none 5 rfl rfl rfl (Or.inr rfl)
      (by decide)).2.2 Sample.Mno rfl⟩

/-! ## The holder on the paths without traversal -/

theorem called_nongeneric (sharedDomain : List Assembly) (raw : LoadedMethodDescIterator)
    (pAppDomain : Option AppDomain) (pModule : Module) (md : mdMethodDef)
    (mode : AssemblyIterationMode) (af : AssemblyIterationFlags) (mf : ModuleIterationOption)
    (mainMD : MethodDesc) (hlook : pModule.LookupMethodDef md = some mainMD)
    (hng : mainMD.HasClassOrMethodInstantiation = false) (s : LoadedMethodDescIterator)
    (hc : Called (Start (ctor sharedDomain raw) pAppDomain pModule md mode af mf) s) :
    s = Start (ctor sharedDomain raw) pAppDomain pModule md mode af mf
      ∨ (s.m_mainMD = some mainMD ∧ s.m_fFirstTime = false) := by
  induction hc with
  | start => exact Or.inl rfl
  | @next s0 h b s1 h1 _ hnext ih =>
    right
    rcases ih with rfl | ⟨hmd, hf⟩
    · rw [Next_first_nongeneric sharedDomain raw pAppDomain pModule md mode af mf mainMD h
        hlook hng] at hnext
      simp only [Outcome.ok.injEq, Prod.mk.injEq] at hnext
      obtain ⟨_, rfl, _⟩ := hnext
      exact ⟨rfl, rfl⟩
    · rw [Next_later_nongeneric s0 mainMD h hmd hf hng] at hnext
      simp only [Outcome.ok.injEq, Prod.mk.injEq] at hnext
      obtain ⟨_, rfl, _⟩ := hnext
      exact ⟨hmd, hf⟩

theorem called_unresolved (sharedDomain : List Assembly) (raw : LoadedMethodDescIterator)
    (pAppDomain : Option AppDomain) (pModule : Module) (md : mdMethodDef)
    (mode : AssemblyIterationMode) (af : AssemblyIterationFlags) (mf : ModuleIterationOption)
    (hlook : pModule.LookupMethodDef md = none) (s : LoadedMethodDescIterator)
    (hc : Called (Start (ctor sharedDomain raw) pAppDomain pModule md mode af mf) s) :
    s = Start (ctor sharedDomain raw) pAppDomain pModule md mode af mf
      ∨ (s.m_mainMD = none ∧ s.m_fFirstTime = false) := by
  induction hc with
  | start => exact Or.inl rfl
  | @next s0 h b s1 h1 _ hnext ih =>
    right
    rcases ih with rfl | ⟨hmd, hf⟩
    · simp [Next, Start, ctor, hlook] at hnext
      obtain ⟨_, rfl, _⟩ := hnext
      exact ⟨rfl, rfl⟩
    · simp [Next, hmd, hf] at hnext

/-- C17: for a target without class and method instantiation, and for a token that
does not resolve, every call of `Next` that returns, whatever it returns and
whatever the mode, leaves NULL in the holder of the caller; for the target without
instantiation the first call returns TRUE with the holder NULL. -/
theorem C17_holder_null (sharedDomain : List Assembly)
    (raw : LoadedMethodDescIterator) (pAppDomain : Option AppDomain) (pModule : Module)
    (md : mdMethodDef) (mode : AssemblyIterationMode) (af : AssemblyIterationFlags)
    (mf : ModuleIterationOption)
    (htarget : pModule.LookupMethodDef md = none
      ∨ ∃ mainMD, pModule.LookupMethodDef md = some mainMD
          ∧ mainMD.HasClassOrMethodInstantiation = false) :
    (∀ s h b s1 h1,
        Called (Start (ctor sharedDomain raw) pAppDomain pModule md mode af mf) s →
        Next s h = .ok (b, s1, h1) → h1 = none)
      ∧ ∀ h, ∃ b s1,
          Next (Start (ctor sharedDomain raw) pAppDomain pModule md mode af mf) h
            = .ok (b, s1, none)
          ∧ (b = true ↔ ∃ mainMD, pModule.LookupMethodDef md = some mainMD) := by
  rcases htarget with hlook | ⟨mainMD, hlook, hng⟩
  · refine ⟨fun s h b s1 h1 hc hnext => ?_, fun h => ?_⟩
    · rcases called_unresolved sharedDomain raw pAppDomain pModule md mode af mf hlook s hc
        with rfl | ⟨hmd, hf⟩
      · simp [Next, Start, ctor, hlook] at hnext
        exact hnext.2.2.symm
      · simp [Next, hmd, hf] at hnext
    · obtain ⟨s1, h1, _⟩ := Next_unresolved sharedDomain raw pAppDomain pModule md mode af mf h
        hlook
      exact ⟨false, s1, h1, by simp [hlook]⟩
  · refine ⟨fun s h b s1 h1 hc hnext => ?_, fun h => ?_⟩
    · rcases called_nongeneric sharedDomain raw pAppDomain pModule md mode af mf mainMD hlook
        hng s hc with rfl | ⟨hmd, hf⟩
      · rw [Next_first_nongeneric sharedDomain raw pAppDomain pModule md mode af mf mainMD h
          hlook hng] at hnext
        simp only [Outcome.ok.injEq, Prod.mk.injEq] at hnext
        exact hnext.2.2.symm
      · rw [Next_later_nongeneric s mainMD h hmd hf hng] at hnext
        simp only [Outcome.ok.injEq, Prod.mk.injEq] at hnext
        exact hnext.2.2.symm
    · exact ⟨true, _, Next_first_nongeneric sharedDomain raw pAppDomain pModule md mode af mf
        mainMD h hlook hng, by simp [hlook]⟩

/-- C17 on the sample: the first call for the token that does not resolve returns
FALSE, the first call for the non-generic token returns TRUE, both with NULL in a
holder that held the assembly `A`. -/
theorem C17_holder_null_witness :
    (∃ b s1, Next (Sample.start 0x06000099) (some Sample.A) = .ok (b, s1, none)
        ∧ (b = true ↔ ∃ mainMD, Sample.M.LookupMethodDef 0x06000099 = some mainMD))
      ∧ ∃ b s1, Next (Sample.start 0x06000010) (some Sample.A) = .ok (b, s1, none)
        ∧ (b = true ↔ ∃ mainMD, Sample.M.LookupMethodDef 0x06000010 = some mainMD) :=
  ⟨(C17_holder_null [] Sample.raw (some Sample.D) Sample.M 0x06000099
      kModeUnsharedADAssemblies 0 0 (Or.inl rfl)).2 (some Sample.A),
    (C17_holder_null [] Sample.raw (some Sample.D) Sample.M 0x06000010
      kModeUnsharedADAssemblies 0 0 (Or.inr ⟨Sample.plainMD, rfl, rfl⟩)).2 (some Sample.A)⟩

/-! ## The holder in the per-domain modes -/

theorem ready_of_fixed (t : Target) (s s1 : LoadedMethodDescIterator)
    (hfix : fixedPart s1 = fixedPart s) (hr : Ready t s) : Ready t s1 := by
  simp only [fixedPart, Prod.mk.injEq] at hfix
  obtain ⟨h1, _, h3, h4, h5, h6, _, h8⟩ := hfix
  obtain ⟨r1, r2, r3, r4, r5, r6⟩ := hr
  exact ⟨h4.trans r1, h8.trans r2, h1.trans r3, h3.trans r4, h5.trans r5, h6.trans r6⟩

/-- In the per-domain modes, when the caller passes the holder back as it got it,
the holder after every call that returned TRUE is the debug copy
`dbg_m_pDomainAssembly`. -/
theorem traversal_dbg (t : Target) (hg : t.mainMD.HasClassOrMethodInstantiation = true)
    (hmode : t.mode ≠ kModeSharedDomainAssemblies) (s : LoadedMethodDescIterator) (h : Holder)
    (rs : List (LoadedMethodDescIterator × Holder)) (htr : Traversal s h rs) :
    Ready t s → h = s.dbg_m_pDomainAssembly →
      ∀ r ∈ rs, r.2 = r.1.dbg_m_pDomainAssembly := by
  induction htr with
  | done _ => intro _ _ r hr; simp at hr
  | @more s h s1 h1 rs hnext _ ih =>
    intro hready hh r hr
    rw [Next_of_ready t s h hready hg] at hnext
    unfold exec at hnext
    have hm : s.m_assemblyIterationMode ≠ kModeSharedDomainAssemblies := by
      rw [hready.2.2.1]; exact hmode
    have h1dbg := run_dbg _ ADVANCE_METHOD s h s1 h1 hm (fun _ => hh) hnext
    have hready1 := ready_of_fixed t s s1 (run_fixed _ _ s h true s1 h1 hnext) hready
    rcases List.mem_cons.mp hr with rfl | hr
    · exact h1dbg
    · exact ih hready1 h1dbg r hr

theorem traversal_start_dbg (sharedDomain : List Assembly) (raw : LoadedMethodDescIterator)
    (pAppDomain : Option AppDomain) (pModule : Module) (md : mdMethodDef)
    (mode : AssemblyIterationMode) (af : AssemblyIterationFlags) (mf : ModuleIterationOption)
    (mainMD : MethodDesc) (h0 : Holder)
    (hlook : pModule.LookupMethodDef md = some mainMD)
    (hg : mainMD.HasClassOrMethodInstantiation = true)
    (hmode : mode ≠ kModeSharedDomainAssemblies) (had : pAppDomain.isSome = true)
    (rs : List (LoadedMethodDescIterator × Holder))
    (htr : Traversal (Start (ctor sharedDomain raw) pAppDomain pModule md mode af mf) h0 rs) :
    ∀ r ∈ rs, r.2 = r.1.dbg_m_pDomainAssembly := by
  cases htr with
  | done _ => intro r hr; simp at hr
  | @more _ _ s1 h1 rs1 hnext htr1 =>
    rw [Next_start sharedDomain raw pAppDomain pModule md mode af mf mainMD h0 hlook hg
      (Or.inr had)] at hnext
    unfold exec at hnext
    have hE := entered_ready sharedDomain raw pAppDomain pModule md mode af mf mainMD
    have hm : (entered sharedDomain raw pAppDomain pModule md mode af mf
        mainMD).m_assemblyIterationMode ≠ kModeSharedDomainAssemblies := by
      rw [hE.2.2.1]; exact hmode
    have h1dbg := run_dbg _ ADVANCE_ASSEMBLY _ h0 s1 h1 hm (fun hne => absurd rfl hne) hnext
    have hready1 := ready_of_fixed _ _ s1 (run_fixed _ _ _ h0 true s1 h1 hnext) hE
    intro r hr
    rcases List.mem_cons.mp hr with rfl | hr
    · exact h1dbg
    · exact traversal_dbg (startTarget pModule md mode mf mainMD) hg hmode s1 h1 rs1 htr1
        hready1 h1dbg r hr

theorem map_domainHits_observed (pModule : Module) (md : mdMethodDef)
    (mode : AssemblyIterationMode) (mf : ModuleIterationOption) (mainMD : MethodDesc)
    (hmode : mode ≠ kModeSharedDomainAssemblies) (assemblies : List DomainAssembly) :
    (domainHits (startTarget pModule md mode mf mainMD) assemblies).map
        (fun x => (x.holder, x.module,
          Outcome.ok (resultOf mainMD x.typeEntry x.methodEntry)))
      = (assemblies.filter
          (fun da => admitsAssembly (startTarget pModule md mode mf mainMD) da)).flatMap
          (assemblyResults mf mainMD pModule md) := by
  have hadm : ∀ m : Module, admittedModule mode m = !m.IsResource := by
    intro m
    cases mode <;> simp [admittedModule] at hmode ⊢
  unfold domainHits
  rw [List.map_flatMap]
  congr 1
  funext da
  rw [modulesHits_eq, List.map_flatMap]
  simp only [hadm]
  unfold assemblyResults
  simp only [startTarget]
  congr 1
  funext m
  simp [moduleHits, typeHits, typePasses, methodPasses, moduleResults, acceptedTypes,
    acceptedMethods, List.map_flatMap, List.flatMap_map, Function.comp_def]

/-- The calls of `Next` after `Start` in a per-domain mode, for a generic target:
what the caller holds after every call that returned TRUE. -/
theorem traversal_observed (sharedDomain : List Assembly) (raw : LoadedMethodDescIterator)
    (ad : AppDomain) (pModule : Module) (md : mdMethodDef)
    (mode : AssemblyIterationMode) (af : AssemblyIterationFlags) (mf : ModuleIterationOption)
    (mainMD : MethodDesc) (h0 : Holder)
    (hlook : pModule.LookupMethodDef md = some mainMD)
    (hg : mainMD.HasClassOrMethodInstantiation = true)
    (hmode : mode ≠ kModeSharedDomainAssemblies) :
    ∃ rs, Traversal (Start (ctor sharedDomain raw) (some ad) pModule md mode af mf) h0 rs
      ∧ rs.map observed
        = ((ad.IterateAssembliesEx af).filter
            (fun da => admitsAssembly (startTarget pModule md mode mf mainMD) da)).flatMap
            (assemblyResults mf mainMD pModule md)
      ∧ ∀ r ∈ rs, r.2 = r.1.dbg_m_pDomainAssembly := by
  obtain ⟨rs, htr, hseen, hcur, _⟩ := traversal_start_full sharedDomain raw (some ad) pModule
    md mode af mf mainMD h0 hlook hg (Or.inr rfl)
  refine ⟨rs, htr, ?_, traversal_start_dbg sharedDomain raw (some ad) pModule md mode af mf
    mainMD h0 hlook hg hmode rfl rs htr⟩
  rw [← map_domainHits_observed pModule md mode mf mainMD hmode]
  have hall : allHits (startTarget pModule md mode mf mainMD) sharedDomain (some ad) af h0
      = domainHits (startTarget pModule md mode mf mainMD) (ad.IterateAssembliesEx af) := by
    simp [allHits, startTarget, hmode]
  rw [← hall, ← hseen, List.map_map]
  apply List.map_congr_left
  intro r hr
  simp only [observed, Function.comp, seen, hcur r hr]

/-- C11: for a generic target, the caller passing the holder back as it got it.  In
mode `kModeUnsharedADAssemblies`, after every call of `Next` that returned TRUE the
holder holds an assembly of the app domain that is not domain neutral, and what the
caller holds over the traversal (holder, current module, `Current()`) is the
results of the assemblies that are not domain neutral, in order: a domain-neutral
assembly contributes nothing.  In mode `kModeAllADAssemblies` it is the results of
every assembly in order, so every result of a domain-neutral assembly is
surfaced. -/
theorem C11_domain_neutral_assemblies (sharedDomain : List Assembly)
    (raw : LoadedMethodDescIterator) (ad : AppDomain) (pModule : Module) (md : mdMethodDef)
    (af : AssemblyIterationFlags) (mf : ModuleIterationOption) (mainMD : MethodDesc)
    (h0 : Holder)
    (hlook : pModule.LookupMethodDef md = some mainMD)
    (hg : mainMD.HasClassOrMethodInstantiation = true) :
    (∃ rs, Traversal (Start (ctor sharedDomain raw) (some ad) pModule md
          kModeUnsharedADAssemblies af mf) h0 rs
        ∧ (∀ r ∈ rs, ∃ da, r.2 = some da ∧ da ∈ ad.IterateAssembliesEx af
            ∧ da.GetAssembly.IsDomainNeutral = false)
        ∧ rs.map observed
          = ((ad.IterateAssembliesEx af).filter
              (fun da => !da.GetAssembly.IsDomainNeutral)).flatMap
              (assemblyResults mf mainMD pModule md))
      ∧ ∃ rs, Traversal (Start (ctor sharedDomain raw) (some ad) pModule md
          kModeAllADAssemblies af mf) h0 rs
        ∧ rs.map observed
          = (ad.IterateAssembliesEx af).flatMap (assemblyResults mf mainMD pModule md)
        ∧ ∀ da ∈ ad.IterateAssembliesEx af, da.GetAssembly.IsDomainNeutral = true →
            ∀ x ∈ assemblyResults mf mainMD pModule md da, x ∈ rs.map observed := by
  constructor
  · obtain ⟨rs, htr, hobs, _⟩ := traversal_observed sharedDomain raw ad pModule md
      kModeUnsharedADAssemblies af mf mainMD h0 hlook hg (by decide)
    have hfilter : (ad.IterateAssembliesEx af).filter
          (fun da => admitsAssembly
            (startTarget pModule md kModeUnsharedADAssemblies mf mainMD) da)
        = (ad.IterateAssembliesEx af).filter (fun da => !da.GetAssembly.IsDomainNeutral) := by
      simp [admitsAssembly, startTarget]
    rw [hfilter] at hobs
    refine ⟨rs, htr, fun r hr => ?_, hobs⟩
    have hmem : observed r ∈ rs.map observed := List.mem_map_of_mem _ hr
    rw [hobs, List.mem_flatMap] at hmem
    obtain ⟨da, hda, hx⟩ := hmem
    rw [List.mem_filter] at hda
    simp only [assemblyResults, List.mem_flatMap, List.mem_map] at hx
    obtain ⟨m, _, x, _, hx⟩ := hx
    refine ⟨da, ?_, hda.1, by simpa using hda.2⟩
    have := congrArg (fun p => p.1) hx
    simpa [observed] using this.symm
  · obtain ⟨rs, htr, hobs, _⟩ := traversal_observed sharedDomain raw ad pModule md
      kModeAllADAssemblies af mf mainMD h0 hlook hg (by decide)
    have hfilter : (ad.IterateAssembliesEx af).filter
          (fun da => admitsAssembly
            (startTarget pModule md kModeAllADAssemblies mf mainMD) da)
        = ad.IterateAssembliesEx af := by
      simp [admitsAssembly, startTarget]
    rw [hfilter] at hobs
    refine ⟨rs, htr, hobs, fun da hda _ x hx => ?_⟩
    rw [hobs, List.mem_flatMap]
    exact ⟨da, hda, hx⟩

/-- C11 on the sample: the app domain `D` holds the domain-neutral assembly `N` and
then `A`, both with the module `M`.  The unshared traversal has the two results of
`A`; the traversal of all assemblies has the two results of `N` first. -/
theorem C11_domain_neutral_assemblies_witness :
    (∃ rs, Traversal (Sample.start 0x06000011) none rs
        ∧ rs.map observed
          = [(some Sample.A, some Sample.M, .ok Sample.classMD_int),
             (some Sample.A, some Sample.M, .ok Sample.classMD_string)])
      ∧ ∃ rs, Traversal (Sample.startAll 0x06000011) none rs
        ∧ rs.map observed
          = [(some Sample.N, some Sample.M, .ok Sample.classMD_int),
             (some Sample.N, some Sample.M, .ok Sample.classMD_string),
             (some Sample.A, some Sample.M, .ok Sample.classMD_int),
             (some Sample.A, some Sample.M, .ok Sample.classMD_string)] :=
  ⟨(C11_domain_neutral_assemblies [] Sample.raw Sample.D Sample.M 0x06000011 0 0
      Sample.classMD none rfl rfl).1.elim (fun rs hrs => ⟨rs, hrs.1, hrs.2.2.trans rfl⟩),
    (C11_domain_neutral_assemblies [] Sample.raw Sample.D Sample.M 0x06000011 0 0
      Sample.classMD none rfl rfl).2.elim (fun rs hrs => ⟨rs, hrs.1, hrs.2.1.trans rfl⟩)⟩

/-- C13: for a generic target, a call of `Next` after the first that returns TRUE
with as many assemblies still to come in the assembly cursor as before the call
(the cursor was not advanced) returns the holder it was given; and the blocks of
`ADVANCE_MODULE`, `ADVANCE_TYPE` and `ADVANCE_METHOD` pass the holder through
unread, so that only the block of `ADVANCE_ASSEMBLY` writes it. -/
theorem C13_holder_kept_within_assembly (s : LoadedMethodDescIterator) (h : Holder)
    (mainMD : MethodDesc) (s1 : LoadedMethodDescIterator) (h1 : Holder)
    (hmd : s.m_mainMD = some mainMD)
    (hg : mainMD.HasClassOrMethodInstantiation = true)
    (hfirst : s.m_fFirstTime = false)
    (hnext : Next s h = .ok (true, s1, h1))
    (hsame : s1.m_assemIterator.remaining.length = s.m_assemIterator.remaining.length) :
    h1 = h
      ∧ ∀ l, l ≠ ADVANCE_ASSEMBLY → ∀ s2 h2,
          block l s2 h2 = stepWithHolder h2 (block l s2 none) := by
  constructor
  · have hN : Next s h = exec ADVANCE_METHOD s h := by
      simp [Next, hmd, hfirst, hg]
    rw [hN] at hnext
    exact run_holder_kept _ ADVANCE_METHOD s h s1 h1 hnext hsame
  · intro l hl s2 h2
    cases l with
    | ADVANCE_ASSEMBLY => exact absurd rfl hl
    | ADVANCE_MODULE => exact blockModule_holder s2 h2
    | ADVANCE_TYPE => exact blockType_holder s2 h2
    | ADVANCE_METHOD => exact blockMethod_holder s2 h2

/-- C13 on the sample: the second result for the type-generic token lies in the
assembly `A` of the first; the call returns the holder it was given. -/
theorem C13_holder_kept_within_assembly_witness :
    ∃ h1, Next (Sample.after1 0x06000011) (some Sample.A)
        = .ok (true, Sample.after2 0x06000011, h1)
      ∧ h1 = some Sample.A :=
  ⟨some Sample.A, rfl,
    (C13_holder_kept_within_assembly (Sample.after1 0x06000011) (some Sample.A)
      Sample.classMD (Sample.after2 0x06000011) (some Sample.A) rfl rfl rfl rfl rfl).1⟩

/-- C14: in the per-domain modes, for a generic target and a caller that passes the
holder back as it got it, after every call of `Next` that returned TRUE the holder
is the debug copy `dbg_m_pDomainAssembly` (the assertion before the final return
holds), and it holds an assembly of the app domain whose module sequence contains
the current module; over the traversal, what the caller holds (holder, current
module, `Current()`) is the results of the assemblies in order, each result with
the assembly whose module sequence it was enumerated from. -/
theorem C14_holder_is_current_assembly (sharedDomain : List Assembly)
    (raw : LoadedMethodDescIterator) (ad : AppDomain) (pModule : Module) (md : mdMethodDef)
    (mode : AssemblyIterationMode) (af : AssemblyIterationFlags) (mf : ModuleIterationOption)
    (mainMD : MethodDesc) (h0 : Holder)
    (hmode : mode ≠ kModeSharedDomainAssemblies)
    (hlook : pModule.LookupMethodDef md = some mainMD)
    (hg : mainMD.HasClassOrMethodInstantiation = true) :
    ∃ rs, Traversal (Start (ctor sharedDomain raw) (some ad) pModule md mode af mf) h0 rs
      ∧ (∀ r ∈ rs, r.2 = r.1.dbg_m_pDomainAssembly
        ∧ ∃ da m, r.2 = some da ∧ da ∈ ad.IterateAssembliesEx af
          ∧ r.1.GetCurrentModule = some m ∧ m ∈ da.IterateModules mf)
      ∧ rs.map observed
        = ((ad.IterateAssembliesEx af).filter (fun da =>
            !(decide (mode = kModeUnsharedADAssemblies)
              && da.GetAssembly.IsDomainNeutral))).flatMap
            (assemblyResults mf mainMD pModule md) := by
  obtain ⟨rs, htr, hobs, hdbg⟩ := traversal_observed sharedDomain raw ad pModule md mode af
    mf mainMD h0 hlook hg hmode
  refine ⟨rs, htr, fun r hr => ⟨hdbg r hr, ?_⟩, hobs⟩
  have hmem : observed r ∈ rs.map observed := List.mem_map_of_mem _ hr
  rw [hobs, List.mem_flatMap] at hmem
  obtain ⟨da, hda, hx⟩ := hmem
  simp only [assemblyResults, List.mem_flatMap, List.mem_map] at hx
  obtain ⟨m, hm, x, _, hx⟩ := hx
  have e1 := congrArg (fun p => p.1) hx
  have e2 := congrArg (fun p => p.2.1) hx
  simp only [observed] at e1 e2
  exact ⟨da, m, e1.symm, (List.mem_filter.mp hda).1, e2.symm, (List.mem_filter.mp hm).1⟩

/-- C14 on the sample: the traversal of all the assemblies of `D` for the
type-generic token. -/
theorem C14_holder_is_current_assembly_witness :
    ∃ rs, Traversal (Sample.startAll 0x06000011) none rs
      ∧ (∀ r ∈ rs, r.2 = r.1.dbg_m_pDomainAssembly
        ∧ ∃ da m, r.2 = some da ∧ da ∈ Sample.D.IterateAssembliesEx 0
          ∧ r.1.GetCurrentModule = some m ∧ m ∈ da.IterateModules 0)
      ∧ rs.map observed
        = [(some Sample.N, some Sample.M, .ok Sample.classMD_int),
           (some Sample.N, some Sample.M, .ok Sample.classMD_string),
           (some Sample.A, some Sample.M, .ok Sample.classMD_int),
           (some Sample.A, some Sample.M, .ok Sample.classMD_string)] :=
  (C14_holder_is_current_assembly [] Sample.raw Sample.D Sample.M 0x06000011
    kModeAllADAssemblies 0 0 Sample.classMD none (by decide) rfl rfl).elim
    (fun rs hrs => ⟨rs, hrs.1, hrs.2.1, hrs.2.2.trans rfl⟩)

/-! ## The shared domain: the holder and the app domain -/

theorem called_shared (sharedDomain : List Assembly) (raw : LoadedMethodDescIterator)
    (pAppDomain : Option AppDomain) (pModule : Module) (md : mdMethodDef)
    (af : AssemblyIterationFlags) (mf : ModuleIterationOption) (mainMD : MethodDesc)
    (hlook : pModule.LookupMethodDef md = some mainMD)
    (hg : mainMD.HasClassOrMethodInstantiation = true) (s : LoadedMethodDescIterator)
    (hc : Called (Start (ctor sharedDomain raw) pAppDomain pModule md
      kModeSharedDomainAssemblies af mf) s) :
    s = Start (ctor sharedDomain raw) pAppDomain pModule md kModeSharedDomainAssemblies af mf
      ∨ Ready (startTarget pModule md kModeSharedDomainAssemblies mf mainMD) s := by
  induction hc with
  | start => exact Or.inl rfl
  | @next s0 h b s1 h1 _ hnext ih =>
    right
    rcases ih with rfl | hready
    · rw [Next_start sharedDomain raw pAppDomain pModule md kModeSharedDomainAssemblies af mf
        mainMD h hlook hg (Or.inl rfl)] at hnext
      unfold exec at hnext
      exact ready_of_fixed _ _ s1 (run_fixed _ _ _ h b s1 h1 hnext)
        (entered_ready sharedDomain raw pAppDomain pModule md kModeSharedDomainAssemblies af
          mf mainMD)
    · rw [Next_of_ready _ s0 h hready hg] at hnext
      unfold exec at hnext
      exact ready_of_fixed _ _ s1 (run_fixed _ _ _ h b s1 h1 hnext) hready

theorem Next_holder_shared (sharedDomain : List Assembly) (raw : LoadedMethodDescIterator)
    (pAppDomain : Option AppDomain) (pModule : Module) (md : mdMethodDef)
    (af : AssemblyIterationFlags) (mf : ModuleIterationOption) (mainMD : MethodDesc)
    (hlook : pModule.LookupMethodDef md = some mainMD)
    (hg : mainMD.HasClassOrMethodInstantiation = true) (s : LoadedMethodDescIterator)
    (h : Holder)
    (hc : Called (Start (ctor sharedDomain raw) pAppDomain pModule md
      kModeSharedDomainAssemblies af mf) s) :
    Next s h = withHolder h (Next s none) := by
  rcases called_shared sharedDomain raw pAppDomain pModule md af mf mainMD hlook hg s hc
    with rfl | hready
  · rw [Next_start sharedDomain raw pAppDomain pModule md kModeSharedDomainAssemblies af mf
        mainMD h hlook hg (Or.inl rfl),
      Next_start sharedDomain raw pAppDomain pModule md kModeSharedDomainAssemblies af mf
        mainMD none hlook hg (Or.inl rfl)]
    exact run_holder_shared _ _ _ h
      (entered_ready sharedDomain raw pAppDomain pModule md kModeSharedDomainAssemblies af
        mf mainMD).2.2.1
  · rw [Next_of_ready _ s h hready hg, Next_of_ready _ s none hready hg]
    exact run_holder_shared _ _ _ h hready.2.2.1

/-- C18: in mode `kModeSharedDomainAssemblies`, for a generic target, whatever app
domain `Start` was given (NULL included).  Every call of `Next`, the first and the
later ones, whatever the earlier calls returned and whatever holders the caller
passed, gives the result it gives for a NULL holder, with the holder it was given:
the holder is neither read nor written.  The values of `Current()` over the
traversal are those of the reference enumeration of the shared domain, in which
the app domain does not occur. -/
theorem C18_shared_holder_untouched (sharedDomain : List Assembly)
    (raw : LoadedMethodDescIterator) (pAppDomain : Option AppDomain) (pModule : Module)
    (md : mdMethodDef) (af : AssemblyIterationFlags) (mf : ModuleIterationOption)
    (mainMD : MethodDesc)
    (hlook : pModule.LookupMethodDef md = some mainMD)
    (hg : mainMD.HasClassOrMethodInstantiation = true) :
    (∀ s h, Called (Start (ctor sharedDomain raw) pAppDomain pModule md
          kModeSharedDomainAssemblies af mf) s →
        Next s h = withHolder h (Next s none)
          ∧ ∀ b s1 h1, Next s h = .ok (b, s1, h1) → h1 = h)
      ∧ ∀ h0 fuel,
          (flatMapReference kModeSharedDomainAssemblies sharedDomain none af mf mainMD
            pModule md).length < fuel →
          currents fuel (Start (ctor sharedDomain raw) pAppDomain pModule md
              kModeSharedDomainAssemblies af mf) h0
            = .ok (flatMapReference kModeSharedDomainAssemblies sharedDomain none af mf
                mainMD pModule md) := by
  refine ⟨fun s h hc => ?_, fun h0 fuel hfuel => ?_⟩
  · have hN := Next_holder_shared sharedDomain raw pAppDomain pModule md af mf mainMD hlook
      hg s h hc
    refine ⟨hN, fun b s1 h1 hnext => ?_⟩
    rw [hN] at hnext
    cases hr : Next s none with
    | ok a =>
      obtain ⟨b2, s2, h2⟩ := a
      rw [hr] at hnext
      simp only [withHolder, Outcome.ok.injEq, Prod.mk.injEq] at hnext
      exact hnext.2.2.symm
    | undefinedBehaviour =>
      rw [hr] at hnext
      simp [withHolder] at hnext
    | outOfFuel =>
      rw [hr] at hnext
      simp [withHolder] at hnext
  · obtain ⟨rs, htr, _, hcur, hmap⟩ := traversal_start_full sharedDomain raw pAppDomain
      pModule md kModeSharedDomainAssemblies af mf mainMD h0 hlook hg (Or.inl rfl)
    have href : flatMapReference kModeSharedDomainAssemblies sharedDomain pAppDomain af mf
          mainMD pModule md
        = flatMapReference kModeSharedDomainAssemblies sharedDomain none af mf mainMD
            pModule md := rfl
    rw [href] at hmap
    rw [← hmap]
    refine currents_of_traversal
      (fun s => resultOf mainMD
        (seenType (startTarget pModule md kModeSharedDomainAssemblies mf mainMD) s)
        (seenMethod (startTarget pModule md kModeSharedDomainAssemblies mf mainMD) s))
      _ h0 rs htr hcur fuel ?_
    rw [← hmap, List.length_map] at hfuel
    exact hfuel

/-- C18 on the sample: `Start` with a NULL app domain on the shared domain that
holds the assembly `S`; the first call with `A` in the holder is the first call
with a NULL holder, with `A` in the holder, and the traversal has the four results
of the module `M`. -/
theorem C18_shared_holder_untouched_witness :
    Next (Sample.startShared 0x06000012) (some Sample.A)
        = withHolder (some Sample.A) (Next (Sample.startShared 0x06000012) none)
      ∧ currents 5 (Sample.startShared 0x06000012) (some Sample.A)
        = .ok [Sample.fullMD_int, Sample.fullMD_string, Sample.fullMD_int,
            Sample.fullMD_string] :=
  ⟨((C18_shared_holder_untouched [Sample.S] Sample.raw none Sample.M 0x06000012 0 0
      Sample.fullMD rfl rfl).1 _ (some Sample.A) Called.start).1,
    ((C18_shared_holder_untouched [Sample.S] Sample.raw none Sample.M 0x06000012 0 0
      Sample.fullMD rfl rfl).2 (some Sample.A) 5 (by decide)).trans rfl⟩

/-! ## Termination -/

theorem lexLt_wf : WellFounded lexLt := by
  have hwf : WellFounded
      (Prod.Lex (fun a b : Nat => a < b)
        (Prod.Lex (fun a b : Nat => a < b)
          (Prod.Lex (fun a b : Nat => a < b) (fun a b : Nat => a < b)))) :=
    WellFounded.prod_lex Nat.lt_wfRel.wf
      (WellFounded.prod_lex Nat.lt_wfRel.wf
        (WellFounded.prod_lex Nat.lt_wfRel.wf Nat.lt_wfRel.wf))
  refine Subrelation.wf ?_ hwf
  intro a b hab
  simp only [Prod.lex_def]
  exact hab

theorem nextSharedModuleLoop_length (ms : List Module)
    (h : (nextSharedModuleLoop ms).1 = true) :
    (nextSharedModuleLoop ms).2.remaining.length < ms.length := by
  induction ms with
  | nil => simp [nextSharedModuleLoop] at h
  | cons m rest ih =>
    unfold nextSharedModuleLoop at h ⊢
    by_cases hp : m.IsProfilerNotified
    · simp [hp]
    · simp only [hp] at h ⊢
      have := ih h
      simp at this ⊢
      omega

theorem blockAssembly_lex (s : LoadedMethodDescIterator) (h : Holder) (l1 : Label)
    (s1 : LoadedMethodDescIterator) (h1 : Holder)
    (hb : blockAssembly s h = .goto l1 s1 h1) :
    lexLt (lexMeasure l1 s1) (lexMeasure ADVANCE_ASSEMBLY s) := by
  unfold blockAssembly at hb
  by_cases hmode : s.m_assemblyIterationMode = kModeSharedDomainAssemblies
  · simp only [hmode, if_true] at hb
    cases hrem : s.m_sharedAssemblyIterator.remaining with
    | nil => simp [Cursor.Next, hrem] at hb
    | cons a rest =>
      simp [Cursor.Next, hrem] at hb
      obtain ⟨rfl, rfl, rfl⟩ := hb
      simp [lexLt, lexMeasure, assembliesLeft, hmode, hrem]
  · simp only [hmode, if_false] at hb
    cases hrem : s.m_assemIterator.remaining with
    | nil => simp [AssemblyIterator.Next, hrem] at hb
    | cons a rest =>
      simp [AssemblyIterator.Next, hrem] at hb
      split at hb
      · simp at hb
        obtain ⟨rfl, rfl, rfl⟩ := hb
        simp [lexLt, lexMeasure, assembliesLeft, hmode, hrem]
      · simp at hb
        obtain ⟨rfl, rfl, rfl⟩ := hb
        simp [lexLt, lexMeasure, assembliesLeft, hmode, hrem]

theorem blockModule_lex (s : LoadedMethodDescIterator) (h : Holder) (l1 : Label)
    (s1 : LoadedMethodDescIterator) (h1 : Holder)
    (hb : blockModule s h = .goto l1 s1 h1) :
    lexLt (lexMeasure l1 s1) (lexMeasure ADVANCE_MODULE s) := by
  unfold blockModule at hb
  by_cases hmode : s.m_assemblyIterationMode = kModeSharedDomainAssemblies
  · simp only [hmode, if_true, NextSharedModule] at hb
    cases hr : (nextSharedModuleLoop s.m_sharedModuleIterator.remaining).1 with
    | false =>
      simp [hr] at hb
      obtain ⟨rfl, rfl, rfl⟩ := hb
      simp [lexLt, lexMeasure, assembliesLeft, hmode]
    | true =>
      have hlen := nextSharedModuleLoop_length _ hr
      obtain ⟨m, hm1, _⟩ := nextSharedModuleLoop_true false false _ hr
      simp [hr, GetCurrentModule, hmode, hm1] at hb
      split at hb
      · simp at hb
        obtain ⟨rfl, rfl, rfl⟩ := hb
        simp [lexLt, lexMeasure, assembliesLeft, hmode, remainingModules]
        omega
      · cases hmd : s.m_mainMD with
        | none => simp [hmd] at hb
        | some mainMD =>
          simp [hmd] at hb
          by_cases hC : mainMD.HasClassInstantiation = true
          · simp [hC] at hb
            obtain ⟨rfl, rfl, rfl⟩ := hb
            simp [lexLt, lexMeasure, assembliesLeft, hmode, remainingModules]
            omega
          · simp [hC] at hb
            obtain ⟨rfl, rfl, rfl⟩ := hb
            simp [lexLt, lexMeasure, assembliesLeft, hmode, remainingModules]
            omega
  · simp only [hmode, if_false] at hb
    cases hrem : s.m_moduleIterator.remaining with
    | nil =>
      simp [Cursor.Next, hrem] at hb
      obtain ⟨rfl, rfl, rfl⟩ := hb
      simp [lexLt, lexMeasure, assembliesLeft, hmode]
    | cons m rest =>
      simp [Cursor.Next, hrem, GetCurrentModule, hmode] at hb
      split at hb
      · simp at hb
        obtain ⟨rfl, rfl, rfl⟩ := hb
        simp [lexLt, lexMeasure, assembliesLeft, hmode, remainingModules, hrem]
      · cases hmd : s.m_mainMD with
        | none => simp [hmd] at hb
        | some mainMD =>
          simp [hmd] at hb
          by_cases hC : mainMD.HasClassInstantiation = true
          · simp [hC] at hb
            obtain ⟨rfl, rfl, rfl⟩ := hb
            simp [lexLt, lexMeasure, assembliesLeft, hmode, remainingModules, hrem]
          · simp [hC] at hb
            obtain ⟨rfl, rfl, rfl⟩ := hb
            simp [lexLt, lexMeasure, assembliesLeft, hmode, remainingModules, hrem]

theorem blockType_lex (s : LoadedMethodDescIterator) (h : Holder) (l1 : Label)
    (s1 : LoadedMethodDescIterator) (h1 : Holder)
    (hb : blockType s h = .goto l1 s1 h1) :
    lexLt (lexMeasure l1 s1) (lexMeasure ADVANCE_TYPE s) := by
  rcases s with ⟨mode, aflags, mflags, mainMD?, mod?, md, ad?, first, ai, mi, sai, smi, ti, te,
    st, mti, mte, sm, dbg⟩
  unfold blockType at hb
  cases mainMD? with
  | none => simp at hb
  | some mainMD =>
    simp only at hb
    by_cases hC : mainMD.HasClassInstantiation = true
    · simp only [hC, if_true] at hb
      cases hcur : GetCurrentModule ⟨mode, aflags, mflags, some mainMD, mod?, md, ad?, first, ai,
          mi, sai, smi, ti, te, st, mti, mte, sm, dbg⟩ with
      | none => simp [hcur] at hb
      | some m =>
        simp only [hcur] at hb
        cases hrest : ti.getD m.GetAvailableParamTypes with
        | nil =>
          simp [FindNext, hrest] at hb
          obtain ⟨rfl, rfl, rfl⟩ := hb
          simp [lexLt, lexMeasure, assembliesLeft, remainingModules]
        | cons e rest =>
          simp [FindNext, hrest, resetMethod] at hb
          simp only [GetCurrentModule] at hcur
          split_ifs at hb <;> simp at hb <;> obtain ⟨rfl, rfl, rfl⟩ := hb <;>
            simp [lexLt, lexMeasure, assembliesLeft, hasClassInst, hasMethodInst,
              remainingModules, typeRem, methodRem, currentTypes, currentMethods,
              HashIterator.Reset, GetCurrentModule, hC, hcur, hrest, *]
    · simp only [hC] at hb
      simp [resetMethod] at hb
      split_ifs at hb <;> simp at hb <;> obtain ⟨rfl, rfl, rfl⟩ := hb <;>
        simp [lexLt, lexMeasure, assembliesLeft, hasClassInst, hasMethodInst,
          remainingModules, typeRem, methodRem, currentTypes, currentMethods,
          HashIterator.Reset, GetCurrentModule, hC, *]

theorem blockMethod_lex (s : LoadedMethodDescIterator) (h : Holder) (l1 : Label)
    (s1 : LoadedMethodDescIterator) (h1 : Holder)
    (hb : blockMethod s h = .goto l1 s1 h1) :
    lexLt (lexMeasure l1 s1) (lexMeasure ADVANCE_METHOD s) := by
  rcases s with ⟨mode, aflags, mflags, mainMD?, mod?, md, ad?, first, ai, mi, sai, smi, ti, te,
    st, mti, mte, sm, dbg⟩
  unfold blockMethod at hb
  cases mainMD? with
  | none => simp at hb
  | some mainMD =>
    simp only at hb
    by_cases hM : mainMD.HasMethodInstantiation = true
    · simp only [hM, if_true] at hb
      cases hcur : GetCurrentModule ⟨mode, aflags, mflags, some mainMD, mod?, md, ad?, first, ai,
          mi, sai, smi, ti, te, st, mti, mte, sm, dbg⟩ with
      | none => simp [hcur] at hb
      | some m =>
        simp only [hcur] at hb
        simp only [GetCurrentModule] at hcur
        cases hrest : mti.getD m.GetInstMethodHashTable with
        | nil =>
          simp [FindNext, hrest] at hb
          obtain ⟨rfl, rfl, rfl⟩ := hb
          simp [lexLt, lexMeasure, assembliesLeft, hasClassInst, hasMethodInst,
            remainingModules, typeRem, methodRem, currentTypes, currentMethods,
            GetCurrentModule, hM, hcur, hrest]
        | cons e rest =>
          simp [FindNext, hrest] at hb
          split_ifs at hb <;> simp at hb <;> obtain ⟨rfl, rfl, rfl⟩ := hb <;>
            simp [lexLt, lexMeasure, assembliesLeft, hasClassInst, hasMethodInst,
              remainingModules, typeRem, methodRem, currentTypes, currentMethods,
              GetCurrentModule, hM, hcur, hrest]
    · simp only [hM] at hb
      simp at hb
      split_ifs at hb
      all_goals simp at hb
      obtain ⟨rfl, rfl, rfl⟩ := hb
      simp [lexLt, lexMeasure, assembliesLeft, hasClassInst, hasMethodInst,
        remainingModules, typeRem, methodRem, currentTypes, currentMethods,
        GetCurrentModule, hM, *]

theorem block_lex (l : Label) (s : LoadedMethodDescIterator) (h : Holder) (l1 : Label)
    (s1 : LoadedMethodDescIterator) (h1 : Holder)
    (hb : block l s h = .goto l1 s1 h1) : lexLt (lexMeasure l1 s1) (lexMeasure l s) := by
  cases l with
  | ADVANCE_ASSEMBLY => exact blockAssembly_lex s h l1 s1 h1 hb
  | ADVANCE_MODULE => exact blockModule_lex s h l1 s1 h1 hb
  | ADVANCE_TYPE => exact blockType_lex s h l1 s1 h1 hb
  | ADVANCE_METHOD => exact blockMethod_lex s h l1 s1 h1 hb

theorem exec_ne_outOfFuel (l : Label) (s : LoadedMethodDescIterator) (h : Holder) :
    exec l s h ≠ .outOfFuel :=
  run_enough _ l s h (Nat.lt_succ_self _)

theorem Next_ne_outOfFuel (s : LoadedMethodDescIterator) (h : Holder) :
    Next s h ≠ .outOfFuel := by
  rcases s with ⟨mode, aflags, mflags, mainMD?, mod?, md, ad?, first, ai, mi, sai, smi, ti, te,
    st, mti, mte, sm, dbg⟩
  unfold Next
  cases first with
  | false =>
    cases mainMD? with
    | none => simp
    | some mainMD =>
      by_cases hg : mainMD.HasClassOrMethodInstantiation = true
      · simp only [Bool.not_false, if_true, hg, Bool.not_true, Bool.false_eq_true, if_false]
        exact exec_ne_outOfFuel _ _ _
      · simp [hg]
  | true =>
    have key : ∀ (mainMD : MethodDesc) (s2 : LoadedMethodDescIterator),
        (if (!mainMD.HasClassOrMethodInstantiation) = true then
            (Outcome.ok (true, s2, none) : Outcome (Bool × LoadedMethodDescIterator × Holder))
          else if s2.m_assemblyIterationMode = kModeSharedDomainAssemblies then
            exec ADVANCE_ASSEMBLY s2 h
          else
            match s2.m_pAppDomain with
            | none => .undefinedBehaviour
            | some pAppDomain =>
              exec ADVANCE_ASSEMBLY
                { s2 with
                  m_assemIterator :=
                    ⟨pAppDomain.IterateAssembliesEx s2.m_assemIterationFlags⟩ }
                h) ≠ .outOfFuel := by
      intro mainMD s2
      split_ifs
      · simp
      · exact exec_ne_outOfFuel _ _ _
      · cases s2.m_pAppDomain with
        | none => simp
        | some pAppDomain => exact exec_ne_outOfFuel _ _ _
    cases mainMD? with
    | some mainMD =>
      simp only [Bool.not_true, Bool.false_eq_true, if_false]
      exact key mainMD _
    | none =>
      cases mod? with
      | none => simp
      | some m =>
        simp only [Bool.not_true, Bool.false_eq_true, if_false]
        cases hl : m.LookupMethodDef md with
        | none => simp
        | some mainMD => exact key mainMD _

theorem run_stable (n : Nat) (l : Label) (s : LoadedMethodDescIterator) (h : Holder)
    (hn : measure l s < n) : run n l s h = exec l s h := by
  obtain ⟨k, rfl⟩ : ∃ k, n = (measure l s + 1) + k := ⟨n - (measure l s + 1), by omega⟩
  unfold exec
  cases hr : run (measure l s + 1) l s h with
  | ok r => exact run_mono _ l s h r k hr
  | undefinedBehaviour => exact run_fault_mono _ l s h k hr
  | outOfFuel => exact absurd hr (run_enough _ l s h (Nat.lt_succ_self _))

/-- The calls of `Next` after `Start` until the first FALSE all return, whatever the
token resolves to. -/
theorem traversal_exists (sharedDomain : List Assembly) (raw : LoadedMethodDescIterator)
    (pAppDomain : Option AppDomain) (pModule : Module) (md : mdMethodDef)
    (mode : AssemblyIterationMode) (af : AssemblyIterationFlags) (mf : ModuleIterationOption)
    (h0 : Holder)
    (had : mode = kModeSharedDomainAssemblies ∨ pAppDomain.isSome = true) :
    ∃ rs, Traversal (Start (ctor sharedDomain raw) pAppDomain pModule md mode af mf) h0 rs := by
  cases hlook : pModule.LookupMethodDef md with
  | none =>
    obtain ⟨s1, hs1, _⟩ := Next_unresolved sharedDomain raw pAppDomain pModule md mode af mf h0
      hlook
    exact ⟨[], Traversal.done hs1⟩
  | some mainMD =>
    by_cases hg : mainMD.HasClassOrMethodInstantiation = true
    · obtain ⟨rs, htr, _⟩ := traversal_start sharedDomain raw pAppDomain pModule md mode af mf
        mainMD h0 hlook hg had
      exact ⟨rs, htr⟩
    · have hng : mainMD.HasClassOrMethodInstantiation = false := by simpa using hg
      have h1 := Next_first_nongeneric sharedDomain raw pAppDomain pModule md mode af mf mainMD
        h0 hlook hng
      exact ⟨_, Traversal.more h1 (Traversal.done (Next_later_nongeneric _ mainMD none rfl rfl
        hng))⟩

/-- C15: every call of `Next` ends: the driver of the blocks never runs out of the
fuel `Next` gives it, in any state and for any holder, and more fuel gives the same
result.  Every jump of a block makes the lexicographic measure `lexMeasure`
(assemblies still to come; modules still to come; type entries still to come or the
pass left by `m_startedNonGenericType`; method entries still to come or the pass
left by `m_startedNonGenericMethod`) smaller, and the order is well founded.  After
`Start` (with an app domain in the per-domain modes) the calls until the first
FALSE all return. -/
theorem C15_next_terminates :
    (∀ (s : LoadedMethodDescIterator) (h : Holder), Next s h ≠ .outOfFuel)
      ∧ (∀ (n : Nat) (l : Label) (s : LoadedMethodDescIterator) (h : Holder),
          measure l s < n → run n l s h = exec l s h)
      ∧ (∀ (l : Label) (s : LoadedMethodDescIterator) (h : Holder) (l1 : Label)
          (s1 : LoadedMethodDescIterator) (h1 : Holder),
          block l s h = .goto l1 s1 h1 → lexLt (lexMeasure l1 s1) (lexMeasure l s))
      ∧ WellFounded lexLt
      ∧ ∀ (sharedDomain : List Assembly) (raw : LoadedMethodDescIterator)
          (pAppDomain : Option AppDomain) (pModule : Module) (md : mdMethodDef)
          (mode : AssemblyIterationMode) (af : AssemblyIterationFlags)
          (mf : ModuleIterationOption) (h0 : Holder),
          (mode = kModeSharedDomainAssemblies ∨ pAppDomain.isSome = true) →
          ∃ rs, Traversal (Start (ctor sharedDomain raw) pAppDomain pModule md mode af mf)
            h0 rs :=
  ⟨Next_ne_outOfFuel, run_stable, block_lex, lexLt_wf, traversal_exists⟩

/-- C15 on the sample: the traversal for the fully generic token ends, and the jump
of `ADVANCE_ASSEMBLY` over the domain-neutral assembly `N` makes the measure
smaller. -/
theorem C15_next_terminates_witness :
    (∃ rs, Traversal (Sample.start 0x06000012) none rs)
      ∧ lexLt
        (lexMeasure ADVANCE_ASSEMBLY
          { entered [] Sample.raw (some Sample.D) Sample.M 0x06000012
              kModeUnsharedADAssemblies 0 0 Sample.fullMD with
            m_assemIterator := ⟨[Sample.A]⟩ })
        (lexMeasure ADVANCE_ASSEMBLY
          (entered [] Sample.raw (some Sample.D) Sample.M 0x06000012
            kModeUnsharedADAssemblies 0 0 Sample.fullMD)) :=
  ⟨C15_next_terminates.2.2.2.2 [] Sample.raw (some Sample.D) Sample.M 0x06000012
      kModeUnsharedADAssemblies 0 0 none (Or.inr rfl),
    C15_next_terminates.2.2.1 ADVANCE_ASSEMBLY
      (entered [] Sample.raw (some Sample.D) Sample.M 0x06000012
        kModeUnsharedADAssemblies 0 0 Sample.fullMD) none ADVANCE_ASSEMBLY _ (some Sample.N)
      rfl⟩

/-! ## The four-argument `Start` -/

theorem traversal_ready (t : Target) (hg : t.mainMD.HasClassOrMethodInstantiation = true)
    (s : LoadedMethodDescIterator) (h : Holder)
    (rs : List (LoadedMethodDescIterator × Holder)) (htr : Traversal s h rs) :
    Ready t s → ∀ r ∈ rs, Ready t r.1 := by
  induction htr with
  | done _ => intro _ r hr; simp at hr
  | @more s h s1 h1 rs hnext _ ih =>
    intro hready r hr
    rw [Next_of_ready t s h hready hg] at hnext
    unfold exec at hnext
    have hready1 := ready_of_fixed t s s1 (run_fixed _ _ s h true s1 h1 hnext) hready
    rcases List.mem_cons.mp hr with rfl | hr
    · exact hready1
    · exact ih hready1 r hr

/-- The calls of `Next` from a state whose first call goes to `ADVANCE_ASSEMBLY` in
the state `entered`: what the caller sees, the values of `Current()` and the
reference enumeration. -/
theorem traversal_entered (start : LoadedMethodDescIterator) (sharedDomain : List Assembly)
    (raw : LoadedMethodDescIterator) (pAppDomain : Option AppDomain) (pModule : Module)
    (md : mdMethodDef) (mode : AssemblyIterationMode) (af : AssemblyIterationFlags)
    (mf : ModuleIterationOption) (mainMD : MethodDesc) (h0 : Holder)
    (hg : mainMD.HasClassOrMethodInstantiation = true)
    (hn : Next start h0 = exec ADVANCE_ASSEMBLY
      (entered sharedDomain raw pAppDomain pModule md mode af mf mainMD) h0) :
    ∃ rs, Traversal start h0 rs ∧
      (∀ r ∈ rs, Current r.1 = .ok (resultOf mainMD
        (seenType (startTarget pModule md mode mf mainMD) r.1)
        (seenMethod (startTarget pModule md mode mf mainMD) r.1))) ∧
      rs.map (fun r => resultOf mainMD
        (seenType (startTarget pModule md mode mf mainMD) r.1)
        (seenMethod (startTarget pModule md mode mf mainMD) r.1))
        = flatMapReference mode sharedDomain pAppDomain af mf mainMD pModule md := by
  have hr := entered_ready sharedDomain raw pAppDomain pModule md mode af mf mainMD
  have hp := entered_pending sharedDomain raw pAppDomain pModule md mode af mf mainMD h0
  have key : ∃ rs, Traversal start h0 rs ∧ (∀ r ∈ rs, Ready (startTarget pModule md mode mf
        mainMD) r.1) ∧
      rs.map (fun r => seen (startTarget pModule md mode mf mainMD) r.1 r.2)
        = allHits (startTarget pModule md mode mf mainMD) sharedDomain pAppDomain af h0 := by
    rcases traversal_of_label (startTarget pModule md mode mf mainMD) hg ADVANCE_ASSEMBLY _ h0
        hr trivial with ⟨s1, h1, hex, hnil⟩ | ⟨s1, h1, rs, hex, htr, hrs⟩
    · rw [← hn] at hex
      exact ⟨[], Traversal.done hex, by simp, by rw [← hp, hnil]; rfl⟩
    · have hready1 : Ready (startTarget pModule md mode mf mainMD) s1 := by
        unfold exec at hex
        exact ready_of_fixed _ _ s1 (run_fixed _ _ _ h0 true s1 h1 hex) hr
      rw [← hn] at hex
      refine ⟨(s1, h1) :: rs, Traversal.more hex htr, ?_, by rw [← hp, ← hrs]; rfl⟩
      intro r hr
      rcases List.mem_cons.mp hr with rfl | hr
      · exact hready1
      · exact traversal_ready _ hg s1 h1 rs htr hready1 r hr
  obtain ⟨rs, htr, hready, hseen⟩ := key
  refine ⟨rs, htr, ?_, ?_⟩
  · intro r hr
    have hmem : seen (startTarget pModule md mode mf mainMD) r.1 r.2
        ∈ pendingAssembly (startTarget pModule md mode mf mainMD)
          (entered sharedDomain raw pAppDomain pModule md mode af mf mainMD) h0 := by
      have : seen (startTarget pModule md mode mf mainMD) r.1 r.2
          ∈ rs.map (fun r => seen (startTarget pModule md mode mf mainMD) r.1 r.2) :=
        List.mem_map_of_mem (fun r => seen (startTarget pModule md mode mf mainMD) r.1 r.2) hr
      rw [hseen, ← hp] at this
      exact this
    have hgood := good_pendingAssembly _ _ _ _ hmem
    rw [current_of_seen _ r.1 r.2 (hready r hr), current_of_good _ _ hgood]
    rfl
  · rw [← map_allHits sharedDomain pAppDomain pModule md mode af mf mainMD h0, ← hseen,
      List.map_map]
    rfl

theorem Next_start4 (sharedDomain : List Assembly) (raw : LoadedMethodDescIterator)
    (dAf : AssemblyIterationFlags) (dMf : ModuleIterationOption) (ad : AppDomain)
    (pModule : Module) (md : mdMethodDef) (pMethodDesc : MethodDesc) (h0 : Holder)
    (hg : pMethodDesc.HasClassOrMethodInstantiation = true) :
    Next (Start4 (ctor sharedDomain raw) dAf dMf (some ad) pModule md (some pMethodDesc)) h0
      = exec ADVANCE_ASSEMBLY
          (entered sharedDomain raw (some ad) pModule md kModeAllADAssemblies dAf dMf
            pMethodDesc) h0 := by
  simp [Next, Start4, Start, ctor, entered, hg]

theorem acceptsType_addr (mainMD : MethodDesc) (pModule pModule2 : Module)
    (haddr : pModule2.addr = pModule.addr) (e : EETypeHashEntry) :
    acceptsType mainMD (some pModule2) e = acceptsType mainMD (some pModule) e := by
  simp [acceptsType, neModule, haddr]

theorem acceptsMethod_addr (pModule pModule2 : Module) (md : mdMethodDef)
    (haddr : pModule2.addr = pModule.addr) (e : InstMethodHashEntry) :
    acceptsMethod (some pModule2) md e = acceptsMethod (some pModule) md e := by
  simp [acceptsMethod, neModule, haddr]

/-- The reference enumeration reads the target module by its address only. -/
theorem flatMapReference_addr (mode : AssemblyIterationMode) (sharedDomain : List Assembly)
    (pAppDomain : Option AppDomain) (af : AssemblyIterationFlags) (mf : ModuleIterationOption)
    (mainMD : MethodDesc) (pModule pModule2 : Module) (md : mdMethodDef)
    (haddr : pModule2.addr = pModule.addr) :
    flatMapReference mode sharedDomain pAppDomain af mf mainMD pModule2 md
      = flatMapReference mode sharedDomain pAppDomain af mf mainMD pModule md := by
  simp only [flatMapReference, acceptedTypes, acceptedMethods, acceptsType_addr mainMD pModule
    pModule2 haddr, acceptsMethod_addr pModule pModule2 md haddr]

/-- C19: the four-argument `Start` with a descriptor `pMethodDesc` that is not NULL
leaves the iterator in mode `kModeAllADAssemblies` with `pMethodDesc` as the
target, whatever `LookupMethodDef(md)` is.  For a generic descriptor the values of
`Current()` over the traversal are the reference enumeration for `pMethodDesc` in
that mode, and they are the values after the six-argument `Start` in that mode on
any module of the same address whose token resolves to `pMethodDesc`; when the
token of `pModule` itself resolves to `pMethodDesc` the first call of `Next` is the
same after both.  For a descriptor without instantiation the first call returns
TRUE with `pMethodDesc` as `Current()`.  With a NULL `pMethodDesc` the state is the
one of the six-argument `Start`, so the first `Next` looks the token up. -/
theorem C19_start_with_method_desc (sharedDomain : List Assembly)
    (raw : LoadedMethodDescIterator) (dAf : AssemblyIterationFlags)
    (dMf : ModuleIterationOption) (ad : AppDomain) (pModule : Module) (md : mdMethodDef)
    (pMethodDesc : MethodDesc) (h0 : Holder) :
    (Start4 (ctor sharedDomain raw) dAf dMf (some ad) pModule md
        (some pMethodDesc)).m_assemblyIterationMode = kModeAllADAssemblies
      ∧ (Start4 (ctor sharedDomain raw) dAf dMf (some ad) pModule md
        (some pMethodDesc)).m_mainMD = some pMethodDesc
      ∧ (pMethodDesc.HasClassOrMethodInstantiation = true →
          ∀ fuel, (flatMapReference kModeAllADAssemblies sharedDomain (some ad) dAf dMf
              pMethodDesc pModule md).length < fuel →
            currents fuel (Start4 (ctor sharedDomain raw) dAf dMf (some ad) pModule md
                (some pMethodDesc)) h0
              = .ok (flatMapReference kModeAllADAssemblies sharedDomain (some ad) dAf dMf
                  pMethodDesc pModule md)
            ∧ ∀ pModule2 : Module, pModule2.addr = pModule.addr →
                pModule2.LookupMethodDef md = some pMethodDesc →
                currents fuel (Start (ctor sharedDomain raw) (some ad) pModule2 md
                    kModeAllADAssemblies dAf dMf) h0
                  = currents fuel (Start4 (ctor sharedDomain raw) dAf dMf (some ad) pModule
                      md (some pMethodDesc)) h0)
      ∧ (pModule.LookupMethodDef md = some pMethodDesc →
          ∀ h, Next (Start4 (ctor sharedDomain raw) dAf dMf (some ad) pModule md
              (some pMethodDesc)) h
            = Next (Start (ctor sharedDomain raw) (some ad) pModule md kModeAllADAssemblies
                dAf dMf) h)
      ∧ (pMethodDesc.HasClassOrMethodInstantiation = false →
          ∃ s1, Next (Start4 (ctor sharedDomain raw) dAf dMf (some ad) pModule md
              (some pMethodDesc)) h0 = .ok (true, s1, none)
            ∧ Current s1 = .ok pMethodDesc)
      ∧ Start4 (ctor sharedDomain raw) dAf dMf (some ad) pModule md none
        = Start (ctor sharedDomain raw) (some ad) pModule md kModeAllADAssemblies dAf dMf := by
  refine ⟨rfl, rfl, fun hg fuel hfuel => ?_, fun hlook h => ?_, fun hng => ?_, rfl⟩
  · have h4 : currents fuel (Start4 (ctor sharedDomain raw) dAf dMf (some ad) pModule md
          (some pMethodDesc)) h0
        = .ok (flatMapReference kModeAllADAssemblies sharedDomain (some ad) dAf dMf
            pMethodDesc pModule md) := by
      obtain ⟨rs, htr, hcur, hmap⟩ := traversal_entered _ sharedDomain raw (some ad) pModule md
        kModeAllADAssemblies dAf dMf pMethodDesc h0 hg
        (Next_start4 sharedDomain raw dAf dMf ad pModule md pMethodDesc h0 hg)
      rw [← hmap]
      refine currents_of_traversal
        (fun s => resultOf pMethodDesc
          (seenType (startTarget pModule md kModeAllADAssemblies dMf pMethodDesc) s)
          (seenMethod (startTarget pModule md kModeAllADAssemblies dMf pMethodDesc) s))
        _ h0 rs htr hcur fuel ?_
      rw [← hmap, List.length_map] at hfuel
      exact hfuel
    refine ⟨h4, fun pModule2 haddr hlook2 => ?_⟩
    rw [h4, ← flatMapReference_addr kModeAllADAssemblies sharedDomain (some ad) dAf dMf
      pMethodDesc pModule pModule2 md haddr]
    obtain ⟨rs, htr, _, hcur, hmap⟩ := traversal_start_full sharedDomain raw (some ad) pModule2
      md kModeAllADAssemblies dAf dMf pMethodDesc h0 hlook2 hg (Or.inr rfl)
    rw [← hmap]
    refine currents_of_traversal
      (fun s => resultOf pMethodDesc
        (seenType (startTarget pModule2 md kModeAllADAssemblies dMf pMethodDesc) s)
        (seenMethod (startTarget pModule2 md kModeAllADAssemblies dMf pMethodDesc) s))
      _ h0 rs htr hcur fuel ?_
    rw [← flatMapReference_addr kModeAllADAssemblies sharedDomain (some ad) dAf dMf
      pMethodDesc pModule pModule2 md haddr, ← hmap, List.length_map] at hfuel
    exact hfuel
  · simp [Next, Start4, Start, ctor, hlook]
  · refine ⟨{ Start4 (ctor sharedDomain raw) dAf dMf (some ad) pModule md (some pMethodDesc)
        with m_fFirstTime := false }, ?_, ?_⟩
    · simp [Next, Start4, Start, ctor, hng]
    · simp only [MethodDesc.HasClassOrMethodInstantiation, Bool.or_eq_false_iff] at hng
      simp [Current, Start4, hng.1, hng.2]

/-- C19 on the sample: in the module `Munresolved`, at the address of `M`, no token
resolves; after the four-argument `Start` with the fully generic descriptor the
traversal has the four results of `M` in the assembly `N` and the four in `A`, as
after the six-argument `Start` on `M`, where the token resolves to the
descriptor. -/
theorem C19_start_with_method_desc_witness :
    Sample.Munresolved.LookupMethodDef 0x06000012 = none
      ∧ currents 9 (Start4 (ctor [] Sample.raw) 0 0 (some Sample.D) Sample.Munresolved
          0x06000012 (some Sample.fullMD)) none
        = .ok [Sample.fullMD_int, Sample.fullMD_string, Sample.fullMD_int,
            Sample.fullMD_string, Sample.fullMD_int, Sample.fullMD_string,
            Sample.fullMD_int, Sample.fullMD_string]
      ∧ currents 9 (Sample.startAll 0x06000012) none
        = currents 9 (Start4 (ctor [] Sample.raw) 0 0 (some Sample.D) Sample.Munresolved
            0x06000012 (some Sample.fullMD)) none :=
  ⟨rfl,
    ((C19_start_with_method_desc [] Sample.raw 0 0 Sample.D Sample.Munresolved 0x06000012
      Sample.fullMD none).2.2.1 rfl 9 (by decide)).1.trans rfl,
    ((C19_start_with_method_desc [] Sample.raw 0 0 Sample.D Sample.Munresolved 0x06000012
      Sample.fullMD none).2.2.1 rfl 9 (by decide)).2 Sample.M rfl rfl⟩

end LoadedMethodDescIterator

end MethodIter
